import Mathlib

/-!
Galerkin-difference prolongation and cut-cell integrators (`exAdvection_GD.cpp`).

A shallow embedding of the 1-D Galerkin-difference example.  Floating point
numbers (`double`) are modelled by the elements of a linearly ordered field `K`
(exact arithmetic; `ℚ` for evaluation), `int` element ids and sizes by `Nat`
or `Int`.  `mfem::Array<int>` is a `List Nat`.
-/

namespace GD

variable {K : Type} [LinearOrderedField K]

/-! ## Definitions -/

/-- Method `Array<int>::Find`: index of the first occurrence of `x`, `-1` when absent. -/
def Find (a : List Nat) (x : Nat) : Int :=
  if x ∈ a then (a.indexOf x : Int) else -1

/-- Lines 690-696 of `GetNeighbourSet`: every entry of `adj` that is not yet
found in `nels` is appended to `nels`. -/
def appendAdj (nels adj : List Nat) : List Nat :=
  adj.foldl (fun acc a => if Find acc a = -1 then acc ++ [a] else acc) nels

/-- Lines 706-714: the row `cand_adj` of one candidate is scanned, the ids not
found in `nels` are appended to the running list (`adj`, and likewise
`cand_next`). -/
def scanRow (nels cand_adj acc : List Nat) : List Nat :=
  cand_adj.foldl (fun acc x => if Find nels x = -1 then acc ++ [x] else acc) acc

/-- Lines 699-716: after `adj.LoseData()`, the rows of all candidates are
scanned in order. -/
def scanCand (table : Nat → List Nat) (nels cand : List Nat) : List Nat :=
  cand.foldl (fun acc c => scanRow nels (table c) acc) []

/-- The local arrays of `GetNeighbourSet` that live across loop rounds
(`cand_next` is empty at the start and at the end of every round). -/
structure NbrState where
  nels : List Nat
  adj : List Nat
  cand : List Nat
deriving DecidableEq, Repr

/-- One round of the `while` loop body (lines 690-721).  `adj` and `cand_next`
receive the same appends starting from empty lists, and `cand = cand_next`. -/
def nbrRound (table : Nat → List Nat) (st : NbrState) : NbrState :=
  let nels := appendAdj st.nels st.adj
  let adj := scanCand table nels st.cand
  let cand_next := scanCand table nels st.cand
  { nels := nels, adj := adj, cand := cand_next }

/-- The `while (nels.Size() < req_n)` loop, allowed at most `fuel` rounds;
`none` when the loop is still running after `fuel` rounds. -/
def nbrLoop (table : Nat → List Nat) (req_n : Nat) : Nat → NbrState → Option (List Nat)
  | 0, st => if st.nels.length < req_n then none else some st.nels
  | fuel + 1, st =>
    if st.nels.length < req_n then nbrLoop table req_n fuel (nbrRound table st)
    else some st.nels

/-- State before the loop (lines 681-687): `nels = [id]`, `adj` and `cand` are
the adjacency row of `id`. -/
def nbrInit (table : Nat → List Nat) (id : Nat) : NbrState :=
  { nels := [id], adj := table id, cand := table id }

/-- Method `GalerkinDifference::GetNeighbourSet(id, req_n, nels)` on the element to
element table `table`, run for at most `fuel` rounds of its loop. -/
def GetNeighbourSet (table : Nat → List Nat) (id req_n fuel : Nat) : Option (List Nat) :=
  nbrLoop table req_n fuel (nbrInit table id)

/-- Element to element table of the 1-D chain mesh with `N` elements: element
`i` is adjacent to `i-1` and `i+1` where they exist. -/
def chainTable (N : Nat) (i : Nat) : List Nat :=
  (if 0 < i ∧ i < N then [i - 1] else []) ++ (if i + 1 < N then [i + 1] else [])

/-- Lines 749-757 of `BuildGDProlongation`: the minimum number of elements in
each patch, `degree + 2` for odd `degree` and `degree + 1` for even. -/
def nelmt (degree : Nat) : Nat :=
  if degree % 2 ≠ 0 then degree + 2 else degree + 1

/-- Ids first met in round `r + 1` of the search around seed `i` on the chain
of `N` elements (proof device: the expected content of `adj` after `r` rounds). -/
def chainFrontier (N i r : Nat) : List Nat :=
  (if r + 1 ≤ i then [i - (r + 1)] else []) ++ (if i + r + 1 < N then [i + r + 1] else [])

/-- Expected content of `nels` after `r` rounds of the search around seed `i`
on the chain of `N` elements (proof device). -/
def chainNels (N i : Nat) : Nat → List Nat
  | 0 => [i]
  | r + 1 => chainNels N i r ++ chainFrontier N i r

/-- Expected loop state after `r` rounds on the chain (proof device). -/
def chainState (N i r : Nat) : NbrState :=
  { nels := chainNels N i r, adj := chainFrontier N i r, cand := chainFrontier N i r }

/-- Class `mfem::DenseMatrix`: `Height` rows, `Width` columns, `elem i j` is the
entry read by `operator()(i, j)`. -/
structure DenseMatrix (K : Type) where
  Height : Nat
  Width : Nat
  elem : Nat → Nat → K

/-- Modelled from the spec: the LAPACK routine `dgels` called with `TRANS = 'N'`
on the `m` by `n` matrix `A` and the `m` by `nrhs` right-hand side `B` ("solves,
in the least-squares sense, `V * C = I`"; "signals a fatal error if ... the design
matrix is rank-deficient").  In exact arithmetic the least-squares solution of a
full-rank system is the solution of the normal equations.  `none` stands for
`info != 0` (wrong leading dimension when `m < n`, rank deficiency otherwise).
On exit the rows `0 .. n-1` of `B` hold the solution; the remaining rows are not
read by the caller and are returned as zero. -/
def dgels (m n nrhs : Nat) (A B : Nat → Nat → K) : Option (Nat → Nat → K) :=
  let V : Matrix (Fin m) (Fin n) K := Matrix.of fun i p => A i p
  let R : Matrix (Fin m) (Fin nrhs) K := Matrix.of fun i c => B i c
  let G : Matrix (Fin n) (Fin n) K := V.transpose * V
  if m < n ∨ G.det = 0 then none
  else
    let X : Matrix (Fin n) (Fin nrhs) K := (G.det⁻¹ • G.adjugate) * V.transpose * R
    some (fun p c => if h : p < n ∧ c < nrhs then X ⟨p, h.1⟩ ⟨c, h.2⟩ else 0)

set_option linter.unusedVariables false in
/-- Function `buildLSInterpolation(dim, degree, x_center, x_quad, interp)`: only row 0 of
the coordinate matrices is read.  `none` when the assertion `info == 0` fails. -/
def buildLSInterpolation (dim degree : Nat) (x_center x_quad : DenseMatrix K) :
    Option (DenseMatrix K) :=
  let num_quad := x_quad.Width
  let num_elem := x_center.Width
  let num_basis := degree + 1
  let V : Nat → Nat → K := fun i p => (x_center.elem 0 i - x_center.elem 0 0) ^ p
  let coeff : Nat → Nat → K := fun i j => if i = j then 1 else 0
  match dgels num_elem num_basis num_elem V coeff with
  | none => none
  | some coeff =>
    some { Height := num_quad, Width := num_elem,
           elem := fun j i => (List.range (degree + 1)).foldl
             (fun acc p => acc + (x_quad.elem 0 j - x_center.elem 0 0) ^ p * coeff p i) 0 }

/-- Modelled from the spec: `mfem::SparseMatrix` ("a sparse-matrix container
supporting indexed sub-matrix insertion"), seen through its entries: `elem r c`
is the stored value at row `r`, column `c`, and `0` where nothing is stored. -/
structure SparseMatrix (K : Type) where
  Height : Nat
  Width : Nat
  elem : Nat → Nat → K

/-- Modelled from the spec: setting one entry of the sparse matrix. -/
def SparseMatrix.SetEntry (A : SparseMatrix K) (gi gj : Nat) (a : K) : SparseMatrix K :=
  { A with elem := fun r c => if r = gi ∧ c = gj then a else A.elem r c }

/-- Modelled from the spec: the column loop of `SparseMatrix::SetSubMatrix` for
the local row `i` written to the global row `gi`.  With a non-zero `skip_zeros`
(the caller passes `1`, and its row and column arrays are different objects) a
zero entry of the local matrix is not written. -/
def SparseMatrix.SetSubMatrixRow (A : SparseMatrix K) (gi : Nat) (cols : List Nat)
    (subm : DenseMatrix K) (skip_zeros i : Nat) : SparseMatrix K :=
  (List.range cols.length).foldl (fun A j =>
    if skip_zeros ≠ 0 ∧ subm.elem i j = 0 then A
    else A.SetEntry gi (cols.getD j 0) (subm.elem i j)) A

/-- Modelled from the spec: `SparseMatrix::SetSubMatrix(rows, cols, subm,
skip_zeros)`, "indexed sub-matrix insertion": entry `(i, j)` of `subm` is written
at row `rows[i]`, column `cols[j]`. -/
def SparseMatrix.SetSubMatrix (A : SparseMatrix K) (rows cols : List Nat)
    (subm : DenseMatrix K) (skip_zeros : Nat) : SparseMatrix K :=
  (List.range rows.length).foldl (fun A i =>
    A.SetSubMatrixRow (rows.getD i 0) cols subm skip_zeros i) A

/-- Modelled from the spec: the matrix-vector product `P * c` of the operator
("a sparse operator `P` usable as `P·c` (compact to dense)"). -/
def SparseMatrix.Mult (A : SparseMatrix K) (x : Nat → K) : Nat → K :=
  fun r => ∑ c ∈ Finset.range A.Width, A.elem r c * x c

/-- Method `Array<int>::GetSubArray(offset, sa_size, sa)`. -/
def GetSubArray (a : List Nat) (offset sa_size : Nat) : List Nat :=
  (List.range sa_size).map (fun i => a.getD (offset + i) 0)

/-- What `GalerkinDifference` reads from its collaborators in one space
dimension (`dim = 1`): the mesh (element count, element to element table,
element transformations), the reference nodes of the segment element
(`fe->GetNodes()`, so `num_dofs = Nodes.length`) and the dense dof numbering of
the base finite element space. -/
structure GalerkinDifference (K : Type) where
  nEle : Nat
  vdim : Nat
  degree : Nat
  ElementToElementTable : Nat → List Nat
  Transform : Nat → K → K
  Nodes : List K
  GetVSize : Nat
  GetElementVDofs : Nat → List Nat

/-- Method `GalerkinDifference::GetElementCenter`: the image of the reference centre of
the segment, `Geometries.GetCenter(Geometry::SEGMENT) = 0.5`. -/
def GalerkinDifference.GetElementCenter (gd : GalerkinDifference K) (id : Nat) : K :=
  gd.Transform id (1 / 2)

/-- Lines 634-662 of `BuildNeighbourMat`: the physical images of the reference
nodes, pushed to `quad_data` element after element. -/
def GalerkinDifference.quad_data (gd : GalerkinDifference K) (elmt_id : List Nat) : List K :=
  elmt_id.foldl (fun qd id => gd.Nodes.foldl (fun qd eip => qd ++ [gd.Transform id eip]) qd) []

/-- Method `GalerkinDifference::BuildNeighbourMat(elmt_id, mat_cent, mat_quad)` for
`dim = 1`; the result is the pair `(mat_cent, mat_quad)`. -/
def GalerkinDifference.BuildNeighbourMat (gd : GalerkinDifference K) (elmt_id : List Nat) :
    DenseMatrix K × DenseMatrix K :=
  let num_el := elmt_id.length
  let mat_cent : DenseMatrix K :=
    { Height := 1, Width := num_el, elem := fun _ j => gd.GetElementCenter (elmt_id.getD j 0) }
  let quad_data := gd.quad_data elmt_id
  let num_col := quad_data.length / 1
  let mat_quad : DenseMatrix K :=
    { Height := 1, Width := num_col, elem := fun j i => quad_data.getD (i * 1 + j) 0 }
  (mat_cent, mat_quad)

/-- Method `GalerkinDifference::AssembleProlongationMatrix(id, local_mat)` acting on the
operator `cP`. The loop state is the operator and `col_index`. -/
def GalerkinDifference.AssembleProlongationMatrix (gd : GalerkinDifference K)
    (cP : SparseMatrix K) (id : List Nat) (local_mat : DenseMatrix K) : SparseMatrix K :=
  let num_dofs := gd.Nodes.length
  let nel := id.length
  let el_id := id.getD 0 0
  let el_dofs := gd.GetElementVDofs el_id
  let col_index := (List.range nel).map (fun e => gd.vdim * id.getD e 0)
  ((List.range gd.vdim).foldl (fun (st : SparseMatrix K × List Nat) v =>
    let row_index := GetSubArray el_dofs (v * num_dofs) num_dofs
    (st.1.SetSubMatrix row_index st.2 local_mat 1, st.2.map (fun c => c + 1)))
    (cP, col_index)).1

/-- Body of the element loop of `BuildGDProlongation` (lines 771-783) for the
element `i`; `none` when the patch search does not return within `fuel` rounds
or the least-squares solve fails. -/
def GalerkinDifference.prolongationStep (gd : GalerkinDifference K) (fuel : Nat)
    (cP : SparseMatrix K) (i : Nat) : Option (SparseMatrix K) :=
  match GetNeighbourSet gd.ElementToElementTable i (nelmt gd.degree) fuel with
  | none => none
  | some elmt_id =>
    match buildLSInterpolation 1 gd.degree (gd.BuildNeighbourMat elmt_id).1
        (gd.BuildNeighbourMat elmt_id).2 with
    | none => none
    | some local_mat => some (gd.AssembleProlongationMatrix cP elmt_id local_mat)

/-- The element loop `for (int i = 0; i < nEle; i++)` over the remaining
elements. -/
def GalerkinDifference.prolongationLoop (gd : GalerkinDifference K) (fuel : Nat) :
    List Nat → SparseMatrix K → Option (SparseMatrix K)
  | [], cP => some cP
  | i :: rest, cP =>
    match gd.prolongationStep fuel cP i with
    | none => none
    | some cP1 => gd.prolongationLoop fuel rest cP1

/-- Method `GalerkinDifference::BuildGDProlongation`: the operator `cP` starts as the
empty `GetVSize() x (vdim * nEle)` matrix and receives the local reconstruction
of every element. -/
def GalerkinDifference.BuildGDProlongation (gd : GalerkinDifference K) (fuel : Nat) :
    Option (SparseMatrix K) :=
  gd.prolongationLoop fuel (List.range gd.nEle)
    { Height := gd.GetVSize, Width := gd.vdim * gd.nEle, elem := fun _ _ => 0 }

/-- Modelled from the spec: the Galerkin difference space of the driver, on the
mesh `Mesh(N, 1)` (the unit interval cut into `N` equal segments numbered from
left to right, "a 1-D chain mesh"), with vector dimension 1 and the
discontinuous dof layout ("distinct elements own disjoint dense-dof row
ranges"): element `i` owns the dense dofs `i * num_dofs + j`. -/
def chainGD (N degree : Nat) (nodes : List K) : GalerkinDifference K :=
  { nEle := N
    vdim := 1
    degree := degree
    ElementToElementTable := chainTable N
    Transform := fun i x => ((i : K) + x) / (N : K)
    Nodes := nodes
    GetVSize := N * nodes.length
    GetElementVDofs := fun i => (List.range nodes.length).map (fun j => i * nodes.length + j) }

/-- Class `mfem::IntegrationPoint` in one dimension: reference coordinate and
quadrature weight. -/
structure IntegrationPoint (K : Type) where
  x : K
  weight : K

/-- Class `mfem::ElementTransformation` of an affine segment: the element number and
the (constant) Jacobian weight `Weight()`. -/
structure ElementTransformation (K : Type) where
  ElementNo : Int
  Weight : K

/-- Class `mfem::FaceElementTransformations` as read by the face integrators: the
face number `Face->ElementNo`, the numbers and Jacobian weights of the two
adjacent elements (`Elem2No < 0` on a boundary face). -/
structure FaceElementTransformations (K : Type) where
  FaceNo : Int
  Elem1No : Int
  Elem2No : Int
  Weight1 : K
  Weight2 : K

/-- Lines 311-322 (and 378-386, 213-221): the rule `cutir`, every point of `ir`
with the coordinate `(scale * ip.x) / Weight()` and the weight of `ip`. -/
def cutRule (scale W : K) (ir : List (IntegrationPoint K)) : List (IntegrationPoint K) :=
  ir.map (fun ip => { x := (scale * ip.x) / W, weight := ip.weight })

/-- Method `CutDomainLFIntegrator::AssembleRHSElementVect(el, Tr, elvect)` with members
`scale`, `nels`, `Q`; `CalcShape` is `el.CalcShape`, `Q` is `Q.Eval(Tr, .)`, `ir`
the quadrature rule.  The result is `elvect` as a function of the index. -/
def CutDomainLFIntegrator.AssembleRHSElementVect (scale : K) (nels : Int)
    (Q : IntegrationPoint K → K) (CalcShape : IntegrationPoint K → Nat → K)
    (Tr : ElementTransformation K) (ir : List (IntegrationPoint K)) : Nat → K :=
  let cutir : List (IntegrationPoint K) :=
    if Tr.ElementNo = nels - 1 then cutRule scale Tr.Weight ir
    else ir.map (fun _ => { x := 0, weight := 0 })
  (List.range ir.length).foldl (fun elvect i =>
    let ip := ir.getD i { x := 0, weight := 0 }
    let cutip := cutir.getD i { x := 0, weight := 0 }
    let val : K := if Tr.ElementNo = nels - 1 then scale * Q cutip else Tr.Weight * Q ip
    let shape : Nat → K := if Tr.ElementNo = nels - 1 then CalcShape cutip else CalcShape ip
    fun k => elvect k + ip.weight * val * shape k) (fun _ => 0)

/-- Method `AdvectionIntegrator::AssembleElementMatrix(el, Trans, elmat)` in one space
dimension, with members `scale`, `nels`, `alpha`, `Q`.  The Jacobian is a
`1 x 1` matrix, so `CalcAdjugate` yields the matrix `(1)`; `Q` is the velocity
coefficient evaluated at a point (one column of `Q_ir`). -/
def AdvectionIntegrator.AssembleElementMatrix (scale : K) (nels : Int) (alpha : K)
    (Q : IntegrationPoint K → K) (CalcShape CalcDShape : IntegrationPoint K → Nat → K)
    (Trans : ElementTransformation K) (ir : List (IntegrationPoint K)) : Nat → Nat → K :=
  if Trans.ElementNo = nels - 1 then
    let cutir := cutRule scale Trans.Weight ir
    (List.range cutir.length).foldl (fun elmat i =>
      let ip := cutir.getD i { x := 0, weight := 0 }
      let dshape := CalcDShape ip
      let shape := CalcShape ip
      let adjJ : K := 1 * (scale / Trans.Weight)
      let vec1 : K := Q ip * (alpha * ip.weight)
      let vec2 : K := adjJ * vec1
      let BdFidxT : Nat → K := fun j => dshape j * vec2
      fun a b => elmat a b + shape a * BdFidxT b) (fun _ _ => 0)
  else
    (List.range ir.length).foldl (fun elmat i =>
      let ip := ir.getD i { x := 0, weight := 0 }
      let dshape := CalcDShape ip
      let shape := CalcShape ip
      let adjJ : K := 1 * 1
      let vec1 : K := Q ip * (alpha * ip.weight)
      let vec2 : K := adjJ * vec1
      let BdFidxT : Nat → K := fun j => dshape j * vec2
      fun a b => elmat a b + shape a * BdFidxT b) (fun _ _ => 0)

/-- Point at which `CutDomainLFIntegrator::AssembleRHSElementVect` evaluates the
coefficient and the basis for the quadrature point `ip` (lines 313-339). -/
def CutDomainLFIntegrator.evalPoint (scale : K) (nels : Int) (Tr : ElementTransformation K)
    (ip : IntegrationPoint K) : IntegrationPoint K :=
  if Tr.ElementNo = nels - 1 then { x := (scale * ip.x) / Tr.Weight, weight := ip.weight }
  else ip

/-- Point at which `AdvectionIntegrator::AssembleElementMatrix` evaluates the
coefficient and the basis for the quadrature point `ip` (lines 376-413). -/
def AdvectionIntegrator.evalPoint (scale : K) (nels : Int) (Trans : ElementTransformation K)
    (ip : IntegrationPoint K) : IntegrationPoint K :=
  if Trans.ElementNo = nels - 1 then { x := (scale * ip.x) / Trans.Weight, weight := ip.weight }
  else ip

set_option linter.unusedVariables false in
/-- Point of element 1 used by the face version of
`BoundaryAdvectIntegrator::AssembleRHSElementVect` (lines 567-594); `none` on
the face number 0, where the vector is set to zero and nothing is evaluated.
The member `nels` is not read. -/
def BoundaryAdvectIntegrator.evalPoint (scale : K) (nels : Int)
    (Tr : FaceElementTransformations K) (eip : IntegrationPoint K) :
    Option (IntegrationPoint K) :=
  if Tr.FaceNo = 0 then none
  else some { eip with x := (scale * eip.x) / Tr.Weight1 }

/-- Point at which `CutComputeL2Error` evaluates the discrete and the exact
solution on the element of transformation `T` (lines 208-264); `NE` is
`fes->GetNE()`. -/
def CutComputeL2Error.evalPoint (scale : K) (NE : Int) (T : ElementTransformation K)
    (ip : IntegrationPoint K) : IntegrationPoint K :=
  if T.ElementNo = NE - 1 then { x := (scale * ip.x) / T.Weight, weight := ip.weight }
  else ip

/-- Linear nodal basis on the reference segment, `(1 - x, x)`. -/
def linearShape (ip : IntegrationPoint ℚ) (k : Nat) : ℚ :=
  if k = 0 then 1 - ip.x else if k = 1 then ip.x else 0

/-- Derivatives of the linear nodal basis, `(-1, 1)`. -/
def linearDShape (_ip : IntegrationPoint ℚ) (k : Nat) : ℚ :=
  if k = 0 then -1 else if k = 1 then 1 else 0

/-- The `1 x 1` sample coordinate matrix holding the single coordinate `x`. -/
def sampleAt (x : K) : DenseMatrix K :=
  { Height := 1, Width := 1, elem := fun _ _ => x }

/-- A local matrix with one row and the entries `1, 2`. -/
def rowOneTwo : DenseMatrix ℚ :=
  { Height := 1, Width := 2, elem := fun _ e => (e : ℚ) + 1 }

/-- The empty operator with `h` rows and `w` columns. -/
def emptyOperator (K : Type) [LinearOrderedField K] (h w : Nat) : SparseMatrix K :=
  { Height := h, Width := w, elem := fun _ _ => 0 }

/-- Centroids `1/2, 3/2, 5/2` of three unit elements, as a `1 x 3` matrix. -/
def cent3 : DenseMatrix ℚ :=
  { Height := 1, Width := 3, elem := fun _ i => (i : ℚ) + 1 / 2 }

/-- The two sample coordinates `1` and `2`, as a `1 x 2` matrix. -/
def quad2 : DenseMatrix ℚ :=
  { Height := 1, Width := 2, elem := fun _ j => (j : ℚ) + 1 }

/-- Lines 45-47 of `main`: `scale = 1.0 / nels; scale = scale / cutsize`, where
`nels = mesh->GetNE()` is the element count `N` of `Mesh(N, 1)`. -/
def driverScale (K : Type) [LinearOrderedField K] (nels cutsize : Int) : K :=
  (1 / (nels : K)) / (cutsize : K)

/-- Elements at adjacency-graph distance at most `r` from `seed`: the seed, and
with every element its table row, `r` times. -/
def ball (table : Nat → List Nat) (seed : Nat) : Nat → Finset Nat
  | 0 => {seed}
  | r + 1 => ball table seed r ∪ (ball table seed r).biUnion (fun x => (table x).toFinset)

/-- Elements joined to `seed` by a path of table rows: the mesh component of
the seed. -/
def Reachable (table : Nat → List Nat) (seed x : Nat) : Prop :=
  Relation.ReflTransGen (fun a b => b ∈ table a) seed x

/-- Constructor `CentGridFunction::CentGridFunction(f)`: `SetSize(vdim * NE)`;
the new entries are not initialised, `garbage` stands for what the memory
holds. -/
def CentGridFunction.create (vdim NE : Nat) (garbage : Nat → K) : List K :=
  (List.range (vdim * NE)).map garbage

/-- The index loop of `Vector::SetSubVector(dofs, elemvect)` over the remaining
indices: `data[dofs[j]] = elemvect[j]`; `none` when an index is out of range. -/
def SetSubVectorLoop (dofs : List Nat) (elemvect : List K) : List Nat → List K → Option (List K)
  | [], data => some data
  | j :: js, data =>
    if dofs.getD j 0 < data.length ∧ j < elemvect.length then
      SetSubVectorLoop dofs elemvect js (data.set (dofs.getD j 0) (elemvect.getD j 0))
    else none

/-- Modelled from the spec: `Vector::SetSubVector(dofs, elemvect)`, the
"elementwise assignment" of the container. -/
def SetSubVector (data : List K) (dofs : List Nat) (elemvect : List K) : Option (List K) :=
  SetSubVectorLoop dofs elemvect (List.range dofs.length) data

/-- Body of the element loop of `CentGridFunction::ProjectCoefficient` (lines
912-928) for the element `i`.  `MapType i` is `fes->GetFE(i)->GetMapType()`,
`Weight i` the Jacobian weight at the centre, `Transform i (1/2)` the centroid
and `coeff x j` component `j` of the coefficient at the point `x`.  `none` when
an index is out of range; note that `vals` is indexed by the element number `i`
in the line `vals(i) *= eltransf->Weight()`. -/
def CentGridFunction.projectStep (vdim : Nat) (MapType : Nat → Int) (Weight : Nat → K)
    (Transform : Nat → K → K) (coeff : K → Nat → K) (data : List K) (i : Nat) :
    Option (List K) :=
  let vdofs := (List.range vdim).map (fun j => i * vdim + j)
  let vals := (List.range vdofs.length).map (fun j => coeff (Transform i (1 / 2)) j)
  if MapType i = 1 then
    if i < vals.length then
      SetSubVector data vdofs (vals.set i (vals.getD i 0 * Weight i))
    else none
  else SetSubVector data vdofs vals

/-- The element loop `for (int i = 0; i < fes->GetNE(); i++)` of
`ProjectCoefficient` over the remaining elements. -/
def CentGridFunction.projectLoop (vdim : Nat) (MapType : Nat → Int) (Weight : Nat → K)
    (Transform : Nat → K → K) (coeff : K → Nat → K) : List Nat → List K → Option (List K)
  | [], data => some data
  | i :: rest, data =>
    match CentGridFunction.projectStep vdim MapType Weight Transform coeff data i with
    | none => none
    | some data1 =>
      CentGridFunction.projectLoop vdim MapType Weight Transform coeff rest data1

/-- Method `CentGridFunction::ProjectCoefficient(coeff)` acting on the entries `data`
of the container, for a space with `NE` elements and vector dimension `vdim`. -/
def CentGridFunction.ProjectCoefficient (vdim NE : Nat) (MapType : Nat → Int)
    (Weight : Nat → K) (Transform : Nat → K → K) (coeff : K → Nat → K) (data : List K) :
    Option (List K) :=
  CentGridFunction.projectLoop vdim MapType Weight Transform coeff (List.range NE) data

/-- Body of the element loop of `CutComputeL2Error` (lines 203-275) with
`p = 2`: the contribution of element `i` is added to `error`.  `uh i ip` is the
value of the discrete field (`x.GetValues`), `exsol i ip` the exact solution
(`exsol.Eval(*T, ip)`), `ir i` the quadrature rule and `Weight i` the Jacobian
weight of element `i`; the transformation of element `i` has `ElementNo = i`. -/
def CutComputeL2Error.elementError (scale : K) (NE : Nat)
    (uh exsol : Nat → IntegrationPoint K → K) (ir : Nat → List (IntegrationPoint K))
    (Weight : Nat → K) (error : K) (i : Nat) : K :=
  if (i : Int) = (NE : Int) - 1 then
    let cutir := cutRule scale (Weight i) (ir i)
    (List.range cutir.length).foldl (fun error j =>
      let ip := cutir.getD j { x := 0, weight := 0 }
      let err : K := |uh i ip| - exsol i ip
      let err : K := err ^ 2
      error + ip.weight * scale * err) error
  else
    (List.range (ir i).length).foldl (fun error j =>
      let ip := (ir i).getD j { x := 0, weight := 0 }
      let err : K := |uh i ip - exsol i ip|
      let err : K := err ^ 2
      error + ip.weight * Weight i * err) error

/-- Lines 195-276 of `CutComputeL2Error`: the value of `error` after the loop
over all elements. -/
def CutComputeL2Error.error (scale : K) (NE : Nat)
    (uh exsol : Nat → IntegrationPoint K → K) (ir : Nat → List (IntegrationPoint K))
    (Weight : Nat → K) : K :=
  (List.range NE).foldl (CutComputeL2Error.elementError scale NE uh exsol ir Weight) 0

/-- Function `CutComputeL2Error(x, fes, exsol, scale)`: the signed root of the
accumulated `error` (lines 277-290).  The library call `pow(., 1. / p)` with
`p = 2` is the parameter `root`. -/
def CutComputeL2Error (root : K → K) (scale : K) (NE : Nat)
    (uh exsol : Nat → IntegrationPoint K → K) (ir : Nat → List (IntegrationPoint K))
    (Weight : Nat → K) : K :=
  if CutComputeL2Error.error scale NE uh exsol ir Weight < 0 then
    -(root (-(CutComputeL2Error.error scale NE uh exsol ir Weight)))
  else root (CutComputeL2Error.error scale NE uh exsol ir Weight)

/-- Modelled from the spec: the purely discontinuous dof layout of the base
space ("for a purely discontinuous layout, distinct elements own disjoint
dense-dof row ranges"): `GetElementVDofs(i)` lists `vdim * num_dofs` different
dense dofs, and no dense dof belongs to two elements. -/
def GalerkinDifference.DiscontinuousLayout (gd : GalerkinDifference K) : Prop :=
  (∀ i, i < gd.nEle → (gd.GetElementVDofs i).length = gd.vdim * gd.Nodes.length ∧
    (gd.GetElementVDofs i).Nodup) ∧
  ∀ i, i < gd.nEle → ∀ j, j < gd.nEle → i ≠ j →
    ∀ r, r ∈ gd.GetElementVDofs i → r ∉ gd.GetElementVDofs j

/-- Frame description of an update `F` of the operator: `F` keeps the size, and
every entry of the result is the value fixed by `W` where `W` has one, and the
entry the operator had before elsewhere. -/
def Overwrites (F : SparseMatrix K → SparseMatrix K) (W : Nat → Nat → Option K) : Prop :=
  ∀ A, (F A).Height = A.Height ∧ (F A).Width = A.Width ∧
    ∀ r c, (F A).elem r c = (W r c).getD (A.elem r c)


/-- Indices at which the body of the element loop of
`CentGridFunction::ProjectCoefficient` (lines 912-928) reads or writes the value
vector `vals` for the element `i`, in program order: `coeff.Eval` fills the
`vdim` entries, the line `vals(i) *= eltransf->Weight()` touches the entry with
the element number `i` when the map type is 1, and `SetSubVector(vdofs, vals)`
reads the `vdim` entries. -/
def CentGridFunction.valsAccess (vdim : Nat) (MapType : Nat → Int) (i : Nat) : List Nat :=
  List.range vdim ++ (if MapType i = 1 then [i] else []) ++ List.range vdim

/-- Indices of the container written by `SetSubVector(vdofs, vals)` in the round
of `ProjectCoefficient` for the element `i` (`vdofs[j] = i * vdim + j`). -/
def CentGridFunction.dataWrites (vdim i : Nat) : List Nat :=
  (List.range vdim).map (fun j => i * vdim + j)


set_option linter.unusedVariables false in
/-- Face version of `BoundaryAdvectIntegrator::AssembleRHSElementVect(el, Tr, elvect)`
(lines 555-605) in one space dimension, with members `scale`, `nels`, `alpha`,
`beta`, `u`, `uD`; `Loc1` is `Tr.Loc1.Transform`, `ir` the face quadrature rule.
The member `nels` is not read. -/
def BoundaryAdvectIntegrator.AssembleRHSElementVect (scale : K) (nels : Int) (alpha beta : K)
    (u uD : IntegrationPoint K → K) (CalcShape : IntegrationPoint K → Nat → K)
    (Tr : FaceElementTransformations K) (Loc1 : IntegrationPoint K → IntegrationPoint K)
    (ir : List (IntegrationPoint K)) : Nat → K :=
  if Tr.FaceNo = 0 then fun _ => 0
  else
    (List.range ir.length).foldl (fun elvect p =>
      let ip := ir.getD p { x := 0, weight := 0 }
      let eip := Loc1 ip
      let eip := { eip with x := (scale * eip.x) / Tr.Weight1 }
      let shape := CalcShape eip
      let vu := u eip
      let nor : K := 1
      let un := vu * nor
      let w := -(1 / 2) * alpha * un + beta * |un|
      let w := w * (ip.weight * uD eip)
      fun k => elvect k + w * shape k) (fun _ => 0)


/-! ## Theorems -/

theorem Find_eq_neg_one {a : List Nat} {x : Nat} : Find a x = -1 ↔ x ∉ a := by
  unfold Find
  split
  · rename_i h
    constructor
    · intro h1; omega
    · intro h1; exact absurd h h1
  · rename_i h
    simp [h]

theorem appendAdj_spec (adj nels : List Nat) :
    ∃ t, appendAdj nels adj = nels ++ t ∧ (nels.Nodup → (nels ++ t).Nodup) ∧
      (∀ x, x ∈ t → x ∈ adj) ∧ (∀ x, x ∈ adj → x ∈ nels ++ t) := by
  unfold appendAdj
  induction adj generalizing nels with
  | nil => exact ⟨[], by simp⟩
  | cons a adj ih =>
    simp only [List.foldl_cons]
    by_cases h : Find nels a = -1
    · rw [if_pos h]
      obtain ⟨t, h1, h2, h3, h4⟩ := ih (nels ++ [a])
      refine ⟨a :: t, by simpa using h1, ?_, ?_, ?_⟩
      · intro hn
        have : (nels ++ [a]).Nodup := by
          rw [List.nodup_append]
          refine ⟨hn, List.nodup_singleton a, ?_⟩
          intro x hx hx2
          simp only [List.mem_singleton] at hx2
          subst hx2
          exact (Find_eq_neg_one.mp h) hx
        simpa using h2 this
      · intro x hx
        rcases List.mem_cons.mp hx with rfl | hx
        · simp
        · exact List.mem_cons_of_mem _ (h3 x hx)
      · intro x hx
        rcases List.mem_cons.mp hx with rfl | hx
        · simp
        · simpa using h4 x hx
    · rw [if_neg h]
      obtain ⟨t, h1, h2, h3, h4⟩ := ih nels
      refine ⟨t, h1, h2, ?_, ?_⟩
      · intro x hx
        exact List.mem_cons_of_mem _ (h3 x hx)
      · intro x hx
        rcases List.mem_cons.mp hx with rfl | hx
        · have : x ∈ nels := by
            by_contra hc
            exact h (Find_eq_neg_one.mpr hc)
          exact List.mem_append_left _ this
        · exact h4 x hx

theorem nbrLoop_spec (table : Nat → List Nat) (req_n fuel : Nat) (st : NbrState)
    (patch : List Nat) (h : nbrLoop table req_n fuel st = some patch) :
    req_n ≤ patch.length ∧ (∃ t, patch = st.nels ++ t) ∧ (st.nels.Nodup → patch.Nodup) := by
  induction fuel generalizing st with
  | zero =>
    unfold nbrLoop at h
    split at h
    · exact absurd h (by simp)
    · rename_i hlt
      injection h with h
      subst h
      exact ⟨by omega, ⟨[], by simp⟩, id⟩
  | succ fuel ih =>
    unfold nbrLoop at h
    split at h
    · obtain ⟨h1, ⟨t, h2⟩, h3⟩ := ih _ h
      obtain ⟨u, hu1, hu2, -, -⟩ := appendAdj_spec st.adj st.nels
      refine ⟨h1, ⟨u ++ t, ?_⟩, ?_⟩
      · rw [h2]
        simp only [nbrRound, hu1, List.append_assoc]
      · intro hn
        apply h3
        simp only [nbrRound, hu1]
        exact hu2 hn
    · rename_i hlt
      injection h with h
      subst h
      exact ⟨by omega, ⟨[], by simp⟩, id⟩

theorem scanRow_eq (nels row acc : List Nat) :
    scanRow nels row acc = acc ++ row.filter (fun x => decide (x ∉ nels)) := by
  unfold scanRow
  induction row generalizing acc with
  | nil => simp
  | cons x row ih =>
    simp only [List.foldl_cons]
    by_cases h : x ∈ nels
    · have h1 : ¬ Find nels x = -1 := fun hc => (Find_eq_neg_one.mp hc) h
      rw [if_neg h1, ih]
      simp [List.filter_cons, h]
    · have h1 : Find nels x = -1 := Find_eq_neg_one.mpr h
      rw [if_pos h1, ih]
      simp [List.filter_cons, h]

theorem scanCand_foldl (table : Nat → List Nat) (nels cand acc : List Nat) :
    cand.foldl (fun acc c => scanRow nels (table c) acc) acc =
      acc ++ cand.flatMap (fun c => (table c).filter (fun x => decide (x ∉ nels))) := by
  induction cand generalizing acc with
  | nil => simp
  | cons c cand ih =>
    simp only [List.foldl_cons, List.flatMap_cons]
    rw [ih, scanRow_eq, List.append_assoc]

theorem scanCand_eq (table : Nat → List Nat) (nels cand : List Nat) :
    scanCand table nels cand =
      cand.flatMap (fun c => (table c).filter (fun x => decide (x ∉ nels))) := by
  unfold scanCand
  rw [scanCand_foldl]
  simp

theorem mem_scanCand {table : Nat → List Nat} {nels cand : List Nat} {x : Nat} :
    x ∈ scanCand table nels cand ↔ ∃ c, c ∈ cand ∧ x ∈ table c ∧ x ∉ nels := by
  rw [scanCand_eq]
  simp [List.mem_flatMap, List.mem_filter]

theorem appendAdj_eq_append (nels adj : List Nat) (hnd : adj.Nodup)
    (hdisj : ∀ x, x ∈ adj → x ∉ nels) : appendAdj nels adj = nels ++ adj := by
  unfold appendAdj
  induction adj generalizing nels with
  | nil => simp
  | cons a adj ih =>
    simp only [List.foldl_cons]
    have ha : Find nels a = -1 := Find_eq_neg_one.mpr (hdisj a (by simp))
    rw [if_pos ha]
    rw [List.nodup_cons] at hnd
    rw [ih (nels ++ [a]) hnd.2]
    · simp
    · intro x hx hx2
      rcases List.mem_append.mp hx2 with h | h
      · exact hdisj x (List.mem_cons_of_mem _ hx) h
      · simp only [List.mem_singleton] at h
        subst h
        exact hnd.1 hx

/-- Invariant of the search inside a set closed under adjacency: the three
arrays stay inside the set and `nels` stays duplicate-free. -/
theorem nbrRound_closed (table : Nat → List Nat) (S : Finset Nat)
    (hclosed : ∀ x, x ∈ S → ∀ y, y ∈ table x → y ∈ S) (st : NbrState)
    (h : (∀ x, x ∈ st.nels → x ∈ S) ∧ (∀ x, x ∈ st.adj → x ∈ S) ∧
      (∀ x, x ∈ st.cand → x ∈ S) ∧ st.nels.Nodup) :
    (∀ x, x ∈ (nbrRound table st).nels → x ∈ S) ∧ (∀ x, x ∈ (nbrRound table st).adj → x ∈ S) ∧
      (∀ x, x ∈ (nbrRound table st).cand → x ∈ S) ∧ (nbrRound table st).nels.Nodup := by
  obtain ⟨h1, h2, h3, h4⟩ := h
  obtain ⟨t, ht1, ht2, ht3, -⟩ := appendAdj_spec st.adj st.nels
  have hscan : ∀ x, x ∈ scanCand table (appendAdj st.nels st.adj) st.cand → x ∈ S := by
    intro x hx
    obtain ⟨c, hc, hxc, -⟩ := mem_scanCand.mp hx
    exact hclosed c (h3 c hc) x hxc
  refine ⟨?_, hscan, hscan, ?_⟩
  · intro x hx
    simp only [nbrRound, ht1] at hx
    rcases List.mem_append.mp hx with h | h
    · exact h1 x h
    · exact h2 x (ht3 x h)
  · simp only [nbrRound, ht1]
    exact ht2 h4

theorem length_lt_of_closed (S : Finset Nat) (l : List Nat) (hl : ∀ x, x ∈ l → x ∈ S)
    (hnd : l.Nodup) : l.length ≤ S.card := by
  rw [← List.toFinset_card_of_nodup hnd]
  apply Finset.card_le_card
  intro x hx
  exact hl x (List.mem_toFinset.mp hx)

theorem nbrLoop_none_of_closed (table : Nat → List Nat) (S : Finset Nat) (req_n : Nat)
    (hclosed : ∀ x, x ∈ S → ∀ y, y ∈ table x → y ∈ S) (hcard : S.card < req_n)
    (fuel : Nat) (st : NbrState)
    (h : (∀ x, x ∈ st.nels → x ∈ S) ∧ (∀ x, x ∈ st.adj → x ∈ S) ∧
      (∀ x, x ∈ st.cand → x ∈ S) ∧ st.nels.Nodup) :
    nbrLoop table req_n fuel st = none := by
  have hlen : st.nels.length < req_n :=
    lt_of_le_of_lt (length_lt_of_closed S st.nels h.1 h.2.2.2) hcard
  induction fuel generalizing st with
  | zero => simp [nbrLoop, hlen]
  | succ fuel ih =>
    have h2 := nbrRound_closed table S hclosed st h
    unfold nbrLoop
    rw [if_pos hlen]
    exact ih _ h2 (lt_of_le_of_lt (length_lt_of_closed S _ h2.1 h2.2.2.2) hcard)

theorem nbrIterate_closed (table : Nat → List Nat) (S : Finset Nat)
    (hclosed : ∀ x, x ∈ S → ∀ y, y ∈ table x → y ∈ S) (id : Nat) (hid : id ∈ S) (k : Nat) :
    (∀ x, x ∈ ((nbrRound table)^[k] (nbrInit table id)).nels → x ∈ S) ∧
      (∀ x, x ∈ ((nbrRound table)^[k] (nbrInit table id)).adj → x ∈ S) ∧
      (∀ x, x ∈ ((nbrRound table)^[k] (nbrInit table id)).cand → x ∈ S) ∧
      ((nbrRound table)^[k] (nbrInit table id)).nels.Nodup := by
  induction k with
  | zero =>
    simp only [Function.iterate_zero, id_eq, nbrInit]
    refine ⟨?_, hclosed id hid, hclosed id hid, by simp⟩
    intro x hx
    simp only [List.mem_singleton] at hx
    subst hx
    exact hid
  | succ k ih =>
    rw [Function.iterate_succ_apply']
    exact nbrRound_closed table S hclosed _ ih

/-- C8 (as amended). When the seed lies in a set of fewer than `n` elements that
is closed under adjacency (its mesh component has fewer than `n` elements),
`GetNeighbourSet(seed, n)` never leaves its loop: after every number of rounds
the patch still has fewer than `n` entries and nothing is returned. -/
theorem GetNeighbourSet_small_component_diverges (table : Nat → List Nat) (S : Finset Nat)
    (id req_n : Nat) (hid : id ∈ S)
    (hclosed : ∀ x, x ∈ S → ∀ y, y ∈ table x → y ∈ S) (hcard : S.card < req_n) (k : Nat) :
    ((nbrRound table)^[k] (nbrInit table id)).nels.length < req_n ∧
      GetNeighbourSet table id req_n k = none := by
  have h := nbrIterate_closed table S hclosed id hid k
  refine ⟨lt_of_le_of_lt (length_lt_of_closed S _ h.1 h.2.2.2) hcard, ?_⟩
  exact nbrLoop_none_of_closed table S req_n hclosed hcard k _
    (nbrIterate_closed table S hclosed id hid 0)

/-- Witness for C8 (as amended): the mesh with the single element `0` and
`n = 2`. -/
theorem GetNeighbourSet_small_component_diverges_witness :
    ((nbrRound (chainTable 1))^[5] (nbrInit (chainTable 1) 0)).nels.length < 2 ∧
      GetNeighbourSet (chainTable 1) 0 2 5 = none :=
  GetNeighbourSet_small_component_diverges (chainTable 1) {0} 0 2 (by decide)
    (by
      intro x hx y hy
      simp only [Finset.mem_singleton] at hx
      subst hx
      simp [chainTable] at hy)
    (by decide) 5

/-- Counterexample to C8: on the mesh with the single element `0`, there is no
number of rounds after which `GetNeighbourSet(0, 2)` has left its loop (patch of
at least 2 entries) or produced an outcome; it runs forever and reports no
error. -/
theorem GetNeighbourSet_no_patch_error :
    ¬ ∃ k : Nat, 2 ≤ ((nbrRound (chainTable 1))^[k] (nbrInit (chainTable 1) 0)).nels.length ∨
      GetNeighbourSet (chainTable 1) 0 2 k ≠ none := by
  rintro ⟨k, hk⟩
  have hclosed : ∀ x, x ∈ ({0} : Finset Nat) → ∀ y, y ∈ chainTable 1 x → y ∈ ({0} : Finset Nat) := by
    intro x hx y hy
    simp only [Finset.mem_singleton] at hx
    subst hx
    simp [chainTable] at hy
  have h := nbrIterate_closed (chainTable 1) {0} hclosed 0 (by simp) k
  have h1 : ((nbrRound (chainTable 1))^[k] (nbrInit (chainTable 1) 0)).nels.length < 2 :=
    lt_of_le_of_lt (length_lt_of_closed _ _ h.1 h.2.2.2) (by decide)
  have h2 : GetNeighbourSet (chainTable 1) 0 2 k = none :=
    nbrLoop_none_of_closed (chainTable 1) {0} 2 hclosed (by decide) k _
      (nbrIterate_closed (chainTable 1) {0} hclosed 0 (by simp) 0)
  rcases hk with hk | hk
  · omega
  · exact hk h2

theorem mem_chainNels (N i r x : Nat) (hi : i < N) :
    x ∈ chainNels N i r ↔ i ≤ x + r ∧ x ≤ i + r ∧ x < N := by
  induction r with
  | zero =>
    simp only [chainNels, List.mem_singleton]
    omega
  | succ r ih =>
    simp only [chainNels, List.mem_append, ih, chainFrontier]
    by_cases h1 : r + 1 ≤ i <;> by_cases h2 : i + r + 1 < N <;> simp [h1, h2] <;> omega

theorem length_chainNels (N i r : Nat) (hi : i < N) :
    (chainNels N i r).length = (if i + r < N then i + r + 1 else N) - (i - r) := by
  induction r with
  | zero =>
    simp only [chainNels, List.length_singleton]
    split <;> omega
  | succ r ih =>
    simp only [chainNels, List.length_append, ih, chainFrontier]
    by_cases h1 : r + 1 ≤ i <;> by_cases h2 : i + r + 1 < N <;> simp [h1, h2] <;>
      split <;> split <;> omega

theorem chainFrontier_nodup (N i r : Nat) : (chainFrontier N i r).Nodup := by
  unfold chainFrontier
  by_cases h1 : r + 1 ≤ i <;> by_cases h2 : i + r + 1 < N <;> simp [h1, h2]
  omega

theorem chainFrontier_disjoint (N i r : Nat) (hi : i < N) :
    ∀ x, x ∈ chainFrontier N i r → x ∉ chainNels N i r := by
  intro x hx
  rw [mem_chainNels N i r x hi]
  unfold chainFrontier at hx
  by_cases h1 : r + 1 ≤ i <;> by_cases h2 : i + r + 1 < N <;> simp [h1, h2] at hx <;> omega

theorem chain_scan_left (N i r : Nat) (hi : i < N) (h1 : r + 1 ≤ i) :
    (chainTable N (i - (r + 1))).filter (fun x => decide (x ∉ chainNels N i (r + 1))) =
      if r + 1 + 1 ≤ i then [i - (r + 1 + 1)] else [] := by
  have hm := fun x => mem_chainNels N i (r + 1) x hi
  unfold chainTable
  have e1 : i - (r + 1) + 1 < N := by omega
  have m1 : i - (r + 1) + 1 ∈ chainNels N i (r + 1) := by rw [hm]; omega
  by_cases h3 : r + 1 + 1 ≤ i
  · have c1 : 0 < i - (r + 1) ∧ i - (r + 1) < N := by omega
    have m2 : i - (r + 1) - 1 ∉ chainNels N i (r + 1) := by rw [hm]; omega
    have e2 : i - (r + 1) - 1 = i - (r + 1 + 1) := by omega
    rw [if_pos c1, if_pos e1, if_pos h3, List.filter_append]
    simp only [List.filter_cons, List.filter_nil, m1, m2, not_true_eq_false, not_false_eq_true,
      decide_True, decide_False, if_true, e2]
    rw [e2] at m2
    simp [m2]
  · have c1 : ¬ (0 < i - (r + 1) ∧ i - (r + 1) < N) := by omega
    rw [if_neg c1, if_pos e1, if_neg h3, List.filter_append]
    simp only [List.filter_cons, List.filter_nil, m1, not_true_eq_false, decide_False]
    simp

theorem chain_scan_right (N i r : Nat) (hi : i < N) (h2 : i + r + 1 < N) :
    (chainTable N (i + r + 1)).filter (fun x => decide (x ∉ chainNels N i (r + 1))) =
      if i + (r + 1) + 1 < N then [i + (r + 1) + 1] else [] := by
  have hm := fun x => mem_chainNels N i (r + 1) x hi
  unfold chainTable
  have c1 : 0 < i + r + 1 ∧ i + r + 1 < N := by omega
  have m1 : i + r + 1 - 1 ∈ chainNels N i (r + 1) := by rw [hm]; omega
  by_cases h4 : i + (r + 1) + 1 < N
  · have e1 : i + r + 1 + 1 < N := by omega
    have m2 : i + r + 1 + 1 ∉ chainNels N i (r + 1) := by rw [hm]; omega
    have e2 : i + r + 1 + 1 = i + (r + 1) + 1 := by omega
    rw [if_pos c1, if_pos e1, if_pos h4, List.filter_append]
    simp only [List.filter_cons, List.filter_nil, m1, m2, not_true_eq_false, not_false_eq_true,
      decide_True, decide_False, if_true, e2]
    rw [e2] at m2
    simp [m2]
  · have e1 : ¬ (i + r + 1 + 1 < N) := by omega
    rw [if_pos c1, if_neg e1, if_neg h4, List.filter_append]
    simp only [List.filter_cons, List.filter_nil, m1, not_true_eq_false, decide_False]
    simp

theorem nbrRound_chainState (N i r : Nat) (hi : i < N) :
    nbrRound (chainTable N) (chainState N i r) = chainState N i (r + 1) := by
  have happ : appendAdj (chainNels N i r) (chainFrontier N i r) = chainNels N i (r + 1) := by
    rw [appendAdj_eq_append _ _ (chainFrontier_nodup N i r) (chainFrontier_disjoint N i r hi)]
    rfl
  have hscan : scanCand (chainTable N) (chainNels N i (r + 1)) (chainFrontier N i r) =
      chainFrontier N i (r + 1) := by
    rw [scanCand_eq]
    have hl := chain_scan_left N i r hi
    have hr := chain_scan_right N i r hi
    unfold chainFrontier
    by_cases h1 : r + 1 ≤ i <;> by_cases h2 : i + r + 1 < N
    · simp only [if_pos h1, if_pos h2, List.singleton_append, List.flatMap_cons,
        List.flatMap_nil, List.append_nil, hl h1, hr h2]
    · have h4 : ¬ (i + (r + 1) + 1 < N) := by omega
      simp only [if_pos h1, if_neg h2, if_neg h4, List.append_nil, List.flatMap_cons,
        List.flatMap_nil, hl h1]
    · have h3 : ¬ (r + 1 + 1 ≤ i) := by omega
      simp only [if_neg h1, if_pos h2, if_neg h3, List.nil_append, List.flatMap_cons,
        List.flatMap_nil, List.append_nil, hr h2]
    · have h3 : ¬ (r + 1 + 1 ≤ i) := by omega
      have h4 : ¬ (i + (r + 1) + 1 < N) := by omega
      simp only [if_neg h1, if_neg h2, if_neg h3, if_neg h4, List.append_nil, List.flatMap_nil]
  simp only [nbrRound, chainState, happ, hscan]

theorem nbrInit_chain (N i : Nat) (hi : i < N) :
    nbrInit (chainTable N) i = chainState N i 0 := by
  unfold nbrInit chainState chainTable chainFrontier chainNels
  have e1 : (0 < i ∧ i < N) ↔ 0 + 1 ≤ i := by omega
  have e2 : i + 0 + 1 = i + 1 := by omega
  have e3 : i - (0 + 1) = i - 1 := by omega
  simp only [e1, e2, e3]

theorem nbrLoop_chain_run (N i req_n : Nat) (hi : i < N) (r : Nat)
    (hr : ∀ q, q < r → (chainNels N i q).length < req_n) (fuel : Nat) :
    nbrLoop (chainTable N) req_n (fuel + r) (chainState N i 0) =
      nbrLoop (chainTable N) req_n fuel (chainState N i r) := by
  induction r generalizing fuel with
  | zero => rfl
  | succ r ih =>
    rw [← Nat.add_assoc, Nat.add_right_comm, ih (fun q hq => hr q (by omega)) (fuel + 1)]
    have hlt : (chainState N i r).nels.length < req_n := hr r (by omega)
    show nbrLoop (chainTable N) req_n (fuel + 1) (chainState N i r) = _
    rw [nbrLoop, if_pos hlt, nbrRound_chainState N i r hi]

theorem nbrLoop_done (table : Nat → List Nat) (req_n fuel : Nat) (st : NbrState)
    (h : req_n ≤ st.nels.length) : nbrLoop table req_n fuel st = some st.nels := by
  cases fuel <;> simp [nbrLoop, Nat.not_lt.mpr h]

/-- On the chain the search around a seed returns, within `N` rounds, the
expected list after the first round count `r` at which it has `nelmt` entries,
and then it has exactly `nelmt degree` entries. -/
theorem chain_patch (degree N i : Nat) (hN : nelmt degree ≤ N) (hi : i < N) :
    ∃ r, GetNeighbourSet (chainTable N) i (nelmt degree) N = some (chainNels N i r) ∧
      (chainNels N i r).length = nelmt degree := by
  have hex : ∃ r, nelmt degree ≤ (chainNels N i r).length := by
    refine ⟨N, ?_⟩
    rw [length_chainNels N i N hi]
    split <;> omega
  classical
  let r := Nat.find hex
  have hr1 : nelmt degree ≤ (chainNels N i r).length := Nat.find_spec hex
  have hr2 : ∀ q, q < r → (chainNels N i q).length < nelmt degree := by
    intro q hq
    exact Nat.lt_of_not_le (Nat.find_min hex hq)
  have hrN : r ≤ N := by
    apply Nat.find_min'
    rw [length_chainNels N i N hi]
    split <;> omega
  refine ⟨r, ?_, ?_⟩
  · unfold GetNeighbourSet
    rw [nbrInit_chain N i hi]
    obtain ⟨k, hk⟩ : ∃ k, N = k + r := ⟨N - r, by omega⟩
    have hrun := nbrLoop_chain_run N i (nelmt degree) hi r hr2 k
    rw [← hk] at hrun
    rw [hrun]
    exact nbrLoop_done _ _ _ _ hr1
  · have hodd : nelmt degree % 2 = 1 := by
      unfold nelmt
      split <;> omega
    rcases Nat.eq_zero_or_pos r with h0 | hpos
    · rw [h0] at hr1 ⊢
      simp only [chainNels, List.length_singleton] at hr1 ⊢
      omega
    · have hprev := hr2 (r - 1) (by omega)
      have hrr : r = (r - 1) + 1 := by omega
      rw [length_chainNels N i _ hi] at hprev
      rw [hrr] at hr1 ⊢
      rw [length_chainNels N i _ hi] at hr1 ⊢
      generalize r - 1 = q at hprev hr1 ⊢
      split at hprev <;> split at hr1 <;> (try split) <;> omega

/-- C9. On the 1-D chain of `N >= nelmt degree` elements, for every seed
`i < N` the search `GetNeighbourSet(i, nelmt degree)` returns (within `N`
rounds) a patch of exactly `nelmt degree` elements, where `nelmt degree` is
`degree + 2` for odd and `degree + 1` for even `degree`. -/
theorem GetNeighbourSet_chain_size (degree N i : Nat) (hN : nelmt degree ≤ N) (hi : i < N) :
    ∃ patch, GetNeighbourSet (chainTable N) i (nelmt degree) N = some patch ∧
      patch.length = nelmt degree := by
  obtain ⟨r, h1, h2⟩ := chain_patch degree N i hN hi
  exact ⟨_, h1, h2⟩

/-- Witness for C9: degree 3 needs 5 elements; the seed 1 next to the left end
of the chain of 6 elements. -/
theorem GetNeighbourSet_chain_size_witness :
    ∃ patch, GetNeighbourSet (chainTable 6) 1 (nelmt 3) 6 = some patch ∧
      patch.length = nelmt 3 :=
  GetNeighbourSet_chain_size 3 6 1 (by decide) (by decide)

/-- C2. Whenever `GetNeighbourSet(id, n)` returns, the returned patch has at
least `n` entries, its first entry is the seed `id`, and no id occurs twice. -/
theorem GetNeighbourSet_wellformed (table : Nat → List Nat) (id req_n fuel : Nat)
    (patch : List Nat) (h : GetNeighbourSet table id req_n fuel = some patch) :
    req_n ≤ patch.length ∧ patch.head? = some id ∧ patch.Nodup := by
  obtain ⟨h1, ⟨t, h2⟩, h3⟩ := nbrLoop_spec table req_n fuel _ patch h
  refine ⟨h1, ?_, h3 (by simp [nbrInit])⟩
  rw [h2]
  simp [nbrInit]

/-- Witness for C2: on the chain of three elements the seed `1` with `n = 3`
returns the patch `[1, 0, 2]` after one round. -/
theorem GetNeighbourSet_wellformed_witness :
    GetNeighbourSet (chainTable 3) 1 3 1 = some [1, 0, 2] ∧
      (3 ≤ [1, 0, 2].length ∧ [1, 0, 2].head? = some 1 ∧ [1, 0, 2].Nodup) :=
  ⟨by decide, GetNeighbourSet_wellformed (chainTable 3) 1 3 1 [1, 0, 2] (by decide)⟩

theorem foldl_add_eq_sum (f : Nat → K) (n : Nat) :
    (List.range n).foldl (fun acc p => acc + f p) 0 = ∑ p ∈ Finset.range n, f p := by
  induction n with
  | zero => simp
  | succ n ih => rw [List.range_succ, List.foldl_append, ih, Finset.sum_range_succ]; rfl

/-- Gram matrix of a design matrix that contains a square Vandermonde block on
distinct nodes is non-singular. -/
theorem gram_det_ne_zero (m n : Nat) (V : Matrix (Fin m) (Fin n) K) (f : Fin n → Fin m)
    (v : Fin n → K) (hv : Function.Injective v) (hV : ∀ a p, V (f a) p = v a ^ (p : Nat)) :
    (V.transpose * V).det ≠ 0 := by
  intro hdet
  obtain ⟨y, hy0, hy⟩ := Matrix.exists_mulVec_eq_zero_iff.mpr hdet
  have h1 : Matrix.dotProduct (V.mulVec y) (V.mulVec y) = 0 := by
    rw [Matrix.dotProduct_mulVec, ← Matrix.mulVec_transpose, Matrix.mulVec_mulVec, hy,
      Matrix.zero_dotProduct]
  have h2 : V.mulVec y = 0 := Matrix.dotProduct_self_eq_zero.mp h1
  have h3 : (Matrix.vandermonde v).mulVec y = 0 := by
    funext a
    have := congrFun h2 (f a)
    simp only [Matrix.mulVec, Matrix.dotProduct, Pi.zero_apply] at this ⊢
    rw [← this]
    apply Finset.sum_congr rfl
    intro p _
    rw [Matrix.vandermonde_apply, hV]
  exact hy0 (Matrix.eq_zero_of_mulVec_eq_zero (Matrix.det_vandermonde_ne_zero_iff.mpr hv) h3)

theorem ls_left_inverse (m n : Nat) (V : Matrix (Fin m) (Fin n) K)
    (hdet : (V.transpose * V).det ≠ 0) :
    ((V.transpose * V).det⁻¹ • (V.transpose * V).adjugate) * V.transpose * V = 1 := by
  rw [Matrix.mul_assoc, Matrix.smul_mul, Matrix.adjugate_mul, smul_smul, inv_mul_cancel₀ hdet,
    one_smul]

/-- Binomial expansion of a monomial about the first centroid. -/
theorem pow_eq_sum_shift (x x0 : K) (k n : Nat) (hk : k < n) :
    x ^ k = ∑ q : Fin n, (x - x0) ^ (q : Nat) *
      (if (q : Nat) ≤ k then x0 ^ (k - q) * (k.choose q : K) else 0) := by
  have h := add_pow (x - x0) x0 k
  rw [sub_add_cancel] at h
  rw [h, ← Finset.sum_range (fun q => (x - x0) ^ q * (if q ≤ k then x0 ^ (k - q) * (k.choose q : K) else 0))]
  rw [← Finset.sum_subset (Finset.range_subset.mpr (show k + 1 ≤ n by omega))]
  · apply Finset.sum_congr rfl
    intro q hq
    have : q ≤ k := by
      have := Finset.mem_range.mp hq
      omega
    rw [if_pos this, mul_assoc]
  · intro q _ hq
    have : ¬ q ≤ k := by
      intro hc
      exact hq (Finset.mem_range.mpr (by omega))
    rw [if_neg this, mul_zero]

/-- The model of `dgels` returns a solution of the normal equations
`(A^T A) X = A^T B`, the characterisation of the least-squares minimiser. -/
theorem dgels_normal_equations (m n nrhs : Nat) (A B : Nat → Nat → K) (X : Nat → Nat → K)
    (h : dgels m n nrhs A B = some X) :
    ((Matrix.of fun (i : Fin m) (p : Fin n) => A i p).transpose *
        (Matrix.of fun (i : Fin m) (p : Fin n) => A i p)) *
      (Matrix.of fun (p : Fin n) (c : Fin nrhs) => X p c) =
    (Matrix.of fun (i : Fin m) (p : Fin n) => A i p).transpose *
      (Matrix.of fun (i : Fin m) (c : Fin nrhs) => B i c) := by
  unfold dgels at h
  simp only at h
  split at h
  · exact absurd h (by simp)
  · rename_i hcond
    have hdet : ((Matrix.of fun (i : Fin m) (p : Fin n) => A i p).transpose *
        (Matrix.of fun (i : Fin m) (p : Fin n) => A i p)).det ≠ 0 := fun hc => hcond (Or.inr hc)
    injection h with h
    subst h
    have hX : (Matrix.of fun (p : Fin n) (c : Fin nrhs) =>
        if hpc : (p : Nat) < n ∧ (c : Nat) < nrhs then
          ((((Matrix.of fun (i : Fin m) (p : Fin n) => A i p).transpose *
            (Matrix.of fun (i : Fin m) (p : Fin n) => A i p)).det⁻¹ •
            ((Matrix.of fun (i : Fin m) (p : Fin n) => A i p).transpose *
            (Matrix.of fun (i : Fin m) (p : Fin n) => A i p)).adjugate) *
            (Matrix.of fun (i : Fin m) (p : Fin n) => A i p).transpose *
            (Matrix.of fun (i : Fin m) (c : Fin nrhs) => B i c)) ⟨p, hpc.1⟩ ⟨c, hpc.2⟩
        else 0) =
        (((Matrix.of fun (i : Fin m) (p : Fin n) => A i p).transpose *
            (Matrix.of fun (i : Fin m) (p : Fin n) => A i p)).det⁻¹ •
            ((Matrix.of fun (i : Fin m) (p : Fin n) => A i p).transpose *
            (Matrix.of fun (i : Fin m) (p : Fin n) => A i p)).adjugate) *
            (Matrix.of fun (i : Fin m) (p : Fin n) => A i p).transpose *
            (Matrix.of fun (i : Fin m) (c : Fin nrhs) => B i c) := by
      ext p c
      simp
    rw [hX, ← Matrix.mul_assoc, ← Matrix.mul_assoc, Matrix.mul_smul, Matrix.mul_adjugate,
      smul_smul, inv_mul_cancel₀ hdet, one_smul, Matrix.one_mul]

theorem rhs_identity (m : Nat) :
    (Matrix.of fun (i : Fin m) (c : Fin m) => if (i : Nat) = (c : Nat) then (1 : K) else 0) = 1 := by
  ext i c
  simp [Matrix.one_apply, Fin.ext_iff]

/-- Exactness of a left inverse: weights built from a left inverse `X` of the
design matrix reproduce every vector in the column space of `V`. -/
theorem left_inverse_exact (m n : Nat) (V : Matrix (Fin m) (Fin n) K)
    (X : Matrix (Fin n) (Fin m) K) (hX : X * V = 1) (g a : Fin n → K) :
    ∑ i : Fin m, (∑ p : Fin n, g p * X p i) * (∑ q : Fin n, V i q * a q) =
      ∑ p : Fin n, g p * a p := by
  have h1 : ∀ p : Fin n, ∑ i : Fin m, X p i * (∑ q : Fin n, V i q * a q) = a p := by
    intro p
    have := congrFun (congrArg (fun M => Matrix.mulVec M a) hX) p
    simp only [Matrix.one_mulVec] at this
    rw [← this, ← Matrix.mulVec_mulVec]
    rfl
  calc ∑ i : Fin m, (∑ p : Fin n, g p * X p i) * (∑ q : Fin n, V i q * a q)
      = ∑ i : Fin m, ∑ p : Fin n, g p * (X p i * (∑ q : Fin n, V i q * a q)) := by
        apply Finset.sum_congr rfl
        intro i _
        rw [Finset.sum_mul]
        apply Finset.sum_congr rfl
        intro p _
        rw [mul_assoc]
    _ = ∑ p : Fin n, ∑ i : Fin m, g p * (X p i * (∑ q : Fin n, V i q * a q)) := Finset.sum_comm
    _ = ∑ p : Fin n, g p * a p := by
        apply Finset.sum_congr rfl
        intro p _
        rw [← Finset.mul_sum, h1]

/-- Exactness of the least-squares weights on monomials of degree at most
`degree`, for a patch with `degree + 1` distinct centroids. -/
theorem buildLS_exact (dim degree : Nat) (x_center x_quad : DenseMatrix K)
    (f : Fin (degree + 1) → Nat) (hf : ∀ a, f a < x_center.Width)
    (hdist : Function.Injective (fun a => x_center.elem 0 (f a)))
    (k : Nat) (hk : k ≤ degree) (j : Nat) :
    ∃ interp, buildLSInterpolation dim degree x_center x_quad = some interp ∧
      ∑ i ∈ Finset.range x_center.Width, interp.elem j i * x_center.elem 0 i ^ k =
        x_quad.elem 0 j ^ k := by
  set m := x_center.Width with hm
  set x0 := x_center.elem 0 0 with hx0
  let V : Matrix (Fin m) (Fin (degree + 1)) K :=
    Matrix.of fun i p => (x_center.elem 0 i - x0) ^ (p : Nat)
  have hmn : ¬ m < degree + 1 := by
    have hinj : Function.Injective (fun a : Fin (degree + 1) => (⟨f a, hf a⟩ : Fin m)) := by
      intro a b hab
      apply hdist
      simp only [Fin.mk.injEq] at hab
      simp only [hab]
    have := Fintype.card_le_of_injective _ hinj
    simp only [Fintype.card_fin] at this
    omega
  have hdet : (V.transpose * V).det ≠ 0 := by
    apply gram_det_ne_zero m (degree + 1) V (fun a => ⟨f a, hf a⟩)
      (fun a => x_center.elem 0 (f a) - x0)
    · intro a b hab
      apply hdist
      simpa using hab
    · intro a p
      rfl
  have hXV := ls_left_inverse m (degree + 1) V hdet
  have hsolve : dgels m (degree + 1) m (fun i p => (x_center.elem 0 i - x0) ^ p)
      (fun i j => if i = j then (1 : K) else 0) =
      some (fun p c => if h : p < degree + 1 ∧ c < m then
        (((V.transpose * V).det⁻¹ • (V.transpose * V).adjugate) * V.transpose)
          ⟨p, h.1⟩ ⟨c, h.2⟩ else 0) := by
    unfold dgels
    simp only [rhs_identity, Matrix.mul_one]
    rw [if_neg]
    intro hc
    rcases hc with hc | hc
    · exact hmn hc
    · exact hdet hc
  have hbuild : buildLSInterpolation dim degree x_center x_quad =
      some { Height := x_quad.Width, Width := m,
             elem := fun j i => (List.range (degree + 1)).foldl
               (fun acc p => acc + (x_quad.elem 0 j - x0) ^ p *
                 (if h : p < degree + 1 ∧ i < m then
                   (((V.transpose * V).det⁻¹ • (V.transpose * V).adjugate) * V.transpose)
                     ⟨p, h.1⟩ ⟨i, h.2⟩ else 0)) 0 } := by
    unfold buildLSInterpolation
    simp only [← hm, ← hx0, hsolve]
  refine ⟨_, hbuild, ?_⟩
  · simp only [foldl_add_eq_sum]
    rw [Finset.sum_range]
    have hkn : k < degree + 1 := by omega
    rw [pow_eq_sum_shift (x_quad.elem 0 j) x0 k (degree + 1) hkn]
    rw [← left_inverse_exact m (degree + 1) V _ hXV
      (fun p => (x_quad.elem 0 j - x0) ^ (p : Nat))
      (fun q => if (q : Nat) ≤ k then x0 ^ (k - q) * (k.choose q : K) else 0)]
    · apply Finset.sum_congr rfl
      intro i _
      congr 1
      · rw [Finset.sum_range]
        apply Finset.sum_congr rfl
        intro p _
        simp
      · exact pow_eq_sum_shift (x_center.elem 0 i) x0 k (degree + 1) hkn


theorem getD_eq_iff_indexOf (l : List Nat) (hnd : l.Nodup) (n : Nat) (hn : n < l.length)
    (c : Nat) : c = l.getD n 0 ↔ l.indexOf c = n := by
  rw [List.getD_eq_getElem _ _ hn]
  constructor
  · intro h
    subst h
    exact List.indexOf_getElem hnd n hn
  · intro h
    subst h
    exact (List.getElem_indexOf hn).symm

omit [LinearOrderedField K] in
theorem SetEntry_elem (A : SparseMatrix K) (gi gj : Nat) (a : K) (r c : Nat) :
    (A.SetEntry gi gj a).elem r c = if r = gi ∧ c = gj then a else A.elem r c := rfl

theorem setRow_upto (A : SparseMatrix K) (gi : Nat) (cols : List Nat) (subm : DenseMatrix K)
    (sz i : Nat) (hnd : cols.Nodup) (n : Nat) (hn : n ≤ cols.length) (r c : Nat) :
    ((List.range n).foldl (fun A j =>
      if sz ≠ 0 ∧ subm.elem i j = 0 then A
      else A.SetEntry gi (cols.getD j 0) (subm.elem i j)) A).elem r c =
      if r = gi ∧ cols.indexOf c < n ∧ ¬ (sz ≠ 0 ∧ subm.elem i (cols.indexOf c) = 0) then
        subm.elem i (cols.indexOf c) else A.elem r c := by
  induction n with
  | zero => simp
  | succ n ih =>
    have hlt : n < cols.length := by omega
    have hiff := getD_eq_iff_indexOf cols hnd n hlt c
    rw [List.range_succ, List.foldl_append]
    simp only [List.foldl_cons, List.foldl_nil]
    by_cases hskip : sz ≠ 0 ∧ subm.elem i n = 0
    · rw [if_pos hskip, ih (by omega)]
      by_cases hc : cols.indexOf c = n
      · have h1 : ¬ (r = gi ∧ cols.indexOf c < n ∧ ¬ (sz ≠ 0 ∧ subm.elem i (cols.indexOf c) = 0)) := by
          rintro ⟨-, h, -⟩
          omega
        have h2 : ¬ (r = gi ∧ cols.indexOf c < n + 1 ∧
            ¬ (sz ≠ 0 ∧ subm.elem i (cols.indexOf c) = 0)) := by
          rintro ⟨-, -, h⟩
          rw [hc] at h
          exact h hskip
        rw [if_neg h1, if_neg h2]
      · have h1 : (cols.indexOf c < n + 1) ↔ (cols.indexOf c < n) := by omega
        simp only [h1]
    · rw [if_neg hskip]
      rw [SetEntry_elem, ih (by omega)]
      by_cases hc : cols.indexOf c = n
      · have hc2 : c = cols.getD n 0 := hiff.mpr hc
        by_cases hr : r = gi
        · have h2 : r = gi ∧ cols.indexOf c < n + 1 ∧
              ¬ (sz ≠ 0 ∧ subm.elem i (cols.indexOf c) = 0) := by
            refine ⟨hr, by omega, ?_⟩
            rw [hc]
            exact hskip
          rw [if_pos ⟨hr, hc2⟩, if_pos h2, hc]
        · have h0 : ¬ (r = gi ∧ c = cols.getD n 0) := fun h => hr h.1
          have h1 : ¬ (r = gi ∧ cols.indexOf c < n ∧
              ¬ (sz ≠ 0 ∧ subm.elem i (cols.indexOf c) = 0)) := fun h => hr h.1
          have h2 : ¬ (r = gi ∧ cols.indexOf c < n + 1 ∧
              ¬ (sz ≠ 0 ∧ subm.elem i (cols.indexOf c) = 0)) := fun h => hr h.1
          rw [if_neg h0, if_neg h1, if_neg h2]
      · have h0 : ¬ (r = gi ∧ c = cols.getD n 0) := fun h => hc (hiff.mp h.2)
        have h1 : (cols.indexOf c < n + 1) ↔ (cols.indexOf c < n) := by omega
        rw [if_neg h0]
        simp only [h1]

/-- Entries of the operator after the column loop for one local row. -/
theorem SetSubMatrixRow_elem (A : SparseMatrix K) (gi : Nat) (cols : List Nat)
    (subm : DenseMatrix K) (sz i : Nat) (hnd : cols.Nodup) (r c : Nat) :
    (A.SetSubMatrixRow gi cols subm sz i).elem r c =
      if r = gi ∧ c ∈ cols ∧ ¬ (sz ≠ 0 ∧ subm.elem i (cols.indexOf c) = 0) then
        subm.elem i (cols.indexOf c) else A.elem r c := by
  unfold SparseMatrix.SetSubMatrixRow
  rw [setRow_upto A gi cols subm sz i hnd cols.length (le_refl _) r c]
  simp only [List.indexOf_lt_length]

theorem setSub_upto (A : SparseMatrix K) (rows cols : List Nat) (subm : DenseMatrix K)
    (sz : Nat) (hr : rows.Nodup) (hc : cols.Nodup) (n : Nat) (hn : n ≤ rows.length)
    (r c : Nat) :
    ((List.range n).foldl (fun A i =>
      A.SetSubMatrixRow (rows.getD i 0) cols subm sz i) A).elem r c =
      if rows.indexOf r < n ∧ c ∈ cols ∧
          ¬ (sz ≠ 0 ∧ subm.elem (rows.indexOf r) (cols.indexOf c) = 0) then
        subm.elem (rows.indexOf r) (cols.indexOf c) else A.elem r c := by
  induction n with
  | zero => simp
  | succ n ih =>
    have hlt : n < rows.length := by omega
    have hiff := getD_eq_iff_indexOf rows hr n hlt r
    rw [List.range_succ, List.foldl_append]
    simp only [List.foldl_cons, List.foldl_nil]
    rw [SetSubMatrixRow_elem _ _ cols subm sz n hc, ih (by omega)]
    by_cases hrn : rows.indexOf r = n
    · have h1 : r = rows.getD n 0 := hiff.mpr hrn
      have h2 : ¬ (rows.indexOf r < n ∧ c ∈ cols ∧
          ¬ (sz ≠ 0 ∧ subm.elem (rows.indexOf r) (cols.indexOf c) = 0)) := by
        rintro ⟨h, -⟩
        omega
      rw [if_neg h2, hrn]
      by_cases h4 : c ∈ cols ∧ ¬ (sz ≠ 0 ∧ subm.elem n (cols.indexOf c) = 0)
      · rw [if_pos ⟨h1, h4⟩, if_pos ⟨by omega, h4⟩]
      · rw [if_neg (fun h => h4 h.2), if_neg (fun h => h4 h.2)]
    · have h1 : ¬ r = rows.getD n 0 := fun h => hrn (hiff.mp h)
      have h2 : (rows.indexOf r < n + 1) ↔ (rows.indexOf r < n) := by omega
      rw [if_neg (fun h => h1 h.1)]
      simp only [h2]

/-- Entries of the operator after `SetSubMatrix` with duplicate-free index
arrays: the entry at `(rows[i], cols[j])` is `subm(i, j)` unless that value was
skipped as a zero; every other entry is unchanged. -/
theorem SetSubMatrix_elem (A : SparseMatrix K) (rows cols : List Nat) (subm : DenseMatrix K)
    (sz : Nat) (hr : rows.Nodup) (hc : cols.Nodup) (r c : Nat) :
    (A.SetSubMatrix rows cols subm sz).elem r c =
      if r ∈ rows ∧ c ∈ cols ∧
          ¬ (sz ≠ 0 ∧ subm.elem (rows.indexOf r) (cols.indexOf c) = 0) then
        subm.elem (rows.indexOf r) (cols.indexOf c) else A.elem r c := by
  unfold SparseMatrix.SetSubMatrix
  rw [setSub_upto A rows cols subm sz hr hc rows.length (le_refl _) r c]
  simp only [List.indexOf_lt_length]

omit [LinearOrderedField K] in
theorem foldl_size {α : Type} (f : SparseMatrix K → α → SparseMatrix K)
    (hf : ∀ A a, (f A a).Height = A.Height ∧ (f A a).Width = A.Width) (l : List α)
    (A : SparseMatrix K) :
    (l.foldl f A).Height = A.Height ∧ (l.foldl f A).Width = A.Width := by
  induction l generalizing A with
  | nil => exact ⟨rfl, rfl⟩
  | cons a l ih =>
    simp only [List.foldl_cons]
    obtain ⟨h1, h2⟩ := ih (f A a)
    obtain ⟨h3, h4⟩ := hf A a
    exact ⟨h1.trans h3, h2.trans h4⟩

/-- Calling `SetSubMatrix` does not change the size of the operator. -/
theorem SetSubMatrix_size (A : SparseMatrix K) (rows cols : List Nat) (subm : DenseMatrix K)
    (sz : Nat) :
    (A.SetSubMatrix rows cols subm sz).Height = A.Height ∧
      (A.SetSubMatrix rows cols subm sz).Width = A.Width := by
  unfold SparseMatrix.SetSubMatrix
  apply foldl_size
  intro B i
  unfold SparseMatrix.SetSubMatrixRow
  apply foldl_size
  intro C j
  split
  · exact ⟨rfl, rfl⟩
  · exact ⟨rfl, rfl⟩

theorem map_range_nodup (g : Nat → Nat) (n : Nat)
    (hg : ∀ a b, a < n → b < n → g a = g b → a = b) : ((List.range n).map g).Nodup := by
  apply List.Nodup.map_on
  · intro a ha b hb h
    exact hg a b (List.mem_range.mp ha) (List.mem_range.mp hb) h
  · exact List.nodup_range n

theorem map_range_indexOf (g : Nat → Nat) (n : Nat)
    (hg : ∀ a b, a < n → b < n → g a = g b → a = b) (j : Nat) (hj : j < n) :
    ((List.range n).map g).indexOf (g j) = j := by
  have hnd := map_range_nodup g n hg
  have hlen : j < ((List.range n).map g).length := by simpa using hj
  have h := List.indexOf_getElem hnd j hlen
  simpa using h

theorem mem_GetSubArray (a : List Nat) (offset sa_size r : Nat) :
    r ∈ GetSubArray a offset sa_size ↔ ∃ j, j < sa_size ∧ r = a.getD (offset + j) 0 := by
  unfold GetSubArray
  simp only [List.mem_map, List.mem_range]
  constructor
  · rintro ⟨j, hj, h⟩
    exact ⟨j, hj, h.symm⟩
  · rintro ⟨j, hj, h⟩
    exact ⟨j, hj, h.symm⟩

theorem getD_inj_of_nodup (a : List Nat) (hnd : a.Nodup) (x y : Nat) (hx : x < a.length)
    (hy : y < a.length) (h : a.getD x 0 = a.getD y 0) : x = y := by
  rw [List.getD_eq_getElem _ _ hx, List.getD_eq_getElem _ _ hy] at h
  exact (List.Nodup.getElem_inj_iff hnd).mp h

/-- State of the component loop of `AssembleProlongationMatrix` after `n`
components: the shifted column indices, the entries written so far, and the
rows not yet touched. -/
theorem assemble_upto (gd : GalerkinDifference K) (cP : SparseMatrix K) (id : List Nat)
    (local_mat : DenseMatrix K) (hid : id.Nodup)
    (hdofs : (gd.GetElementVDofs (id.getD 0 0)).Nodup)
    (hlen : (gd.GetElementVDofs (id.getD 0 0)).length = gd.vdim * gd.Nodes.length)
    (hempty : ∀ r, r ∈ gd.GetElementVDofs (id.getD 0 0) → ∀ c, cP.elem r c = 0)
    (n : Nat) (hn : n ≤ gd.vdim) :
    let st := (List.range n).foldl (fun (st : SparseMatrix K × List Nat) v =>
      (st.1.SetSubMatrix (GetSubArray (gd.GetElementVDofs (id.getD 0 0))
        (v * gd.Nodes.length) gd.Nodes.length) st.2 local_mat 1, st.2.map (fun c => c + 1)))
      (cP, (List.range id.length).map (fun e => gd.vdim * id.getD e 0))
    st.2 = (List.range id.length).map (fun e => gd.vdim * id.getD e 0 + n) ∧
    (∀ v j e, v < n → j < gd.Nodes.length → e < id.length →
      st.1.elem ((gd.GetElementVDofs (id.getD 0 0)).getD (v * gd.Nodes.length + j) 0)
        (gd.vdim * id.getD e 0 + v) = local_mat.elem j e) ∧
    (∀ r c, (∀ v, v < n → r ∉ GetSubArray (gd.GetElementVDofs (id.getD 0 0))
        (v * gd.Nodes.length) gd.Nodes.length) → st.1.elem r c = cP.elem r c) := by
  induction n with
  | zero =>
    refine ⟨by simp, ?_, ?_⟩
    · intro v j e hv
      omega
    · intro r c _
      rfl
  | succ n ih =>
    obtain ⟨ih1, ih2, ih3⟩ := ih (by omega)
    rw [List.range_succ, List.foldl_append]
    simp only [List.foldl_cons, List.foldl_nil]
    generalize hst : (List.range n).foldl (fun (st : SparseMatrix K × List Nat) v =>
      (st.1.SetSubMatrix (GetSubArray (gd.GetElementVDofs (id.getD 0 0))
        (v * gd.Nodes.length) gd.Nodes.length) st.2 local_mat 1, st.2.map (fun c => c + 1)))
      (cP, (List.range id.length).map (fun e => gd.vdim * id.getD e 0)) = st at ih1 ih2 ih3
    set nd := gd.Nodes.length with hnd
    set dofs := gd.GetElementVDofs (id.getD 0 0) with hdofs_def
    have hvpos : 0 < gd.vdim := by omega
    -- the rows and columns of this component
    have hblock : ∀ v j, v < gd.vdim → j < nd → v * nd + j < dofs.length := by
      intro v j hv hj
      rw [hlen]
      calc v * nd + j < v * nd + nd := by omega
        _ = (v + 1) * nd := by ring
        _ ≤ gd.vdim * nd := Nat.mul_le_mul_right _ (by omega)
    have hrowinj : ∀ v, v < gd.vdim → ∀ a b, a < nd → b < nd →
        dofs.getD (v * nd + a) 0 = dofs.getD (v * nd + b) 0 → a = b := by
      intro v hv a b ha hb h
      have := getD_inj_of_nodup dofs hdofs _ _ (hblock v a hv ha) (hblock v b hv hb) h
      omega
    have hcolinj : ∀ w a b, a < id.length → b < id.length →
        gd.vdim * id.getD a 0 + w = gd.vdim * id.getD b 0 + w → a = b := by
      intro w a b ha hb h
      have h1 : gd.vdim * id.getD a 0 = gd.vdim * id.getD b 0 := by omega
      have h2 : id.getD a 0 = id.getD b 0 := Nat.eq_of_mul_eq_mul_left hvpos h1
      exact getD_inj_of_nodup id hid a b ha hb h2
    have hrows_nd : (GetSubArray dofs (n * nd) nd).Nodup :=
      map_range_nodup _ nd (hrowinj n (by omega))
    have hcols_nd : st.2.Nodup := by
      rw [ih1]
      exact map_range_nodup _ id.length (hcolinj n)
    have hdisj : ∀ v w j, v < gd.vdim → w < gd.vdim → v ≠ w → j < nd →
        dofs.getD (v * nd + j) 0 ∉ GetSubArray dofs (w * nd) nd := by
      intro v w j hv hw hvw hj hmem
      obtain ⟨j2, hj2, h⟩ := (mem_GetSubArray _ _ _ _).mp hmem
      have heq := getD_inj_of_nodup dofs hdofs _ _ (hblock v j hv hj) (hblock w j2 hw hj2) h
      rcases Nat.lt_or_gt_of_ne hvw with hlt | hgt
      · have h3 : v * nd + nd ≤ w * nd := by
          calc v * nd + nd = (v + 1) * nd := by ring
            _ ≤ w * nd := Nat.mul_le_mul_right _ (by omega)
        omega
      · have h3 : w * nd + nd ≤ v * nd := by
          calc w * nd + nd = (w + 1) * nd := by ring
            _ ≤ v * nd := Nat.mul_le_mul_right _ (by omega)
        omega
    refine ⟨?_, ?_, ?_⟩
    · rw [ih1, List.map_map]
      apply List.map_congr_left
      intro e _
      simp only [Function.comp]
      omega
    · intro v j e hv hj he
      rw [SetSubMatrix_elem _ _ _ _ _ hrows_nd hcols_nd]
      by_cases hvn : v = n
      · subst hvn
        have hr : dofs.getD (v * nd + j) 0 ∈ GetSubArray dofs (v * nd) nd :=
          (mem_GetSubArray _ _ _ _).mpr ⟨j, hj, rfl⟩
        have hc : gd.vdim * id.getD e 0 + v ∈ st.2 := by
          rw [ih1]
          exact List.mem_map.mpr ⟨e, List.mem_range.mpr he, rfl⟩
        have hri : (GetSubArray dofs (v * nd) nd).indexOf (dofs.getD (v * nd + j) 0) = j :=
          map_range_indexOf (fun i => dofs.getD (v * nd + i) 0) nd (hrowinj v (by omega)) j hj
        have hci : st.2.indexOf (gd.vdim * id.getD e 0 + v) = e := by
          rw [ih1]
          exact map_range_indexOf (fun e => gd.vdim * id.getD e 0 + v) id.length (hcolinj v) e he
        rw [hri, hci]
        by_cases hz : local_mat.elem j e = 0
        · have hcond : ¬ (dofs.getD (v * nd + j) 0 ∈ GetSubArray dofs (v * nd) nd ∧
              gd.vdim * id.getD e 0 + v ∈ st.2 ∧ ¬ ((1 : Nat) ≠ 0 ∧ local_mat.elem j e = 0)) := by
            rintro ⟨-, -, h⟩
            exact h ⟨by decide, hz⟩
          rw [if_neg hcond, hz, ih3]
          · apply hempty
            rw [List.getD_eq_getElem _ _ (hblock v j (by omega) hj)]
            exact List.getElem_mem _
          · intro w hw
            exact hdisj v w j (by omega) (by omega) (by omega) hj
        · have hcond : dofs.getD (v * nd + j) 0 ∈ GetSubArray dofs (v * nd) nd ∧
              gd.vdim * id.getD e 0 + v ∈ st.2 ∧ ¬ ((1 : Nat) ≠ 0 ∧ local_mat.elem j e = 0) :=
            ⟨hr, hc, fun h => hz h.2⟩
          rw [if_pos hcond]
      · have hv2 : v < n := by omega
        have hcond : ¬ (dofs.getD (v * nd + j) 0 ∈ GetSubArray dofs (n * nd) nd ∧
            gd.vdim * id.getD e 0 + v ∈ st.2 ∧
            ¬ ((1 : Nat) ≠ 0 ∧ local_mat.elem
              ((GetSubArray dofs (n * nd) nd).indexOf (dofs.getD (v * nd + j) 0))
              (st.2.indexOf (gd.vdim * id.getD e 0 + v)) = 0)) := by
          rintro ⟨h, -⟩
          exact hdisj v n j (by omega) (by omega) (by omega) hj h
        rw [if_neg hcond]
        exact ih2 v j e hv2 hj he
    · intro r c hr
      rw [SetSubMatrix_elem _ _ _ _ _ hrows_nd hcols_nd]
      have hcond : ¬ (r ∈ GetSubArray dofs (n * nd) nd ∧ c ∈ st.2 ∧
          ¬ ((1 : Nat) ≠ 0 ∧ local_mat.elem ((GetSubArray dofs (n * nd) nd).indexOf r)
            (st.2.indexOf c) = 0)) := by
        rintro ⟨h, -⟩
        exact hr n (by omega) h
      rw [if_neg hcond]
      exact ih3 r c (fun v hv => hr v (by omega))

/-- Entries written by `AssembleProlongationMatrix` for a duplicate-free patch
into empty target rows. -/
theorem assemble_entries (gd : GalerkinDifference K) (cP : SparseMatrix K) (id : List Nat)
    (local_mat : DenseMatrix K) (hid : id.Nodup)
    (hdofs : (gd.GetElementVDofs (id.getD 0 0)).Nodup)
    (hlen : (gd.GetElementVDofs (id.getD 0 0)).length = gd.vdim * gd.Nodes.length)
    (hempty : ∀ r, r ∈ gd.GetElementVDofs (id.getD 0 0) → ∀ c, cP.elem r c = 0)
    (v j e : Nat) (hv : v < gd.vdim) (hj : j < gd.Nodes.length) (he : e < id.length) :
    (gd.AssembleProlongationMatrix cP id local_mat).elem
      ((gd.GetElementVDofs (id.getD 0 0)).getD (v * gd.Nodes.length + j) 0)
      (gd.vdim * id.getD e 0 + v) = local_mat.elem j e :=
  (assemble_upto gd cP id local_mat hid hdofs hlen hempty gd.vdim (le_refl _)).2.1 v j e hv hj he

/-- C4. Scatter index mapping of `AssembleProlongationMatrix`: for every patch
id sequence `id` (a patch is duplicate-free, as `GetNeighbourSet` returns it),
every local matrix and every `vdim`, when the dense vector dofs `el_dofs` of the
target element `id[0]` (`vdim * num_dofs` distinct rows) are empty in the
operator, after the call the entry at row `el_dofs[v * num_dofs + j]`, column
`vdim * id[e] + v` equals `local_mat(j, e)` for every component `v < vdim`, local
node `j < num_dofs` and patch position `e`. -/
theorem AssembleProlongationMatrix_scatter (gd : GalerkinDifference K) (cP : SparseMatrix K)
    (id : List Nat) (local_mat : DenseMatrix K) (hid : id.Nodup)
    (hdofs : (gd.GetElementVDofs (id.getD 0 0)).Nodup)
    (hlen : (gd.GetElementVDofs (id.getD 0 0)).length = gd.vdim * gd.Nodes.length)
    (hempty : ∀ r, r ∈ gd.GetElementVDofs (id.getD 0 0) → ∀ c, cP.elem r c = 0)
    (v j e : Nat) (hv : v < gd.vdim) (hj : j < gd.Nodes.length) (he : e < id.length) :
    (gd.AssembleProlongationMatrix cP id local_mat).elem
      ((gd.GetElementVDofs (id.getD 0 0)).getD (v * gd.Nodes.length + j) 0)
      (gd.vdim * id.getD e 0 + v) = local_mat.elem j e :=
  assemble_entries gd cP id local_mat hid hdofs hlen hempty v j e hv hj he

/-- Witness for C4: the patch `[1, 0]` of the seed 1 on the chain of two
elements with one node per element; position `e = 1` of the patch. -/
theorem AssembleProlongationMatrix_scatter_witness :
    ((chainGD 2 0 [(1 / 2 : ℚ)]).AssembleProlongationMatrix (emptyOperator ℚ 2 2) [1, 0]
      rowOneTwo).elem
      (((chainGD 2 0 [(1 / 2 : ℚ)]).GetElementVDofs ([1, 0].getD 0 0)).getD
        (0 * (chainGD 2 0 [(1 / 2 : ℚ)]).Nodes.length + 0) 0)
      ((chainGD 2 0 [(1 / 2 : ℚ)]).vdim * [1, 0].getD 1 0 + 0) = rowOneTwo.elem 0 1 :=
  AssembleProlongationMatrix_scatter (chainGD 2 0 [(1 / 2 : ℚ)]) (emptyOperator ℚ 2 2) [1, 0]
    rowOneTwo (by decide) (by decide) (by decide) (fun _ _ _ => rfl) 0 0 1 (by decide)
    (by decide) (by decide)

theorem foldl_fun_apply {α : Type} (g : α → Nat → K) (l : List α) (z : Nat → K) (k : Nat) :
    (l.foldl (fun acc i => fun k => acc k + g i k) z) k =
      l.foldl (fun a i => a + g i k) (z k) := by
  induction l generalizing z with
  | nil => rfl
  | cons x l ih => simp only [List.foldl_cons]; rw [ih]

theorem foldl_fun2_apply {α : Type} (g : α → Nat → Nat → K) (l : List α) (z : Nat → Nat → K)
    (a b : Nat) :
    (l.foldl (fun acc i => fun a b => acc a b + g i a b) z) a b =
      l.foldl (fun s i => s + g i a b) (z a b) := by
  induction l generalizing z with
  | nil => rfl
  | cons x l ih => simp only [List.foldl_cons]; rw [ih]

theorem foldl_add_eq_list_sum {α : Type} (f : α → K) (l : List α) (z : K) :
    l.foldl (fun a i => a + f i) z = z + (l.map f).sum := by
  induction l generalizing z with
  | nil => simp
  | cons x l ih => simp only [List.foldl_cons, List.map_cons, List.sum_cons]; rw [ih, add_assoc]

theorem range_map_getD {α : Type} (l : List α) (d : α) :
    (List.range l.length).map (fun i => l.getD i d) = l := by
  apply List.ext_getElem
  · simp
  · intro i h1 h2
    simp only [List.getElem_map, List.getElem_range]
    exact List.getD_eq_getElem _ _ h2

/-- An index loop over a rule that accumulates `f (ir[i])` computes the sum of
`f` over the rule. -/
theorem index_loop_sum {α : Type} (f : α → K) (l : List α) (d : α) :
    (List.range l.length).foldl (fun a i => a + f (l.getD i d)) 0 = (l.map f).sum := by
  rw [foldl_add_eq_list_sum (fun i => f (l.getD i d)), zero_add]
  conv_rhs => rw [← range_map_getD l d]
  rw [List.map_map]
  rfl

theorem cutRule_getD (scale W : K) (ir : List (IntegrationPoint K)) (i : Nat)
    (hi : i < ir.length) :
    (cutRule scale W ir).getD i { x := 0, weight := 0 } =
      { x := (scale * (ir.getD i { x := 0, weight := 0 }).x) / W,
        weight := (ir.getD i { x := 0, weight := 0 }).weight } := by
  unfold cutRule
  rw [List.getD_eq_getElem _ _ (by simpa using hi), List.getD_eq_getElem _ _ hi]
  simp

/-- Closed form of the element vector of the load-vector integrator. -/
theorem cutDomainLF_sum (scale : K) (nels : Int) (Q : IntegrationPoint K → K)
    (CalcShape : IntegrationPoint K → Nat → K) (Tr : ElementTransformation K)
    (ir : List (IntegrationPoint K)) (k : Nat) :
    CutDomainLFIntegrator.AssembleRHSElementVect scale nels Q CalcShape Tr ir k =
      if Tr.ElementNo = nels - 1 then
        (ir.map (fun ip => ip.weight * scale *
          Q { x := (scale * ip.x) / Tr.Weight, weight := ip.weight } *
          CalcShape { x := (scale * ip.x) / Tr.Weight, weight := ip.weight } k)).sum
      else (ir.map (fun ip => ip.weight * Tr.Weight * Q ip * CalcShape ip k)).sum := by
  unfold CutDomainLFIntegrator.AssembleRHSElementVect
  by_cases hcut : Tr.ElementNo = nels - 1
  · simp only [if_pos hcut]
    rw [foldl_fun_apply (fun i k => (ir.getD i { x := 0, weight := 0 }).weight *
      (scale * Q ((cutRule scale Tr.Weight ir).getD i { x := 0, weight := 0 })) *
      CalcShape ((cutRule scale Tr.Weight ir).getD i { x := 0, weight := 0 }) k)]
    rw [← index_loop_sum _ ir { x := 0, weight := 0 }]
    apply List.foldl_ext
    intro a i hi
    rw [cutRule_getD scale Tr.Weight ir i (List.mem_range.mp hi)]
    ring
  · simp only [if_neg hcut]
    rw [foldl_fun_apply (fun i k => (ir.getD i { x := 0, weight := 0 }).weight *
      (Tr.Weight * Q (ir.getD i { x := 0, weight := 0 })) *
      CalcShape (ir.getD i { x := 0, weight := 0 }) k)]
    rw [← index_loop_sum _ ir { x := 0, weight := 0 }]
    apply List.foldl_ext
    intro a i _
    ring

/-- Closed form of the regular branch of `AssembleElementMatrix`. -/
theorem advection_regular_sum (scale : K) (nels : Int) (alpha : K) (Q : IntegrationPoint K → K)
    (CalcShape CalcDShape : IntegrationPoint K → Nat → K) (Trans : ElementTransformation K)
    (ir : List (IntegrationPoint K)) (hreg : Trans.ElementNo ≠ nels - 1) (a b : Nat) :
    AdvectionIntegrator.AssembleElementMatrix scale nels alpha Q CalcShape CalcDShape Trans ir a b =
      (ir.map (fun ip => CalcShape ip a * (CalcDShape ip b *
        (Q ip * (alpha * ip.weight))))).sum := by
  unfold AdvectionIntegrator.AssembleElementMatrix
  simp only [if_neg hreg]
  rw [foldl_fun2_apply (fun i a b => CalcShape (ir.getD i { x := 0, weight := 0 }) a *
    (CalcDShape (ir.getD i { x := 0, weight := 0 }) b *
      (1 * 1 * (Q (ir.getD i { x := 0, weight := 0 }) *
        (alpha * (ir.getD i { x := 0, weight := 0 }).weight)))))]
  rw [← index_loop_sum _ ir { x := 0, weight := 0 }]
  apply List.foldl_ext
  intro s i _
  ring

/-- Closed form of the cut branch of `AssembleElementMatrix`. -/
theorem advection_cut_sum (scale : K) (nels : Int) (alpha : K) (Q : IntegrationPoint K → K)
    (CalcShape CalcDShape : IntegrationPoint K → Nat → K) (Trans : ElementTransformation K)
    (ir : List (IntegrationPoint K)) (hcut : Trans.ElementNo = nels - 1) (a b : Nat) :
    AdvectionIntegrator.AssembleElementMatrix scale nels alpha Q CalcShape CalcDShape Trans ir a b =
      ((cutRule scale Trans.Weight ir).map (fun ip => scale / Trans.Weight *
        (CalcShape ip a * (CalcDShape ip b * (Q ip * (alpha * ip.weight)))))).sum := by
  unfold AdvectionIntegrator.AssembleElementMatrix
  simp only [if_pos hcut]
  rw [foldl_fun2_apply (fun i a b =>
    CalcShape ((cutRule scale Trans.Weight ir).getD i { x := 0, weight := 0 }) a *
    (CalcDShape ((cutRule scale Trans.Weight ir).getD i { x := 0, weight := 0 }) b *
      (1 * (scale / Trans.Weight) *
        (Q ((cutRule scale Trans.Weight ir).getD i { x := 0, weight := 0 }) *
        (alpha * ((cutRule scale Trans.Weight ir).getD i { x := 0, weight := 0 }).weight)))))]
  rw [← index_loop_sum _ (cutRule scale Trans.Weight ir) { x := 0, weight := 0 }]
  apply List.foldl_ext
  intro s i _
  ring

/-- C7 (as amended). The element matrix of the cut element equals `s / J` times
the element matrix that the regular branch produces, for the same basis,
Jacobian weight `J` and velocity coefficient, on the quadrature rule whose
points are remapped to `s * x / J` (weights unchanged). -/
theorem AdvectionIntegrator_cut_scaling (scale : K) (nels : Int) (alpha : K)
    (Q : IntegrationPoint K → K) (CalcShape CalcDShape : IntegrationPoint K → Nat → K)
    (Trans Reg : ElementTransformation K) (ir : List (IntegrationPoint K))
    (hcut : Trans.ElementNo = nels - 1) (hreg : Reg.ElementNo ≠ nels - 1)
    (a b : Nat) :
    AdvectionIntegrator.AssembleElementMatrix scale nels alpha Q CalcShape CalcDShape Trans ir a b =
      scale / Trans.Weight *
        AdvectionIntegrator.AssembleElementMatrix scale nels alpha Q CalcShape CalcDShape Reg
          (cutRule scale Trans.Weight ir) a b := by
  rw [advection_cut_sum scale nels alpha Q CalcShape CalcDShape Trans ir hcut,
    advection_regular_sum scale nels alpha Q CalcShape CalcDShape Reg _ hreg,
    ← List.sum_map_mul_left]

/-- Witness for C7 (as amended): two elements, the second one cut with
`s = 1/4`, `J = 1/2`, linear basis, midpoint rule. -/
theorem AdvectionIntegrator_cut_scaling_witness :
    AdvectionIntegrator.AssembleElementMatrix (1 / 4 : ℚ) 2 (-1) (fun _ => -1) linearShape
        linearDShape { ElementNo := 1, Weight := 1 / 2 } [{ x := 1 / 2, weight := 1 }] 0 1 =
      (1 / 4 : ℚ) / (1 / 2) *
        AdvectionIntegrator.AssembleElementMatrix (1 / 4 : ℚ) 2 (-1) (fun _ => -1) linearShape
          linearDShape { ElementNo := 0, Weight := 1 / 2 }
          (cutRule (1 / 4 : ℚ) (1 / 2) [{ x := 1 / 2, weight := 1 }]) 0 1 :=
  AdvectionIntegrator_cut_scaling (1 / 4 : ℚ) 2 (-1) (fun _ => -1) linearShape linearDShape
    { ElementNo := 1, Weight := 1 / 2 } { ElementNo := 0, Weight := 1 / 2 }
    [{ x := 1 / 2, weight := 1 }] (by decide) (by decide) 0 1

/-- Counterexample to C7: two elements of length `1/2` (`J = 1/2`), cut scale
`s = 1/2`, linear basis, midpoint rule, velocity `-1`, `alpha = -1`.  The entry
`(0, 1)` of the cut element matrix is `1/2`, the same as for the regular
element, and not `s` times the regular entry. -/
theorem AdvectionIntegrator_cut_not_scaled :
    AdvectionIntegrator.AssembleElementMatrix (1 / 2 : ℚ) 2 (-1) (fun _ => -1) linearShape
        linearDShape { ElementNo := 1, Weight := 1 / 2 } [{ x := 1 / 2, weight := 1 }] 0 1 = 1 / 2 ∧
      AdvectionIntegrator.AssembleElementMatrix (1 / 2 : ℚ) 2 (-1) (fun _ => -1) linearShape
        linearDShape { ElementNo := 0, Weight := 1 / 2 } [{ x := 1 / 2, weight := 1 }] 0 1 = 1 / 2 ∧
      AdvectionIntegrator.AssembleElementMatrix (1 / 2 : ℚ) 2 (-1) (fun _ => -1) linearShape
        linearDShape { ElementNo := 1, Weight := 1 / 2 } [{ x := 1 / 2, weight := 1 }] 0 1 ≠
      (1 / 2 : ℚ) * AdvectionIntegrator.AssembleElementMatrix (1 / 2 : ℚ) 2 (-1) (fun _ => -1)
        linearShape linearDShape { ElementNo := 0, Weight := 1 / 2 }
        [{ x := 1 / 2, weight := 1 }] 0 1 := by
  have h1 : AdvectionIntegrator.AssembleElementMatrix (1 / 2 : ℚ) 2 (-1) (fun _ => -1)
      linearShape linearDShape { ElementNo := 1, Weight := 1 / 2 }
      [{ x := 1 / 2, weight := 1 }] 0 1 = 1 / 2 := by
    rw [advection_cut_sum _ _ _ _ _ _ _ _ (by decide)]
    simp [cutRule, linearShape, linearDShape]
    norm_num
  have h2 : AdvectionIntegrator.AssembleElementMatrix (1 / 2 : ℚ) 2 (-1) (fun _ => -1)
      linearShape linearDShape { ElementNo := 0, Weight := 1 / 2 }
      [{ x := 1 / 2, weight := 1 }] 0 1 = 1 / 2 := by
    rw [advection_regular_sum _ _ _ _ _ _ _ _ (by decide)]
    simp [linearShape, linearDShape]
    norm_num
  refine ⟨h1, h2, ?_⟩
  rw [h1, h2]
  norm_num

/-- C1. Polynomial exactness of `buildLSInterpolation`: when the centroids of
the patch contain `degree + 1` pairwise distinct values (positions `f a`), the
least-squares problem is solved and for every exponent `k <= degree` and every
sample index `j` the weights satisfy
`sum_i interp(j,i) * x_center(0,i)^k = x_quad(0,j)^k`. -/
theorem buildLSInterpolation_exact (dim degree : Nat) (x_center x_quad : DenseMatrix K)
    (f : Fin (degree + 1) → Nat) (hf : ∀ a, f a < x_center.Width)
    (hdist : Function.Injective (fun a => x_center.elem 0 (f a)))
    (k : Nat) (hk : k ≤ degree) (j : Nat) :
    ∃ interp, buildLSInterpolation dim degree x_center x_quad = some interp ∧
      ∑ i ∈ Finset.range x_center.Width, interp.elem j i * x_center.elem 0 i ^ k =
        x_quad.elem 0 j ^ k :=
  buildLS_exact dim degree x_center x_quad f hf hdist k hk j

/-- C5. `CutDomainLFIntegrator::AssembleRHSElementVect`: on the cut element
(`ElementNo = nels - 1`) every quadrature point `x` is replaced by `(s * x) / J`
with its weight unchanged and the element vector is
`sum_q w_q * s * Q(x'_q) * shape(x'_q)`; on every other element the points are
used unchanged and the element vector is `sum_q w_q * J * Q(x_q) * shape(x_q)`. -/
theorem CutDomainLFIntegrator_elvect (scale : K) (nels : Int) (Q : IntegrationPoint K → K)
    (CalcShape : IntegrationPoint K → Nat → K) (Tr : ElementTransformation K)
    (ir : List (IntegrationPoint K)) (k : Nat) :
    CutDomainLFIntegrator.AssembleRHSElementVect scale nels Q CalcShape Tr ir k =
      if Tr.ElementNo = nels - 1 then
        (ir.map (fun ip => ip.weight * scale *
          Q { x := (scale * ip.x) / Tr.Weight, weight := ip.weight } *
          CalcShape { x := (scale * ip.x) / Tr.Weight, weight := ip.weight } k)).sum
      else (ir.map (fun ip => ip.weight * Tr.Weight * Q ip * CalcShape ip k)).sum :=
  cutDomainLF_sum scale nels Q CalcShape Tr ir k

omit [LinearOrderedField K] in
theorem quad_inner (gd : GalerkinDifference K) (id : Nat) (nodes : List K) (qd : List K) :
    nodes.foldl (fun qd eip => qd ++ [gd.Transform id eip]) qd =
      qd ++ nodes.map (gd.Transform id) := by
  induction nodes generalizing qd with
  | nil => simp
  | cons x nodes ih => simp only [List.foldl_cons, List.map_cons]; rw [ih]; simp

omit [LinearOrderedField K] in
theorem quad_outer (gd : GalerkinDifference K) (ids : List Nat) (qd : List K) :
    ids.foldl (fun qd id => gd.Nodes.foldl (fun qd eip => qd ++ [gd.Transform id eip]) qd) qd =
      qd ++ ids.flatMap (fun id => gd.Nodes.map (gd.Transform id)) := by
  induction ids generalizing qd with
  | nil => simp
  | cons i ids ih =>
    simp only [List.foldl_cons, List.flatMap_cons]
    rw [ih, quad_inner, List.append_assoc]

omit [LinearOrderedField K] in
/-- The sample list of `BuildNeighbourMat` is the concatenation, over the patch
elements in order, of the images of the reference nodes. -/
theorem quad_data_eq (gd : GalerkinDifference K) (ids : List Nat) :
    gd.quad_data ids = ids.flatMap (fun id => gd.Nodes.map (gd.Transform id)) := by
  unfold GalerkinDifference.quad_data
  rw [quad_outer]
  simp

/-- The first `num_dofs` sample columns are the nodes of the first patch
element. -/
theorem BuildNeighbourMat_seed_samples (gd : GalerkinDifference K) (i : Nat) (rest : List Nat)
    (j : Nat) (hj : j < gd.Nodes.length) :
    (gd.BuildNeighbourMat (i :: rest)).2.elem 0 j = gd.Transform i (gd.Nodes.getD j 0) := by
  simp only [GalerkinDifference.BuildNeighbourMat, quad_data_eq, List.flatMap_cons, Nat.mul_one,
    Nat.add_zero]
  have h1 : j < (gd.Nodes.map (gd.Transform i)).length := by simpa using hj
  rw [List.getD_eq_getElem _ _ (by rw [List.length_append]; omega),
    List.getElem_append_left h1, List.getD_eq_getElem _ _ hj]
  simp

/-- A row of the local reconstruction matrix depends on the sample matrix only
through the coordinate of that sample; the solve itself does not depend on the
samples. -/
theorem buildLS_row (dim degree : Nat) (x_center x_quad x_quad2 : DenseMatrix K)
    (M : DenseMatrix K) (h : buildLSInterpolation dim degree x_center x_quad = some M) :
    ∃ M2, buildLSInterpolation dim degree x_center x_quad2 = some M2 ∧
      ∀ j j2 e, x_quad.elem 0 j = x_quad2.elem 0 j2 → M.elem j e = M2.elem j2 e := by
  unfold buildLSInterpolation at h ⊢
  cases hd : dgels x_center.Width (degree + 1) x_center.Width
      (fun i p => (x_center.elem 0 i - x_center.elem 0 0) ^ p)
      (fun i j => if i = j then (1 : K) else 0) with
  | none => simp [hd] at h
  | some coeff =>
    simp only [hd, Option.some.injEq] at h ⊢
    refine ⟨_, rfl, ?_⟩
    intro j j2 e hjj
    rw [← h]
    simp only [hjj]

theorem head_of_nbr (table : Nat → List Nat) (id req_n fuel : Nat) (patch : List Nat)
    (h : GetNeighbourSet table id req_n fuel = some patch) :
    (∃ rest, patch = id :: rest) ∧ patch.Nodup := by
  obtain ⟨-, ⟨t, h2⟩, h3⟩ := nbrLoop_spec table req_n fuel _ patch h
  exact ⟨⟨t, by simpa [nbrInit] using h2⟩, h3 (by simp [nbrInit])⟩

/-- One round of the element loop of `BuildGDProlongation` for the seed `i`:
row `j` of the local matrix that is scattered holds the weights of the patch
elements evaluated at node `j` of the seed, and these are the entries left in
the rows of the seed when those rows were empty. -/
theorem step_rows_at_seed_nodes (gd : GalerkinDifference K) (fuel : Nat)
    (cP cP1 : SparseMatrix K) (i : Nat)
    (hstep : gd.prolongationStep fuel cP i = some cP1) :
    ∃ rest local_mat,
      GetNeighbourSet gd.ElementToElementTable i (nelmt gd.degree) fuel = some (i :: rest) ∧
      buildLSInterpolation 1 gd.degree (gd.BuildNeighbourMat (i :: rest)).1
        (gd.BuildNeighbourMat (i :: rest)).2 = some local_mat ∧
      cP1 = gd.AssembleProlongationMatrix cP (i :: rest) local_mat ∧
      ∀ j, j < gd.Nodes.length →
        ∃ w, buildLSInterpolation 1 gd.degree (gd.BuildNeighbourMat (i :: rest)).1
            (sampleAt (gd.Transform i (gd.Nodes.getD j 0))) = some w ∧
          (∀ e, local_mat.elem j e = w.elem 0 e) ∧
          ((gd.GetElementVDofs i).Nodup →
            (gd.GetElementVDofs i).length = gd.vdim * gd.Nodes.length →
            (∀ r, r ∈ gd.GetElementVDofs i → ∀ c, cP.elem r c = 0) →
            ∀ v e, v < gd.vdim → e < (i :: rest).length →
              cP1.elem ((gd.GetElementVDofs i).getD (v * gd.Nodes.length + j) 0)
                (gd.vdim * (i :: rest).getD e 0 + v) = w.elem 0 e) := by
  unfold GalerkinDifference.prolongationStep at hstep
  cases hn : GetNeighbourSet gd.ElementToElementTable i (nelmt gd.degree) fuel with
  | none => simp [hn] at hstep
  | some elmt_id =>
    simp only [hn] at hstep
    cases hb : buildLSInterpolation 1 gd.degree (gd.BuildNeighbourMat elmt_id).1
        (gd.BuildNeighbourMat elmt_id).2 with
    | none => simp [hb] at hstep
    | some local_mat =>
      simp only [hb, Option.some.injEq] at hstep
      obtain ⟨⟨rest, hrest⟩, hnd⟩ := head_of_nbr _ _ _ _ _ hn
      subst hrest
      refine ⟨rest, local_mat, rfl, hb, hstep.symm, ?_⟩
      intro j hj
      obtain ⟨w, hw1, hw2⟩ := buildLS_row 1 gd.degree (gd.BuildNeighbourMat (i :: rest)).1
        (gd.BuildNeighbourMat (i :: rest)).2 (sampleAt (gd.Transform i (gd.Nodes.getD j 0)))
        local_mat hb
      have hrow : ∀ e, local_mat.elem j e = w.elem 0 e := by
        intro e
        apply hw2
        rw [BuildNeighbourMat_seed_samples gd i rest j hj]
        rfl
      refine ⟨w, hw1, hrow, ?_⟩
      intro hdofs hlen hempty v e hv he
      rw [← hstep, ← hrow e]
      exact assemble_entries gd cP (i :: rest) local_mat hnd hdofs hlen hempty v j e hv hj he

/-- Patch of a chain seed: returned within `N` rounds, `nelmt degree` distinct
ids below `N`, the seed first. -/
theorem chain_patch_props (degree N i : Nat) (hN : nelmt degree ≤ N) (hi : i < N) :
    ∃ rest, GetNeighbourSet (chainTable N) i (nelmt degree) N = some (i :: rest) ∧
      (i :: rest).length = nelmt degree ∧ (i :: rest).Nodup ∧ ∀ x, x ∈ i :: rest → x < N := by
  obtain ⟨r, h1, h2⟩ := chain_patch degree N i hN hi
  obtain ⟨⟨rest, hrest⟩, hnd⟩ := head_of_nbr _ _ _ _ _ h1
  refine ⟨rest, by rw [← hrest]; exact h1, by rw [← hrest]; exact h2, by rw [← hrest]; exact hnd, ?_⟩
  intro x hx
  rw [← hrest] at hx
  exact ((mem_chainNels N i r x hi).mp hx).2.2

theorem chain_cent (N degree : Nat) (nodes : List K) (ids : List Nat) (e : Nat) :
    ((chainGD N degree nodes).BuildNeighbourMat ids).1.elem 0 e =
      ((ids.getD e 0 : Nat) + 1 / 2) / (N : K) := rfl

/-- On the chain the least-squares solve of a patch of `nelmt degree` distinct
elements succeeds and every row of the local matrix sums to one. -/
theorem chain_buildLS (N degree : Nat) (nodes : List K) (ids : List Nat) (hNpos : 0 < N)
    (hnd : ids.Nodup) (hlen : ids.length = nelmt degree) :
    ∃ local_mat, buildLSInterpolation 1 degree ((chainGD N degree nodes).BuildNeighbourMat ids).1
        ((chainGD N degree nodes).BuildNeighbourMat ids).2 = some local_mat ∧
      ∀ j, ∑ e ∈ Finset.range ids.length, local_mat.elem j e = 1 := by
  have hdeg : degree + 1 ≤ ids.length := by
    rw [hlen]
    unfold nelmt
    split <;> omega
  have hNK : (N : K) ≠ 0 := by
    have : (0 : K) < (N : K) := by exact_mod_cast hNpos
    exact ne_of_gt this
  have hinj : Function.Injective (fun a : Fin (degree + 1) =>
      ((chainGD N degree nodes).BuildNeighbourMat ids).1.elem 0 ((fun a => a.val) a)) := by
    intro a b hab
    simp only [chain_cent] at hab
    have h1 : ((ids.getD a.val 0 : Nat) : K) = ((ids.getD b.val 0 : Nat) : K) := by
      have h2 := (div_left_inj' hNK).mp hab
      exact add_right_cancel h2
    have h3 : ids.getD a.val 0 = ids.getD b.val 0 := by exact_mod_cast h1
    have h4 := getD_inj_of_nodup ids hnd a.val b.val (by have := a.isLt; omega)
      (by have := b.isLt; omega) h3
    exact Fin.ext h4
  have hex := fun j => buildLS_exact 1 degree ((chainGD N degree nodes).BuildNeighbourMat ids).1
    ((chainGD N degree nodes).BuildNeighbourMat ids).2 (fun a => a.val)
    (fun a => by
      have := a.isLt
      show a.val < ids.length
      omega) hinj 0 (Nat.zero_le _) j
  obtain ⟨M, hM, -⟩ := hex 0
  refine ⟨M, hM, ?_⟩
  intro j
  obtain ⟨M2, hM2, hsum⟩ := hex j
  rw [hM] at hM2
  injection hM2 with hM2
  subst hM2
  simpa using hsum

theorem chain_rows (nd i : Nat) :
    GetSubArray ((List.range nd).map (fun j => i * nd + j)) (0 * nd) nd =
      (List.range nd).map (fun j => i * nd + j) := by
  unfold GetSubArray
  apply List.map_congr_left
  intro k hk
  have hk2 : 0 * nd + k < ((List.range nd).map (fun j => i * nd + j)).length := by
    have := List.mem_range.mp hk
    simp only [List.length_map, List.length_range]
    omega
  rw [List.getD_eq_getElem _ _ hk2]
  simp

/-- With vector dimension 1 the component loop of `AssembleProlongationMatrix`
is a single `SetSubMatrix` with the dofs of the seed as rows and the patch ids
as columns. -/
theorem chain_assemble (N degree : Nat) (nodes : List K) (cP : SparseMatrix K) (i : Nat)
    (rest : List Nat) (local_mat : DenseMatrix K) :
    (chainGD N degree nodes).AssembleProlongationMatrix cP (i :: rest) local_mat =
      cP.SetSubMatrix ((List.range nodes.length).map (fun j => i * nodes.length + j))
        (i :: rest) local_mat 1 := by
  unfold GalerkinDifference.AssembleProlongationMatrix
  have hcols : (List.range (i :: rest).length).map (fun e => 1 * (i :: rest).getD e 0) =
      i :: rest := by
    simp only [one_mul]
    exact range_map_getD (i :: rest) 0
  have hr1 : List.range 1 = [0] := rfl
  simp only [chainGD, hr1, List.foldl_cons, List.foldl_nil, hcols]
  rw [show (i :: rest).getD 0 0 = i from rfl, chain_rows]

/-- Sum over all columns of a row that holds `g e` at the column `ids[e]` and
zero elsewhere. -/
theorem row_sum_over_patch (N : Nat) (ids : List Nat) (hnd : ids.Nodup)
    (hlt : ∀ x, x ∈ ids → x < N) (g : Nat → K) :
    ∑ c ∈ Finset.range N, (if c ∈ ids then g (ids.indexOf c) else 0) =
      ∑ e ∈ Finset.range ids.length, g e := by
  have himg : ids.toFinset = (Finset.range ids.length).image (fun e => ids.getD e 0) := by
    ext c
    simp only [List.mem_toFinset, Finset.mem_image, Finset.mem_range]
    constructor
    · intro hc
      have h1 : ids.indexOf c < ids.length := List.indexOf_lt_length.mpr hc
      exact ⟨ids.indexOf c, h1, by rw [List.getD_eq_getElem _ _ h1]; exact List.getElem_indexOf h1⟩
    · rintro ⟨e, he, rfl⟩
      rw [List.getD_eq_getElem _ _ he]
      exact List.getElem_mem _
  have h1 : ∑ c ∈ Finset.range N, (if c ∈ ids then g (ids.indexOf c) else 0) =
      ∑ c ∈ ids.toFinset, g (ids.indexOf c) := by
    rw [← @Finset.sum_subset _ _ ids.toFinset (Finset.range N) _ _]
    · apply Finset.sum_congr rfl
      intro c hc
      rw [if_pos (List.mem_toFinset.mp hc)]
    · intro c hc
      exact Finset.mem_range.mpr (hlt c (List.mem_toFinset.mp hc))
    · intro c _ hc
      rw [if_neg (fun h => hc (List.mem_toFinset.mpr h))]
  rw [h1, himg, Finset.sum_image]
  · apply Finset.sum_congr rfl
    intro e he
    have he2 := Finset.mem_range.mp he
    rw [List.getD_eq_getElem _ _ he2, List.indexOf_getElem hnd e he2]
  · intro a ha b hb hab
    exact getD_inj_of_nodup ids hnd a b (Finset.mem_range.mp ha) (Finset.mem_range.mp hb) hab

theorem row_block_inj (nd i i2 j j2 : Nat) (hj : j < nd) (hj2 : j2 < nd)
    (h : i * nd + j = i2 * nd + j2) : i = i2 := by
  rcases Nat.lt_trichotomy i i2 with hlt | heq | hgt
  · have h3 : i * nd + nd ≤ i2 * nd := by
      calc i * nd + nd = (i + 1) * nd := by ring
        _ ≤ i2 * nd := Nat.mul_le_mul_right _ (by omega)
    omega
  · exact heq
  · have h3 : i2 * nd + nd ≤ i * nd := by
      calc i2 * nd + nd = (i2 + 1) * nd := by ring
        _ ≤ i * nd := Nat.mul_le_mul_right _ (by omega)
    omega

/-- One round of the element loop on the chain: the step succeeds and is a
single `SetSubMatrix` whose local matrix has unit row sums. -/
theorem chain_step (N degree : Nat) (nodes : List K) (hN : nelmt degree ≤ N) (i : Nat)
    (hi : i < N) (cP : SparseMatrix K) :
    ∃ rest local_mat, (∀ x, x ∈ i :: rest → x < N) ∧ (i :: rest).Nodup ∧
      (∀ j, ∑ e ∈ Finset.range (i :: rest).length, local_mat.elem j e = 1) ∧
      (chainGD N degree nodes).prolongationStep N cP i =
        some (cP.SetSubMatrix ((List.range nodes.length).map (fun j => i * nodes.length + j))
          (i :: rest) local_mat 1) := by
  obtain ⟨rest, h1, h2, h3, h4⟩ := chain_patch_props degree N i hN hi
  obtain ⟨local_mat, h5, h6⟩ := chain_buildLS N degree nodes (i :: rest) (by omega) h3 h2
  refine ⟨rest, local_mat, h4, h3, h6, ?_⟩
  unfold GalerkinDifference.prolongationStep
  have e1 : (chainGD N degree nodes).ElementToElementTable = chainTable N := rfl
  have e2 : (chainGD N degree nodes).degree = degree := rfl
  simp only [e1, e2, h1, h5]
  rw [chain_assemble]

/-- Effect of one chain step on the operator: the rows of the seed get unit
row sums when they were empty, and every other row is unchanged. -/
theorem chain_step_effect (N nd i : Nat) (rest : List Nat) (local_mat : DenseMatrix K)
    (cP : SparseMatrix K) (hlt : ∀ x, x ∈ i :: rest → x < N) (hnd : (i :: rest).Nodup)
    (hsum : ∀ j, ∑ e ∈ Finset.range (i :: rest).length, local_mat.elem j e = 1)
    (hempty : ∀ j, j < nd → ∀ c, cP.elem (i * nd + j) c = 0) :
    (∀ j, j < nd → ∑ c ∈ Finset.range N,
      (cP.SetSubMatrix ((List.range nd).map (fun j => i * nd + j)) (i :: rest)
        local_mat 1).elem (i * nd + j) c = 1) ∧
    (∀ r, (∀ j, j < nd → r ≠ i * nd + j) → ∀ c,
      (cP.SetSubMatrix ((List.range nd).map (fun j => i * nd + j)) (i :: rest)
        local_mat 1).elem r c = cP.elem r c) := by
  have hinj : ∀ a b, a < nd → b < nd → i * nd + a = i * nd + b → a = b := by
    intro a b _ _ h
    omega
  have hrows := map_range_nodup (fun j => i * nd + j) nd hinj
  constructor
  · intro j hj
    rw [← hsum j, ← row_sum_over_patch N (i :: rest) hnd hlt (fun e => local_mat.elem j e)]
    apply Finset.sum_congr rfl
    intro c _
    rw [SetSubMatrix_elem _ _ _ _ _ hrows hnd]
    have hidx := map_range_indexOf (fun j => i * nd + j) nd hinj j hj
    simp only at hidx
    rw [hidx, hempty j hj c]
    by_cases hc : c ∈ i :: rest
    · rw [if_pos hc]
      by_cases hz : local_mat.elem j ((i :: rest).indexOf c) = 0
      · rw [if_neg (fun h => h.2.2 ⟨by decide, hz⟩), hz]
      · rw [if_pos ⟨List.mem_map.mpr ⟨j, List.mem_range.mpr hj, rfl⟩, hc, fun h => hz h.2⟩]
    · rw [if_neg hc, if_neg (fun h => hc h.2.1)]
  · intro r hr c
    rw [SetSubMatrix_elem _ _ _ _ _ hrows hnd]
    rw [if_neg]
    rintro ⟨h, -⟩
    obtain ⟨j, hj, hjr⟩ := List.mem_map.mp h
    exact hr j (List.mem_range.mp hj) hjr.symm

/-- The element loop on the chain, started on an operator whose rows for the
remaining elements are empty. -/
theorem chain_loop (N degree : Nat) (nodes : List K) (hN : nelmt degree ≤ N) (l : List Nat)
    (hl : ∀ i, i ∈ l → i < N) (hnd : l.Nodup) (cP : SparseMatrix K)
    (hempty : ∀ i, i ∈ l → ∀ j, j < nodes.length → ∀ c, cP.elem (i * nodes.length + j) c = 0) :
    ∃ cP2, (chainGD N degree nodes).prolongationLoop N l cP = some cP2 ∧
      (∀ i, i ∈ l → ∀ j, j < nodes.length →
        ∑ c ∈ Finset.range N, cP2.elem (i * nodes.length + j) c = 1) ∧
      (∀ r, (∀ i, i ∈ l → ∀ j, j < nodes.length → r ≠ i * nodes.length + j) →
        ∀ c, cP2.elem r c = cP.elem r c) ∧
      (cP2.Height = cP.Height ∧ cP2.Width = cP.Width) := by
  induction l generalizing cP with
  | nil =>
    refine ⟨cP, rfl, ?_, ?_, rfl, rfl⟩
    · intro i hi
      simp at hi
    · intro r _ c
      rfl
  | cons i l ih =>
    obtain ⟨rest, local_mat, h1, h2, h3, h4⟩ :=
      chain_step N degree nodes hN i (hl i (by simp)) cP
    obtain ⟨e1, e2⟩ := chain_step_effect N nodes.length i rest local_mat cP h1 h2 h3
      (hempty i (by simp))
    rw [List.nodup_cons] at hnd
    have hempty2 : ∀ i2, i2 ∈ l → ∀ j, j < nodes.length → ∀ c,
        (cP.SetSubMatrix ((List.range nodes.length).map (fun j => i * nodes.length + j))
          (i :: rest) local_mat 1).elem (i2 * nodes.length + j) c = 0 := by
      intro i2 hi2 j hj c
      rw [e2 _ _ c]
      · exact hempty i2 (List.mem_cons_of_mem _ hi2) j hj c
      · intro j2 hj2 heq
        have := row_block_inj nodes.length i2 i j j2 hj hj2 heq
        subst this
        exact hnd.1 hi2
    obtain ⟨cP2, g1, g2, g3, g4, g5⟩ :=
      ih (fun x hx => hl x (List.mem_cons_of_mem _ hx)) hnd.2 _ hempty2
    obtain ⟨s1, s2⟩ := SetSubMatrix_size cP
      ((List.range nodes.length).map (fun j => i * nodes.length + j)) (i :: rest) local_mat 1
    refine ⟨cP2, ?_, ?_, ?_, g4.trans s1, g5.trans s2⟩
    · simp only [GalerkinDifference.prolongationLoop, h4]
      exact g1
    · intro i2 hi2 j hj
      rcases List.mem_cons.mp hi2 with heq | hmem
      · subst heq
        rw [← e1 j hj]
        apply Finset.sum_congr rfl
        intro c _
        apply g3
        intro i3 hi3 j3 hj3 heq
        have := row_block_inj nodes.length i2 i3 j j3 hj hj3 heq
        subst this
        exact hnd.1 hi3
      · exact g2 i2 hmem j hj
    · intro r hr c
      rw [g3 r (fun i2 hi2 j hj => hr i2 (List.mem_cons_of_mem _ hi2) j hj) c]
      exact e2 r (fun j hj => hr i (by simp) j hj) c

/-- Constant reproduction on the chain: the operator is built, has
`N * num_dofs` rows and `N` columns, and every row sums to one. -/
theorem chain_build_row_sums (N degree : Nat) (nodes : List K) (hN : nelmt degree ≤ N) :
    ∃ cP, (chainGD N degree nodes).BuildGDProlongation N = some cP ∧
      cP.Height = N * nodes.length ∧ cP.Width = N ∧
      ∀ r, r < N * nodes.length → ∑ c ∈ Finset.range N, cP.elem r c = 1 := by
  obtain ⟨cP, h1, h2, -, h3, h4⟩ := chain_loop N degree nodes hN (List.range N)
    (fun i hi => List.mem_range.mp hi) (List.nodup_range N)
    { Height := N * nodes.length, Width := 1 * N, elem := fun _ _ => 0 } (fun _ _ _ _ _ => rfl)
  refine ⟨cP, h1, h3, by rw [h4]; exact Nat.one_mul N, ?_⟩
  intro r hr
  have hpos : 0 < nodes.length := by
    rcases Nat.eq_zero_or_pos nodes.length with h | h
    · rw [h] at hr
      omega
    · exact h
  have hi : r / nodes.length < N := Nat.div_lt_of_lt_mul (by rw [Nat.mul_comm]; exact hr)
  have hr2 : r = r / nodes.length * nodes.length + r % nodes.length := by
    rw [Nat.mul_comm]
    exact (Nat.div_add_mod r nodes.length).symm
  rw [hr2]
  exact h2 _ (List.mem_range.mpr hi) _ (Nat.mod_lt _ hpos)

/-- C3. Constant reproduction: on the 1-D chain mesh with `N` elements, vector
dimension 1 and `N >= nelmt degree` (`degree + 2` for odd, `degree + 1` for even
`degree`), `BuildGDProlongation` produces an operator that maps the all-ones
centre vector to the all-ones dense vector: every one of its rows sums to 1. -/
theorem BuildGDProlongation_constant_reproduction (N degree : Nat) (nodes : List K)
    (hN : nelmt degree ≤ N) :
    ∃ cP, (chainGD N degree nodes).BuildGDProlongation N = some cP ∧
      (∀ r, r < cP.Height → cP.Mult (fun _ => 1) r = 1) ∧
      (∀ r, r < cP.Height → ∑ c ∈ Finset.range cP.Width, cP.elem r c = 1) := by
  obtain ⟨cP, h1, h2, h3, h4⟩ := chain_build_row_sums N degree nodes hN
  refine ⟨cP, h1, ?_, ?_⟩
  · intro r hr
    rw [h2] at hr
    simp only [SparseMatrix.Mult, mul_one, h3]
    exact h4 r hr
  · intro r hr
    rw [h2] at hr
    rw [h3]
    exact h4 r hr

/-- Witness for C3: three elements, degree 1, the element nodes `0` and `1`. -/
theorem BuildGDProlongation_constant_reproduction_witness :
    ∃ cP, (chainGD 3 1 [(0 : ℚ), 1]).BuildGDProlongation 3 = some cP ∧
      (∀ r, r < cP.Height → cP.Mult (fun _ => 1) r = 1) ∧
      (∀ r, r < cP.Height → ∑ c ∈ Finset.range cP.Width, cP.elem r c = 1) :=
  BuildGDProlongation_constant_reproduction 3 1 [(0 : ℚ), 1] (by decide)

/-- C10. Rows written for an element are evaluated at the nodes of that
element itself: in the round of `BuildGDProlongation` for the seed `i`, for
every local node `j` and patch position `e`, the value `local_mat(j, e)` that is
scattered for the dense dof `j` of element `i` and the column of patch element
`e` is the least-squares weight of patch element `e` evaluated at the physical
coordinate of reference node `j` of the seed `i` (the patch starts with the
seed and only the first `num_dofs` rows of the local matrix are read); when the
rows of the dofs of `i` were empty it is the entry left in the operator. -/
theorem BuildGDProlongation_rows_at_seed_nodes (gd : GalerkinDifference K) (fuel : Nat)
    (cP cP1 : SparseMatrix K) (i : Nat)
    (hstep : gd.prolongationStep fuel cP i = some cP1) :
    ∃ rest local_mat,
      GetNeighbourSet gd.ElementToElementTable i (nelmt gd.degree) fuel = some (i :: rest) ∧
      buildLSInterpolation 1 gd.degree (gd.BuildNeighbourMat (i :: rest)).1
        (gd.BuildNeighbourMat (i :: rest)).2 = some local_mat ∧
      cP1 = gd.AssembleProlongationMatrix cP (i :: rest) local_mat ∧
      ∀ j, j < gd.Nodes.length →
        ∃ w, buildLSInterpolation 1 gd.degree (gd.BuildNeighbourMat (i :: rest)).1
            (sampleAt (gd.Transform i (gd.Nodes.getD j 0))) = some w ∧
          (∀ e, local_mat.elem j e = w.elem 0 e) ∧
          ((gd.GetElementVDofs i).Nodup →
            (gd.GetElementVDofs i).length = gd.vdim * gd.Nodes.length →
            (∀ r, r ∈ gd.GetElementVDofs i → ∀ c, cP.elem r c = 0) →
            ∀ v e, v < gd.vdim → e < (i :: rest).length →
              cP1.elem ((gd.GetElementVDofs i).getD (v * gd.Nodes.length + j) 0)
                (gd.vdim * (i :: rest).getD e 0 + v) = w.elem 0 e) :=
  step_rows_at_seed_nodes gd fuel cP cP1 i hstep

/-- Witness for C10: the round for the middle element of the chain of three
elements, degree 1, element nodes `0` and `1`, on the empty operator. -/
theorem BuildGDProlongation_rows_at_seed_nodes_witness :
    ∃ cP1, (chainGD 3 1 [(0 : ℚ), 1]).prolongationStep 3 (emptyOperator ℚ 6 3) 1 = some cP1 ∧
      ∃ rest local_mat,
        GetNeighbourSet (chainGD 3 1 [(0 : ℚ), 1]).ElementToElementTable 1
          (nelmt (chainGD 3 1 [(0 : ℚ), 1]).degree) 3 = some (1 :: rest) ∧
        buildLSInterpolation 1 (chainGD 3 1 [(0 : ℚ), 1]).degree
          ((chainGD 3 1 [(0 : ℚ), 1]).BuildNeighbourMat (1 :: rest)).1
          ((chainGD 3 1 [(0 : ℚ), 1]).BuildNeighbourMat (1 :: rest)).2 = some local_mat ∧
        cP1 = (chainGD 3 1 [(0 : ℚ), 1]).AssembleProlongationMatrix (emptyOperator ℚ 6 3)
          (1 :: rest) local_mat ∧
        ∀ j, j < (chainGD 3 1 [(0 : ℚ), 1]).Nodes.length →
          ∃ w, buildLSInterpolation 1 (chainGD 3 1 [(0 : ℚ), 1]).degree
              ((chainGD 3 1 [(0 : ℚ), 1]).BuildNeighbourMat (1 :: rest)).1
              (sampleAt ((chainGD 3 1 [(0 : ℚ), 1]).Transform 1
                ((chainGD 3 1 [(0 : ℚ), 1]).Nodes.getD j 0))) = some w ∧
            (∀ e, local_mat.elem j e = w.elem 0 e) ∧
            (((chainGD 3 1 [(0 : ℚ), 1]).GetElementVDofs 1).Nodup →
              ((chainGD 3 1 [(0 : ℚ), 1]).GetElementVDofs 1).length =
                (chainGD 3 1 [(0 : ℚ), 1]).vdim * (chainGD 3 1 [(0 : ℚ), 1]).Nodes.length →
              (∀ r, r ∈ (chainGD 3 1 [(0 : ℚ), 1]).GetElementVDofs 1 →
                ∀ c, (emptyOperator ℚ 6 3).elem r c = 0) →
              ∀ v e, v < (chainGD 3 1 [(0 : ℚ), 1]).vdim → e < (1 :: rest).length →
                cP1.elem (((chainGD 3 1 [(0 : ℚ), 1]).GetElementVDofs 1).getD
                    (v * (chainGD 3 1 [(0 : ℚ), 1]).Nodes.length + j) 0)
                  ((chainGD 3 1 [(0 : ℚ), 1]).vdim * (1 :: rest).getD e 0 + v) = w.elem 0 e) := by
  obtain ⟨rest, lm, -, -, -, h⟩ :=
    chain_step 3 1 [(0 : ℚ), 1] (by decide) 1 (by decide) (emptyOperator ℚ 6 3)
  exact ⟨_, h, BuildGDProlongation_rows_at_seed_nodes (chainGD 3 1 [(0 : ℚ), 1]) 3
    (emptyOperator ℚ 6 3) _ 1 h⟩

/-- Witness for C1: degree 1 on three unit elements, exponent 1, sample 1. -/
theorem buildLSInterpolation_exact_witness :
    ∃ interp, buildLSInterpolation 1 1 cent3 quad2 = some interp ∧
      ∑ i ∈ Finset.range cent3.Width, interp.elem 1 i * cent3.elem 0 i ^ 1 =
        quad2.elem 0 1 ^ 1 :=
  buildLSInterpolation_exact 1 1 cent3 quad2 (fun a => a.val)
    (fun a => by have := a.isLt; simp only [cent3]; omega)
    (by
      intro a b h
      simp only [cent3, add_left_inj, Nat.cast_inj] at h
      exact Fin.ext h)
    1 (by decide) 1

/-- Length and entries of a concatenation of blocks of equal length `nd`. -/
theorem flatMap_blocks (f : Nat → List K) (nd : Nat) (hf : ∀ i, (f i).length = nd)
    (ids : List Nat) :
    (ids.flatMap f).length = ids.length * nd ∧
      ∀ j k, j < ids.length → k < nd →
        (ids.flatMap f).getD (j * nd + k) 0 = (f (ids.getD j 0)).getD k 0 := by
  induction ids with
  | nil => exact ⟨by simp, fun j k hj => by simp at hj⟩
  | cons i ids ih =>
    obtain ⟨ih1, ih2⟩ := ih
    constructor
    · rw [List.flatMap_cons, List.length_append, ih1, hf, List.length_cons]
      ring
    · intro j k hj hk
      rw [List.flatMap_cons]
      cases j with
      | zero =>
        rw [List.getD_append _ _ _ _ (by rw [hf]; omega)]
        simp
      | succ j =>
        have hle : (f i).length ≤ (j + 1) * nd + k := by
          rw [hf, Nat.succ_mul]
          omega
        rw [List.getD_append_right _ _ _ _ hle, hf]
        have e : (j + 1) * nd + k - nd = j * nd + k := by
          rw [Nat.succ_mul]
          omega
        rw [e, ih2 j k (by simpa using hj) hk]
        rfl

/-- Layout of the two matrices built by `BuildNeighbourMat`. -/
theorem neighbourMat_layout (gd : GalerkinDifference K) (elmt_id : List Nat) :
    (gd.BuildNeighbourMat elmt_id).1.Height = 1 ∧
    (gd.BuildNeighbourMat elmt_id).1.Width = elmt_id.length ∧
    (∀ j, j < elmt_id.length →
      (gd.BuildNeighbourMat elmt_id).1.elem 0 j = gd.GetElementCenter (elmt_id.getD j 0)) ∧
    (gd.BuildNeighbourMat elmt_id).2.Height = 1 ∧
    (gd.BuildNeighbourMat elmt_id).2.Width = elmt_id.length * gd.Nodes.length ∧
    (∀ j k, j < elmt_id.length → k < gd.Nodes.length →
      (gd.BuildNeighbourMat elmt_id).2.elem 0 (j * gd.Nodes.length + k) =
        gd.Transform (elmt_id.getD j 0) (gd.Nodes.getD k 0)) := by
  obtain ⟨h1, h2⟩ := flatMap_blocks (fun id => gd.Nodes.map (gd.Transform id)) gd.Nodes.length
    (fun i => by simp) elmt_id
  refine ⟨rfl, rfl, fun j _ => rfl, rfl, ?_, ?_⟩
  · simp only [GalerkinDifference.BuildNeighbourMat, quad_data_eq, Nat.div_one]
    exact h1
  · intro j k hj hk
    simp only [GalerkinDifference.BuildNeighbourMat, quad_data_eq, Nat.mul_one, Nat.add_zero]
    rw [h2 j k hj hk]
    have hk2 : k < (gd.Nodes.map (gd.Transform (elmt_id.getD j 0))).length := by simpa using hk
    rw [List.getD_eq_getElem _ _ hk2, List.getD_eq_getElem _ _ hk]
    simp

/-- C11. Patch geometry layout of `BuildNeighbourMat`: for a patch id sequence
of length `m` the centre matrix has `m` columns and column `j` is the centroid
of element `elmt_id[j]`; the sample matrix has `m * num_dofs` columns and column
`j * num_dofs + k` is the physical image of reference node `k` of element
`elmt_id[j]`, for every `j < m` and `k < num_dofs`. -/
theorem BuildNeighbourMat_layout (gd : GalerkinDifference K) (elmt_id : List Nat) :
    (gd.BuildNeighbourMat elmt_id).1.Width = elmt_id.length ∧
    (∀ j, j < elmt_id.length →
      (gd.BuildNeighbourMat elmt_id).1.elem 0 j = gd.GetElementCenter (elmt_id.getD j 0)) ∧
    (gd.BuildNeighbourMat elmt_id).2.Width = elmt_id.length * gd.Nodes.length ∧
    (∀ j k, j < elmt_id.length → k < gd.Nodes.length →
      (gd.BuildNeighbourMat elmt_id).2.elem 0 (j * gd.Nodes.length + k) =
        gd.Transform (elmt_id.getD j 0) (gd.Nodes.getD k 0)) :=
  ⟨(neighbourMat_layout gd elmt_id).2.1, (neighbourMat_layout gd elmt_id).2.2.1,
    (neighbourMat_layout gd elmt_id).2.2.2.2.1, (neighbourMat_layout gd elmt_id).2.2.2.2.2⟩

/-- Square case of the least-squares reconstruction: with exactly `degree + 1`
distinct centroids the weights at a centroid are the unit vector. -/
theorem buildLS_square (dim degree H : Nat) (el : Nat → Nat → K) (x_quad : DenseMatrix K)
    (hdist : Function.Injective (fun a : Fin (degree + 1) => el 0 a))
    (j e : Nat) (he : e < degree + 1) (hq : x_quad.elem 0 j = el 0 e) :
    ∃ interp, buildLSInterpolation dim degree
        { Height := H, Width := degree + 1, elem := el } x_quad = some interp ∧
      ∀ i, i < degree + 1 → interp.elem j i = if i = e then 1 else 0 := by
  set x0 := el 0 0 with hx0
  let V : Matrix (Fin (degree + 1)) (Fin (degree + 1)) K :=
    Matrix.of fun i p => (el 0 i - x0) ^ (p : Nat)
  have hdet : (V.transpose * V).det ≠ 0 := by
    apply gram_det_ne_zero (degree + 1) (degree + 1) V (fun a => a) (fun a => el 0 a - x0)
    · intro a b hab
      apply hdist
      simpa using hab
    · intro a p
      rfl
  have hXV := ls_left_inverse (degree + 1) (degree + 1) V hdet
  have hVX := Matrix.mul_eq_one_comm.mp hXV
  have hsolve : dgels (degree + 1) (degree + 1) (degree + 1) (fun i p => (el 0 i - x0) ^ p)
      (fun i j => if i = j then (1 : K) else 0) =
      some (fun p c => if h : p < degree + 1 ∧ c < degree + 1 then
        (((V.transpose * V).det⁻¹ • (V.transpose * V).adjugate) * V.transpose)
          ⟨p, h.1⟩ ⟨c, h.2⟩ else 0) := by
    unfold dgels
    simp only [rhs_identity, Matrix.mul_one]
    rw [if_neg]
    intro hc
    rcases hc with hc | hc
    · omega
    · exact hdet hc
  have hbuild : buildLSInterpolation dim degree
      { Height := H, Width := degree + 1, elem := el } x_quad =
      some { Height := x_quad.Width, Width := degree + 1,
             elem := fun j i => (List.range (degree + 1)).foldl
               (fun acc p => acc + (x_quad.elem 0 j - x0) ^ p *
                 (if h : p < degree + 1 ∧ i < degree + 1 then
                   (((V.transpose * V).det⁻¹ • (V.transpose * V).adjugate) * V.transpose)
                     ⟨p, h.1⟩ ⟨i, h.2⟩ else 0)) 0 } := by
    unfold buildLSInterpolation
    simp only [← hx0, hsolve]
  refine ⟨_, hbuild, ?_⟩
  intro i hi
  simp only [foldl_add_eq_sum]
  rw [Finset.sum_range]
  have h1 := congrFun (congrFun hVX ⟨e, he⟩) ⟨i, hi⟩
  rw [Matrix.mul_apply] at h1
  have h2 : (1 : Matrix (Fin (degree + 1)) (Fin (degree + 1)) K) ⟨e, he⟩ ⟨i, hi⟩ =
      if i = e then 1 else 0 := by
    rw [Matrix.one_apply]
    simp only [Fin.mk.injEq]
    by_cases hie : i = e
    · rw [if_pos hie, if_pos hie.symm]
    · rw [if_neg hie, if_neg (fun h => hie h.symm)]
  rw [← h2, ← h1]
  apply Finset.sum_congr rfl
  intro p _
  have hp : (p : Nat) < degree + 1 ∧ i < degree + 1 := ⟨p.isLt, hi⟩
  rw [dif_pos hp, hq]
  rfl

/-- C16. Exact interpolation when the patch size equals the basis size: for
every even `degree` the required patch size is `degree + 1`, the number of
basis functions, and for a patch of `degree + 1` elements with pairwise distinct
centroids the weight vector at a sample coordinate equal to the centroid of
patch element `e` is 1 at position `e` and 0 elsewhere, so the reconstruction of
arbitrary centre values `c` takes the value `c e` there. -/
theorem buildLSInterpolation_interpolatory (dim degree : Nat) (x_center x_quad : DenseMatrix K)
    (heven : degree % 2 = 0) (hsize : x_center.Width = nelmt degree)
    (hdist : ∀ a b, a < x_center.Width → b < x_center.Width →
      x_center.elem 0 a = x_center.elem 0 b → a = b)
    (j e : Nat) (he : e < x_center.Width) (hq : x_quad.elem 0 j = x_center.elem 0 e) :
    nelmt degree = degree + 1 ∧
    ∃ interp, buildLSInterpolation dim degree x_center x_quad = some interp ∧
      (∀ i, i < x_center.Width → interp.elem j i = if i = e then 1 else 0) ∧
      ∀ c : Nat → K, ∑ i ∈ Finset.range x_center.Width, interp.elem j i * c i = c e := by
  have hn : nelmt degree = degree + 1 := by
    unfold nelmt
    rw [if_neg (by omega)]
  refine ⟨hn, ?_⟩
  obtain ⟨H, W, el⟩ := x_center
  simp only at hsize hdist he hq ⊢
  rw [hn] at hsize
  subst hsize
  have hinj : Function.Injective (fun a : Fin (degree + 1) => el 0 a) := by
    intro a b hab
    exact Fin.ext (hdist a b a.isLt b.isLt hab)
  obtain ⟨interp, h1, h2⟩ := buildLS_square dim degree H el x_quad hinj j e he hq
  refine ⟨interp, h1, h2, ?_⟩
  intro c
  rw [Finset.sum_eq_single_of_mem e (Finset.mem_range.mpr he)]
  · rw [h2 e he, if_pos rfl, one_mul]
  · intro i hi hie
    rw [h2 i (Finset.mem_range.mp hi), if_neg hie, zero_mul]

/-- Witness for C16: degree 2, three unit elements, a sample at the centroid of
the middle element. -/
theorem buildLSInterpolation_interpolatory_witness :
    nelmt 2 = 2 + 1 ∧
    ∃ interp, buildLSInterpolation 1 2 cent3 (sampleAt (3 / 2 : ℚ)) = some interp ∧
      (∀ i, i < cent3.Width → interp.elem 0 i = if i = 1 then 1 else 0) ∧
      ∀ c : Nat → ℚ, ∑ i ∈ Finset.range cent3.Width, interp.elem 0 i * c i = c 1 :=
  buildLSInterpolation_interpolatory 1 2 cent3 (sampleAt (3 / 2 : ℚ)) (by decide) (by decide)
    (by
      intro a b _ _ h
      simp only [cent3, add_left_inj, Nat.cast_inj] at h
      exact h)
    0 1 (by decide) (by simp [sampleAt, cent3]; norm_num)

/-- Bounds on the scale of the driver and on the remapped coordinate. -/
theorem driverScale_bounds (N cutsize : Int) (hN : 1 ≤ N) (hc : 1 ≤ cutsize) :
    0 < driverScale K N cutsize ∧ driverScale K N cutsize ≤ 1 / (N : K) ∧ 1 / (N : K) ≤ 1 ∧
      ∀ x : K, 0 ≤ x → x ≤ 1 →
        0 ≤ driverScale K N cutsize * x / (1 / (N : K)) ∧
          driverScale K N cutsize * x / (1 / (N : K)) ≤ 1 := by
  have hNK : (1 : K) ≤ (N : K) := by exact_mod_cast hN
  have hcK : (1 : K) ≤ (cutsize : K) := by exact_mod_cast hc
  have hN0 : (0 : K) < (N : K) := lt_of_lt_of_le one_pos hNK
  have hc0 : (0 : K) < (cutsize : K) := lt_of_lt_of_le one_pos hcK
  have hinv : (0 : K) < 1 / (N : K) := one_div_pos.mpr hN0
  unfold driverScale
  refine ⟨div_pos hinv hc0, div_le_self (le_of_lt hinv) hcK, ?_, ?_⟩
  · rw [div_le_one hN0]
    exact hNK
  · intro x hx0 hx1
    have e : 1 / (N : K) / (cutsize : K) * x / (1 / (N : K)) = x / (cutsize : K) := by
      field_simp
      ring
    rw [e]
    refine ⟨div_nonneg hx0 (le_of_lt hc0), ?_⟩
    rw [div_le_one hc0]
    exact le_trans hx1 hcK

/-- C17. Remapped coordinates stay inside the reference element: for `N >= 1`
elements and `cutsize >= 1` the scale of the driver `s = (1/N)/cutsize`
satisfies `0 < s <= 1/N <= 1`, and on the cut element of Jacobian weight
`J = 1/N` the coordinate `s * x / J` at which the load-vector integrator
evaluates a reference point `x` of `[0, 1]` lies in `[0, 1]`. -/
theorem remapped_coordinate_in_reference_element (N cutsize : Int) (hN : 1 ≤ N)
    (hc : 1 ≤ cutsize) :
    0 < driverScale K N cutsize ∧ driverScale K N cutsize ≤ 1 / (N : K) ∧ 1 / (N : K) ≤ 1 ∧
      ∀ ip : IntegrationPoint K, 0 ≤ ip.x → ip.x ≤ 1 →
        0 ≤ (CutDomainLFIntegrator.evalPoint (driverScale K N cutsize) N
            { ElementNo := N - 1, Weight := 1 / (N : K) } ip).x ∧
          (CutDomainLFIntegrator.evalPoint (driverScale K N cutsize) N
            { ElementNo := N - 1, Weight := 1 / (N : K) } ip).x ≤ 1 := by
  obtain ⟨h1, h2, h3, h4⟩ := driverScale_bounds (K := K) N cutsize hN hc
  refine ⟨h1, h2, h3, ?_⟩
  intro ip hx0 hx1
  simp only [CutDomainLFIntegrator.evalPoint, if_true]
  exact h4 ip.x hx0 hx1

/-- Witness for C17: twenty elements and `cutsize = 2`. -/
theorem remapped_coordinate_in_reference_element_witness :
    0 < driverScale ℚ 20 2 ∧ driverScale ℚ 20 2 ≤ 1 / ((20 : Int) : ℚ) ∧
      1 / ((20 : Int) : ℚ) ≤ 1 ∧
      ∀ ip : IntegrationPoint ℚ, 0 ≤ ip.x → ip.x ≤ 1 →
        0 ≤ (CutDomainLFIntegrator.evalPoint (driverScale ℚ 20 2) 20
            { ElementNo := 20 - 1, Weight := 1 / ((20 : Int) : ℚ) } ip).x ∧
          (CutDomainLFIntegrator.evalPoint (driverScale ℚ 20 2) 20
            { ElementNo := 20 - 1, Weight := 1 / ((20 : Int) : ℚ) } ip).x ≤ 1 :=
  remapped_coordinate_in_reference_element 20 2 (by decide) (by decide)

theorem mem_ball_succ {table : Nat → List Nat} {seed r x : Nat} :
    x ∈ ball table seed (r + 1) ↔
      x ∈ ball table seed r ∨ ∃ y, y ∈ ball table seed r ∧ x ∈ table y := by
  simp only [ball, Finset.mem_union, Finset.mem_biUnion, List.mem_toFinset]

theorem ball_subset_succ (table : Nat → List Nat) (seed r : Nat) :
    ball table seed r ⊆ ball table seed (r + 1) := by
  intro x hx
  exact mem_ball_succ.mpr (Or.inl hx)

theorem ball_mono (table : Nat → List Nat) (seed : Nat) {r q : Nat} (h : r ≤ q) :
    ball table seed r ⊆ ball table seed q := by
  induction q with
  | zero =>
    have : r = 0 := by omega
    subst this
    exact Finset.Subset.refl _
  | succ q ih =>
    rcases Nat.lt_or_ge r (q + 1) with hlt | hge
    · exact Finset.Subset.trans (ih (by omega)) (ball_subset_succ table seed q)
    · have : r = q + 1 := by omega
      subst this
      exact Finset.Subset.refl _

/-- Every element of the component lies in some ball. -/
theorem reachable_mem_ball (table : Nat → List Nat) (seed x : Nat)
    (h : Reachable table seed x) : ∃ r, x ∈ ball table seed r := by
  unfold Reachable at h
  induction h with
  | refl => exact ⟨0, by simp [ball]⟩
  | tail _ hstep ih =>
    obtain ⟨r, hr⟩ := ih
    exact ⟨r + 1, mem_ball_succ.mpr (Or.inr ⟨_, hr, hstep⟩)⟩

/-- Every element of a ball lies in the component. -/
theorem ball_reachable (table : Nat → List Nat) (seed r x : Nat)
    (h : x ∈ ball table seed r) : Reachable table seed x := by
  induction r generalizing x with
  | zero =>
    simp only [ball, Finset.mem_singleton] at h
    subst h
    exact Relation.ReflTransGen.refl
  | succ r ih =>
    rcases mem_ball_succ.mp h with h1 | ⟨y, hy, hxy⟩
    · exact ih x h1
    · exact Relation.ReflTransGen.tail (ih y hy) hxy

/-- A finite part of the component lies in one ball. -/
theorem finset_subset_ball (table : Nat → List Nat) (seed : Nat) (S : Finset Nat)
    (hS : ∀ x, x ∈ S → Reachable table seed x) : ∃ k, S ⊆ ball table seed k := by
  induction S using Finset.induction_on with
  | empty => exact ⟨0, Finset.empty_subset _⟩
  | insert hx ih =>
    rename_i a S
    obtain ⟨k, hk⟩ := ih (fun x hx => hS x (Finset.mem_insert_of_mem hx))
    obtain ⟨r, hr⟩ := reachable_mem_ball table seed a (hS a (Finset.mem_insert_self a S))
    refine ⟨max k r, ?_⟩
    intro x hx
    rcases Finset.mem_insert.mp hx with rfl | hxS
    · exact ball_mono table seed (le_max_right k r) hr
    · exact ball_mono table seed (le_max_left k r) (hk hxS)

/-- One round of the search keeps the breadth-first invariant: after `r` rounds
`nels` lists the ball of radius `r` without repetition and in order of
distance, `adj` and `cand` are the same list, which covers the next layer. -/
theorem bfs_round (table : Nat → List Nat) (seed r : Nat) (st : NbrState)
    (hnd : st.nels.Nodup) (hset : st.nels.toFinset = ball table seed r)
    (hac : st.adj = st.cand) (hsub : ∀ x, x ∈ st.adj → x ∈ ball table seed (r + 1))
    (hcov : ∀ x, x ∈ ball table seed (r + 1) → x ∈ st.nels ∨ x ∈ st.adj)
    (hpw : st.nels.Pairwise (fun a b => ∀ q, b ∈ ball table seed q → a ∈ ball table seed q)) :
    (nbrRound table st).nels.Nodup ∧
    (nbrRound table st).nels.toFinset = ball table seed (r + 1) ∧
    (nbrRound table st).adj = (nbrRound table st).cand ∧
    (∀ x, x ∈ (nbrRound table st).adj → x ∈ ball table seed (r + 1 + 1)) ∧
    (∀ x, x ∈ ball table seed (r + 1 + 1) →
      x ∈ (nbrRound table st).nels ∨ x ∈ (nbrRound table st).adj) ∧
    (nbrRound table st).nels.Pairwise
      (fun a b => ∀ q, b ∈ ball table seed q → a ∈ ball table seed q) ∧
    ∃ t, (nbrRound table st).nels = st.nels ++ t := by
  obtain ⟨t, ht1, ht2, ht3, ht4⟩ := appendAdj_spec st.adj st.nels
  have hmem : ∀ x, x ∈ st.nels ↔ x ∈ ball table seed r := by
    intro x
    rw [← hset, List.mem_toFinset]
  have hnels : (nbrRound table st).nels = st.nels ++ t := by
    simp only [nbrRound, ht1]
  have hadj : (nbrRound table st).adj = scanCand table (st.nels ++ t) st.cand := by
    simp only [nbrRound, ht1]
  have hcand : (nbrRound table st).cand = scanCand table (st.nels ++ t) st.cand := by
    simp only [nbrRound, ht1]
  have hnd2 : (st.nels ++ t).Nodup := ht2 hnd
  have hmem2 : ∀ x, x ∈ st.nels ++ t ↔ x ∈ ball table seed (r + 1) := by
    intro x
    constructor
    · intro hx
      rcases List.mem_append.mp hx with h | h
      · exact ball_subset_succ table seed r ((hmem x).mp h)
      · exact hsub x (ht3 x h)
    · intro hx
      rcases hcov x hx with h | h
      · exact List.mem_append_left _ h
      · exact ht4 x h
  have hset2 : (st.nels ++ t).toFinset = ball table seed (r + 1) := by
    ext x
    rw [List.mem_toFinset]
    exact hmem2 x
  have hnew : ∀ b, b ∈ t → ∀ q, b ∈ ball table seed q → r + 1 ≤ q := by
    intro b hb q hq
    by_contra hlt
    have hbr : b ∈ ball table seed r := ball_mono table seed (by omega) hq
    have hb1 : b ∈ st.nels := (hmem b).mpr hbr
    exact (List.nodup_append.mp hnd2).2.2 hb1 hb
  rw [hnels, hadj, hcand]
  refine ⟨hnd2, hset2, rfl, ?_, ?_, ?_, ⟨t, rfl⟩⟩
  · intro x hx
    obtain ⟨c, hc, hxc, -⟩ := mem_scanCand.mp hx
    rw [← hac] at hc
    exact mem_ball_succ.mpr (Or.inr ⟨c, hsub c hc, hxc⟩)
  · intro x hx
    by_cases hx1 : x ∈ st.nels ++ t
    · exact Or.inl hx1
    · right
      rcases mem_ball_succ.mp hx with h | ⟨y, hy, hxy⟩
      · exact absurd ((hmem2 x).mpr h) hx1
      · rcases hcov y hy with h | h
        · exfalso
          apply hx1
          apply (hmem2 x).mpr
          exact mem_ball_succ.mpr (Or.inr ⟨y, (hmem y).mp h, hxy⟩)
        · rw [hac] at h
          exact mem_scanCand.mpr ⟨y, h, hxy, hx1⟩
  · rw [List.pairwise_append]
    refine ⟨hpw, ?_, ?_⟩
    · apply List.pairwise_of_forall_mem_list
      intro a ha b hb q hq
      exact ball_mono table seed (hnew b hb q hq) (hsub a (ht3 a ha))
    · intro a ha b hb q hq
      have := hnew b hb q hq
      exact ball_mono table seed (by omega) ((hmem a).mp ha)

/-- State of the search after `r` rounds: the breadth-first invariant, and the
earlier lists are initial segments of the later ones. -/
theorem bfs_iterate (table : Nat → List Nat) (seed r : Nat) :
    ((nbrRound table)^[r] (nbrInit table seed)).nels.Nodup ∧
    ((nbrRound table)^[r] (nbrInit table seed)).nels.toFinset = ball table seed r ∧
    ((nbrRound table)^[r] (nbrInit table seed)).adj =
      ((nbrRound table)^[r] (nbrInit table seed)).cand ∧
    (∀ x, x ∈ ((nbrRound table)^[r] (nbrInit table seed)).adj → x ∈ ball table seed (r + 1)) ∧
    (∀ x, x ∈ ball table seed (r + 1) →
      x ∈ ((nbrRound table)^[r] (nbrInit table seed)).nels ∨
        x ∈ ((nbrRound table)^[r] (nbrInit table seed)).adj) ∧
    ((nbrRound table)^[r] (nbrInit table seed)).nels.Pairwise
      (fun a b => ∀ q, b ∈ ball table seed q → a ∈ ball table seed q) := by
  induction r with
  | zero =>
    simp only [Function.iterate_zero, id_eq, nbrInit]
    refine ⟨by simp, by simp [ball], trivial, ?_, ?_, by simp⟩
    · intro x hx
      exact mem_ball_succ.mpr (Or.inr ⟨seed, by simp [ball], hx⟩)
    · intro x hx
      rcases mem_ball_succ.mp hx with h | ⟨y, hy, hxy⟩
      · left
        simpa [ball] using h
      · right
        simp only [ball, Finset.mem_singleton] at hy
        subst hy
        exact hxy
  | succ r ih =>
    rw [Function.iterate_succ_apply']
    obtain ⟨h1, h2, h3, h4, h5, h6⟩ := ih
    obtain ⟨g1, g2, g3, g4, g5, g6, -⟩ := bfs_round table seed r _ h1 h2 h3 h4 h5 h6
    exact ⟨g1, g2, g3, g4, g5, g6⟩

theorem bfs_length (table : Nat → List Nat) (seed r : Nat) :
    ((nbrRound table)^[r] (nbrInit table seed)).nels.length = (ball table seed r).card := by
  obtain ⟨h1, h2, -⟩ := bfs_iterate table seed r
  rw [← h2, List.toFinset_card_of_nodup h1]

/-- Later lists of the search extend the earlier ones. -/
theorem bfs_extends (table : Nat → List Nat) (seed r k : Nat) (h : r ≤ k) :
    ∃ t, ((nbrRound table)^[k] (nbrInit table seed)).nels =
      ((nbrRound table)^[r] (nbrInit table seed)).nels ++ t := by
  induction k with
  | zero =>
    have : r = 0 := by omega
    subst this
    exact ⟨[], by simp⟩
  | succ k ih =>
    rcases Nat.lt_or_ge r (k + 1) with hlt | hge
    · obtain ⟨t, ht⟩ := ih (by omega)
      obtain ⟨h1, h2, h3, h4, h5, h6⟩ := bfs_iterate table seed k
      obtain ⟨-, -, -, -, -, -, ⟨u, hu⟩⟩ := bfs_round table seed k _ h1 h2 h3 h4 h5 h6
      refine ⟨t ++ u, ?_⟩
      rw [Function.iterate_succ_apply', hu, ht, List.append_assoc]
    · have : r = k + 1 := by omega
      subst this
      exact ⟨[], by simp⟩

/-- The loop runs through the iterated rounds as long as the patch is short. -/
theorem nbrLoop_run (table : Nat → List Nat) (req_n : Nat) (st : NbrState) (r : Nat)
    (hr : ∀ q, q < r → ((nbrRound table)^[q] st).nels.length < req_n) (fuel : Nat) :
    nbrLoop table req_n (fuel + r) st = nbrLoop table req_n fuel ((nbrRound table)^[r] st) := by
  induction r generalizing fuel with
  | zero => rfl
  | succ r ih =>
    rw [← Nat.add_assoc, Nat.add_right_comm, ih (fun q hq => hr q (by omega)) (fuel + 1)]
    have hlt : ((nbrRound table)^[r] st).nels.length < req_n := hr r (by omega)
    rw [nbrLoop, if_pos hlt, Function.iterate_succ_apply']

/-- A returned patch is the list reached at the first round count at which it
has `req_n` entries. -/
theorem nbrLoop_some (table : Nat → List Nat) (req_n fuel : Nat) (st : NbrState)
    (patch : List Nat) (h : nbrLoop table req_n fuel st = some patch) :
    ∃ k, k ≤ fuel ∧ patch = ((nbrRound table)^[k] st).nels ∧ req_n ≤ patch.length ∧
      ∀ q, q < k → ((nbrRound table)^[q] st).nels.length < req_n := by
  induction fuel generalizing st with
  | zero =>
    unfold nbrLoop at h
    split at h
    · exact absurd h (by simp)
    · rename_i hlt
      injection h with h
      subst h
      exact ⟨0, le_refl _, rfl, by omega, fun q hq => by omega⟩
  | succ fuel ih =>
    unfold nbrLoop at h
    split at h
    · rename_i hlt
      obtain ⟨k, hk1, hk2, hk3, hk4⟩ := ih _ h
      refine ⟨k + 1, by omega, ?_, hk3, ?_⟩
      · rw [Function.iterate_succ_apply]
        exact hk2
      · intro q hq
        cases q with
        | zero => exact hlt
        | succ q =>
          rw [Function.iterate_succ_apply]
          exact hk4 q (by omega)
    · rename_i hlt
      injection h with h
      subst h
      exact ⟨0, Nat.zero_le _, rfl, by omega, fun q hq => by omega⟩

/-- Termination of the patch search on a component with at least `req_n`
elements, with the exact round count. -/
theorem patch_search_terminates (table : Nat → List Nat) (seed req_n : Nat) (S : Finset Nat)
    (hS : ∀ x, x ∈ S → Reachable table seed x) (hn : req_n ≤ S.card) :
    ∃ k, req_n ≤ (ball table seed k).card ∧ (∀ q, q < k → (ball table seed q).card < req_n) ∧
      ∃ patch, ∀ fuel, k ≤ fuel → GetNeighbourSet table seed req_n fuel = some patch := by
  obtain ⟨k0, hk0⟩ := finset_subset_ball table seed S hS
  have hex : ∃ k, req_n ≤ (ball table seed k).card :=
    ⟨k0, le_trans hn (Finset.card_le_card hk0)⟩
  classical
  refine ⟨Nat.find hex, Nat.find_spec hex, ?_, ?_⟩
  · intro q hq
    exact Nat.lt_of_not_le (Nat.find_min hex hq)
  · refine ⟨((nbrRound table)^[Nat.find hex] (nbrInit table seed)).nels, ?_⟩
    intro fuel hfuel
    obtain ⟨f, hf⟩ : ∃ f, fuel = f + Nat.find hex := ⟨fuel - Nat.find hex, by omega⟩
    unfold GetNeighbourSet
    rw [hf, nbrLoop_run table req_n _ (Nat.find hex) _ f]
    · apply nbrLoop_done
      rw [bfs_length]
      exact Nat.find_spec hex
    · intro q hq
      rw [bfs_length]
      exact Nat.lt_of_not_le (Nat.find_min hex hq)

/-- C14. Termination of the patch search: when the component of the seed (the
elements joined to it by table rows) contains at least `n` elements, the loop of
`GetNeighbourSet(seed, n)` terminates after `k` rounds, where `k` is the least
radius at which the ball around the seed has at least `n` elements; with any
larger round budget it returns the same patch.  (Holds for every table, in
particular for symmetric ones.) -/
theorem GetNeighbourSet_terminates (table : Nat → List Nat) (seed req_n : Nat) (S : Finset Nat)
    (hS : ∀ x, x ∈ S → Reachable table seed x) (hn : req_n ≤ S.card) :
    ∃ k, req_n ≤ (ball table seed k).card ∧ (∀ q, q < k → (ball table seed q).card < req_n) ∧
      ∃ patch, ∀ fuel, k ≤ fuel → GetNeighbourSet table seed req_n fuel = some patch :=
  patch_search_terminates table seed req_n S hS hn

/-- Witness for C14: the chain of three elements, seed 1, `n = 3`. -/
theorem GetNeighbourSet_terminates_witness :
    ∃ k, 3 ≤ (ball (chainTable 3) 1 k).card ∧
      (∀ q, q < k → (ball (chainTable 3) 1 q).card < 3) ∧
      ∃ patch, ∀ fuel, k ≤ fuel → GetNeighbourSet (chainTable 3) 1 3 fuel = some patch :=
  GetNeighbourSet_terminates (chainTable 3) 1 3 {0, 1, 2}
    (fun x hx => ball_reachable (chainTable 3) 1 1 x (by
      revert x
      decide))
    (by decide)

/-- The returned patch is the ball of the least sufficient radius, listed by
distance. -/
theorem patch_is_ball (table : Nat → List Nat) (seed req_n fuel : Nat) (patch : List Nat)
    (h : GetNeighbourSet table seed req_n fuel = some patch) :
    ∃ k, req_n ≤ (ball table seed k).card ∧ (∀ q, q < k → (ball table seed q).card < req_n) ∧
      patch.toFinset = ball table seed k ∧
      patch.Pairwise (fun a b => ∀ q, b ∈ ball table seed q → a ∈ ball table seed q) ∧
      (∀ r, r ≤ k → (patch.take (ball table seed r).card).toFinset = ball table seed r) ∧
      (req_n ≤ 1 → patch = [seed]) := by
  obtain ⟨k, -, hk2, hk3, hk4⟩ := nbrLoop_some table req_n fuel _ patch h
  obtain ⟨-, h2, -, -, -, h6⟩ := bfs_iterate table seed k
  have hlen : patch.length = (ball table seed k).card := by
    rw [hk2]
    exact bfs_length table seed k
  refine ⟨k, by rw [← hlen]; exact hk3, ?_, by rw [hk2]; exact h2, by rw [hk2]; exact h6, ?_, ?_⟩
  · intro q hq
    rw [← bfs_length]
    exact hk4 q hq
  · intro r hr
    obtain ⟨t, ht⟩ := bfs_extends table seed r k hr
    rw [hk2, ht, List.take_left' (bfs_length table seed r)]
    exact (bfs_iterate table seed r).2.1
  · intro hn
    have hk0 : k = 0 := by
      by_contra hne
      have := hk4 0 (by omega)
      simp only [Function.iterate_zero, id_eq, nbrInit, List.length_singleton] at this
      omega
    rw [hk2, hk0]
    rfl

/-- C15. The patch is a complete breadth-first ball: whenever
`GetNeighbourSet(seed, n)` returns, the returned ids are exactly the elements at
distance at most `k` from the seed, where `k` is the least radius whose ball has
at least `n` elements (so whole layers are appended even when this overshoots
`n`); the ids are listed in non-decreasing order of distance (an id within
distance `q` is never preceded by one that is not, and for every `r <= k` the
first entries are the ball of radius `r`); for `n <= 1` the result is the seed
alone. -/
theorem GetNeighbourSet_is_ball (table : Nat → List Nat) (seed req_n fuel : Nat)
    (patch : List Nat) (h : GetNeighbourSet table seed req_n fuel = some patch) :
    ∃ k, req_n ≤ (ball table seed k).card ∧ (∀ q, q < k → (ball table seed q).card < req_n) ∧
      patch.toFinset = ball table seed k ∧
      patch.Pairwise (fun a b => ∀ q, b ∈ ball table seed q → a ∈ ball table seed q) ∧
      (∀ r, r ≤ k → (patch.take (ball table seed r).card).toFinset = ball table seed r) ∧
      (req_n ≤ 1 → patch = [seed]) :=
  patch_is_ball table seed req_n fuel patch h

/-- Witness for C15: seed 3 on the chain of six elements with `n = 4`; the
second layer is appended whole, so the patch has five entries. -/
theorem GetNeighbourSet_is_ball_witness :
    GetNeighbourSet (chainTable 6) 3 4 6 = some [3, 2, 4, 1, 5] ∧
    ∃ k, 4 ≤ (ball (chainTable 6) 3 k).card ∧
      (∀ q, q < k → (ball (chainTable 6) 3 q).card < 4) ∧
      [3, 2, 4, 1, 5].toFinset = ball (chainTable 6) 3 k ∧
      [3, 2, 4, 1, 5].Pairwise
        (fun a b => ∀ q, b ∈ ball (chainTable 6) 3 q → a ∈ ball (chainTable 6) 3 q) ∧
      (∀ r, r ≤ k →
        (([3, 2, 4, 1, 5] : List Nat).take (ball (chainTable 6) 3 r).card).toFinset =
          ball (chainTable 6) 3 r) ∧
      (4 ≤ 1 → [3, 2, 4, 1, 5] = [3]) :=
  ⟨by decide, GetNeighbourSet_is_ball (chainTable 6) 3 4 6 [3, 2, 4, 1, 5] (by decide)⟩

omit [LinearOrderedField K] in
theorem getD_set_same (d : List K) (m : Nat) (a z : K) (hm : m < d.length) :
    (d.set m a).getD m z = a := by
  rw [List.getD_eq_getElem _ _ (by rw [List.length_set]; exact hm), List.getElem_set]
  simp

omit [LinearOrderedField K] in
theorem getD_set_other (d : List K) (m n : Nat) (a z : K) (hmn : m ≠ n) :
    (d.set m a).getD n z = d.getD n z := by
  rcases Nat.lt_or_ge n d.length with h | h
  · rw [List.getD_eq_getElem _ _ (by rw [List.length_set]; exact h), List.getElem_set,
      if_neg hmn, List.getD_eq_getElem _ _ h]
  · rw [List.getD_eq_default _ _ (by rw [List.length_set]; exact h),
      List.getD_eq_default _ _ h]

/-- Effect of the assignment loop for distinct, in-range target indices. -/
theorem SetSubVectorLoop_spec (dofs : List Nat) (elemvect : List K) (js : List Nat)
    (data : List K) (hjs : js.Nodup)
    (hinj : ∀ a b, a ∈ js → b ∈ js → dofs.getD a 0 = dofs.getD b 0 → a = b)
    (hb : ∀ j, j ∈ js → dofs.getD j 0 < data.length ∧ j < elemvect.length) :
    ∃ d, SetSubVectorLoop dofs elemvect js data = some d ∧ d.length = data.length ∧
      (∀ j, j ∈ js → d.getD (dofs.getD j 0) 0 = elemvect.getD j 0) ∧
      (∀ k, (∀ j, j ∈ js → dofs.getD j 0 ≠ k) → d.getD k 0 = data.getD k 0) := by
  induction js generalizing data with
  | nil => exact ⟨data, rfl, rfl, fun j hj => by simp at hj, fun k _ => rfl⟩
  | cons j js ih =>
    rw [List.nodup_cons] at hjs
    have hbj := hb j (by simp)
    obtain ⟨d, h1, h2, h3, h4⟩ := ih (data.set (dofs.getD j 0) (elemvect.getD j 0)) hjs.2
      (fun a b ha hb2 => hinj a b (List.mem_cons_of_mem _ ha) (List.mem_cons_of_mem _ hb2))
      (fun a ha => by
        rw [List.length_set]
        exact hb a (List.mem_cons_of_mem _ ha))
    refine ⟨d, ?_, ?_, ?_, ?_⟩
    · rw [SetSubVectorLoop, if_pos hbj]
      exact h1
    · rw [h2, List.length_set]
    · intro a ha
      rcases List.mem_cons.mp ha with rfl | ha2
      · rw [h4 _ (fun b hb2 heq => hjs.1 (by
          have := hinj b a (List.mem_cons_of_mem _ hb2) (by simp) heq
          rw [← this]
          exact hb2))]
        exact getD_set_same _ _ _ _ hbj.1
      · exact h3 a ha2
    · intro k hk
      rw [h4 k (fun b hb2 => hk b (List.mem_cons_of_mem _ hb2))]
      exact getD_set_other _ _ _ _ _ (hk j (by simp))

theorem vdofs_getD (vdim i j : Nat) (hj : j < vdim) :
    ((List.range vdim).map (fun j => i * vdim + j)).getD j 0 = i * vdim + j := by
  rw [List.getD_eq_getElem _ _ (by simpa using hj)]
  simp

theorem block_index_lt (vdim NE i j : Nat) (hi : i < NE) (hj : j < vdim) :
    i * vdim + j < vdim * NE := by
  calc i * vdim + j < i * vdim + vdim := by omega
    _ = (i + 1) * vdim := by ring
    _ ≤ NE * vdim := Nat.mul_le_mul_right _ (by omega)
    _ = vdim * NE := Nat.mul_comm _ _

/-- One round of the projection on a basis that is not integral-mapped: the
`vdim` entries of element `i` receive the coefficient at the centroid, the
other entries are unchanged. -/
theorem projectStep_value (vdim NE : Nat) (MapType : Nat → Int) (Weight : Nat → K)
    (Transform : Nat → K → K) (coeff : K → Nat → K) (data : List K) (i : Nat)
    (hlen : data.length = vdim * NE) (hi : i < NE) (hmap : MapType i ≠ 1) :
    ∃ d, CentGridFunction.projectStep vdim MapType Weight Transform coeff data i = some d ∧
      d.length = data.length ∧
      (∀ j, j < vdim → d.getD (i * vdim + j) 0 = coeff (Transform i (1 / 2)) j) ∧
      (∀ k, (∀ j, j < vdim → k ≠ i * vdim + j) → d.getD k 0 = data.getD k 0) := by
  unfold CentGridFunction.projectStep
  simp only [if_neg hmap, SetSubVector, List.length_map, List.length_range]
  obtain ⟨d, h1, h2, h3, h4⟩ := SetSubVectorLoop_spec
    ((List.range vdim).map (fun j => i * vdim + j))
    ((List.range vdim).map (fun j => coeff (Transform i (1 / 2)) j)) (List.range vdim) data
    (List.nodup_range vdim)
    (fun a b ha hb h => by
      rw [vdofs_getD vdim i a (List.mem_range.mp ha),
        vdofs_getD vdim i b (List.mem_range.mp hb)] at h
      omega)
    (fun j hj => by
      have hj2 := List.mem_range.mp hj
      rw [vdofs_getD vdim i j hj2, hlen]
      exact ⟨block_index_lt vdim NE i j hi hj2, by simpa using hj2⟩)
  refine ⟨d, h1, h2, ?_, ?_⟩
  · intro j hj
    have := h3 j (List.mem_range.mpr hj)
    rw [vdofs_getD vdim i j hj] at this
    rw [this, List.getD_eq_getElem _ _ (by simpa using hj)]
    simp
  · intro k hk
    apply h4
    intro j hj heq
    rw [vdofs_getD vdim i j (List.mem_range.mp hj)] at heq
    exact hk j (List.mem_range.mp hj) heq.symm

/-- The element loop of the projection on a basis that is not
integral-mapped. -/
theorem projectLoop_value (vdim NE : Nat) (MapType : Nat → Int) (Weight : Nat → K)
    (Transform : Nat → K → K) (coeff : K → Nat → K) (l : List Nat) (data : List K)
    (hlen : data.length = vdim * NE) (hl : ∀ i, i ∈ l → i < NE ∧ MapType i ≠ 1)
    (hnd : l.Nodup) :
    ∃ d, CentGridFunction.projectLoop vdim MapType Weight Transform coeff l data = some d ∧
      d.length = data.length ∧
      (∀ i j, i ∈ l → j < vdim → d.getD (i * vdim + j) 0 = coeff (Transform i (1 / 2)) j) ∧
      (∀ k, (∀ i j, i ∈ l → j < vdim → k ≠ i * vdim + j) → d.getD k 0 = data.getD k 0) := by
  induction l generalizing data with
  | nil => exact ⟨data, rfl, rfl, fun i j hi => by simp at hi, fun k _ => rfl⟩
  | cons i l ih =>
    rw [List.nodup_cons] at hnd
    obtain ⟨d1, h1, h2, h3, h4⟩ := projectStep_value vdim NE MapType Weight Transform coeff
      data i hlen (hl i (by simp)).1 (hl i (by simp)).2
    obtain ⟨d, g1, g2, g3, g4⟩ := ih d1 (by rw [h2]; exact hlen)
      (fun a ha => hl a (List.mem_cons_of_mem _ ha)) hnd.2
    refine ⟨d, ?_, by rw [g2, h2], ?_, ?_⟩
    · simp only [CentGridFunction.projectLoop, h1]
      exact g1
    · intro a j ha hj
      rcases List.mem_cons.mp ha with rfl | ha2
      · rw [g4 _ (fun b j2 hb hj2 heq => hnd.1 (by
          have := row_block_inj vdim a b j j2 hj hj2 heq
          rw [this]
          exact hb))]
        exact h3 j hj
      · exact g3 a j ha2 hj
    · intro k hk
      rw [g4 k (fun a j ha hj => hk a j (List.mem_cons_of_mem _ ha) hj)]
      exact h4 k (fun j hj => hk i j (by simp) hj)

/-- C13. Centroid projection of `CentGridFunction`: the container built on a
space with `NE` elements and vector dimension `vdim` has `vdim * NE` entries, and
after `ProjectCoefficient(coeff)` on a value-mapped basis (map type never 1),
for every element `i < NE` and component `j < vdim` the entry at index
`i * vdim + j` is component `j` of `coeff` at the centroid of element `i`,
whatever the container held before the call. -/
theorem CentGridFunction_projection (vdim NE : Nat) (MapType : Nat → Int) (Weight : Nat → K)
    (Transform : Nat → K → K) (coeff : K → Nat → K) (garbage : Nat → K)
    (hmap : ∀ i, i < NE → MapType i ≠ 1) :
    (CentGridFunction.create vdim NE garbage).length = vdim * NE ∧
    ∃ d, CentGridFunction.ProjectCoefficient vdim NE MapType Weight Transform coeff
        (CentGridFunction.create vdim NE garbage) = some d ∧
      d.length = vdim * NE ∧
      ∀ i j, i < NE → j < vdim → d.getD (i * vdim + j) 0 = coeff (Transform i (1 / 2)) j := by
  have hlen : (CentGridFunction.create vdim NE garbage).length = vdim * NE := by
    simp [CentGridFunction.create]
  obtain ⟨d, h1, h2, h3, -⟩ := projectLoop_value vdim NE MapType Weight Transform coeff
    (List.range NE) _ hlen
    (fun i hi => ⟨List.mem_range.mp hi, hmap i (List.mem_range.mp hi)⟩) (List.nodup_range NE)
  exact ⟨hlen, d, h1, by rw [h2, hlen], fun i j hi hj => h3 i j (List.mem_range.mpr hi) hj⟩

/-- Witness for C13: three elements of the unit interval, one component, the
coefficient `x`, map type 0. -/
theorem CentGridFunction_projection_witness :
    (CentGridFunction.create 1 3 (fun _ => (7 : ℚ))).length = 1 * 3 ∧
    ∃ d, CentGridFunction.ProjectCoefficient 1 3 (fun _ => 0) (fun _ => (1 / 3 : ℚ))
        (fun i x => ((i : ℚ) + x) / 3) (fun x _ => x)
        (CentGridFunction.create 1 3 (fun _ => (7 : ℚ))) = some d ∧
      d.length = 1 * 3 ∧
      ∀ i j, i < 3 → j < 1 →
        d.getD (i * 1 + j) 0 = (fun (x : ℚ) (_ : Nat) => x) ((fun (i : Nat) (x : ℚ) =>
          ((i : ℚ) + x) / 3) i (1 / 2)) j :=
  CentGridFunction_projection 1 3 (fun _ => 0) (fun _ => (1 / 3 : ℚ))
    (fun i x => ((i : ℚ) + x) / 3) (fun x _ => x) (fun _ => (7 : ℚ))
    (fun _ _ => show (0 : Int) ≠ 1 by decide)

/-- Contribution of one element to the accumulated error, as a sum over the
quadrature rule: the regular branch squares the difference, the cut branch
squares `|u_h| - u` at the remapped points. -/
theorem elementError_sum (scale : K) (NE : Nat) (uh exsol : Nat → IntegrationPoint K → K)
    (ir : Nat → List (IntegrationPoint K)) (Weight : Nat → K) (error : K) (i : Nat) :
    CutComputeL2Error.elementError scale NE uh exsol ir Weight error i =
      error + if (i : Int) = (NE : Int) - 1 then
        ((cutRule scale (Weight i) (ir i)).map (fun ip =>
          ip.weight * scale * (|uh i ip| - exsol i ip) ^ 2)).sum
      else ((ir i).map (fun ip => ip.weight * Weight i * (uh i ip - exsol i ip) ^ 2)).sum := by
  unfold CutComputeL2Error.elementError
  by_cases h : (i : Int) = (NE : Int) - 1
  · simp only [if_pos h]
    rw [foldl_add_eq_list_sum (fun j =>
      ((cutRule scale (Weight i) (ir i)).getD j { x := 0, weight := 0 }).weight * scale *
        (|uh i ((cutRule scale (Weight i) (ir i)).getD j { x := 0, weight := 0 })| -
          exsol i ((cutRule scale (Weight i) (ir i)).getD j { x := 0, weight := 0 })) ^ 2)]
    congr 1
    rw [← index_loop_sum _ (cutRule scale (Weight i) (ir i)) { x := 0, weight := 0 },
      foldl_add_eq_list_sum, zero_add]
  · simp only [if_neg h]
    rw [foldl_add_eq_list_sum (fun j =>
      ((ir i).getD j { x := 0, weight := 0 }).weight * Weight i *
        |uh i ((ir i).getD j { x := 0, weight := 0 }) -
          exsol i ((ir i).getD j { x := 0, weight := 0 })| ^ 2)]
    congr 1
    rw [← index_loop_sum _ (ir i) { x := 0, weight := 0 }, foldl_add_eq_list_sum, zero_add]
    apply congrArg
    apply List.map_congr_left
    intro j _
    rw [sq_abs]

/-- The value at which `CutComputeL2Error` arrives when the discrete field and
the exact solution are both `-1` on a single (cut) element with the midpoint
rule: the accumulated error is `4` and its root is returned, although the
fields agree at the quadrature point. -/
theorem CutComputeL2Error_negative_field :
    CutComputeL2Error.error (1 : ℚ) 1 (fun _ _ => -1) (fun _ _ => -1)
        (fun _ => [{ x := 1 / 2, weight := 1 }]) (fun _ => 1) = 4 ∧
    (∀ root : ℚ → ℚ, CutComputeL2Error root (1 : ℚ) 1 (fun _ _ => -1) (fun _ _ => -1)
        (fun _ => [{ x := 1 / 2, weight := 1 }]) (fun _ => 1) = root 4) ∧
    (1 : ℚ) * 1 * ((-1 : ℚ) - (-1)) ^ 2 = 0 := by
  have h : CutComputeL2Error.error (1 : ℚ) 1 (fun _ _ => -1) (fun _ _ => -1)
      (fun _ => [{ x := 1 / 2, weight := 1 }]) (fun _ => 1) = 4 := by
    have hr : List.range 1 = [0] := rfl
    simp only [CutComputeL2Error.error, hr, List.foldl_cons, List.foldl_nil, elementError_sum]
    norm_num [cutRule]
  refine ⟨h, ?_, by norm_num⟩
  intro root
  unfold CutComputeL2Error
  rw [h, if_neg (by norm_num)]

/-- The accumulated error of `CutComputeL2Error` as a sum over elements and
quadrature points; on the last element the points are remapped, the factor is
the scale and the absolute value of the discrete field enters. -/
theorem CutComputeL2Error_error_sum (scale : K) (NE : Nat)
    (uh exsol : Nat → IntegrationPoint K → K) (ir : Nat → List (IntegrationPoint K))
    (Weight : Nat → K) :
    CutComputeL2Error.error scale NE uh exsol ir Weight =
      ((List.range NE).map (fun (i : Nat) =>
        if (i : Int) = (NE : Int) - 1 then
          ((cutRule scale (Weight i) (ir i)).map (fun ip =>
            ip.weight * scale * (|uh i ip| - exsol i ip) ^ 2)).sum
        else ((ir i).map (fun ip =>
          ip.weight * Weight i * (uh i ip - exsol i ip) ^ 2)).sum)).sum := by
  unfold CutComputeL2Error.error
  have hfun : CutComputeL2Error.elementError scale NE uh exsol ir Weight =
      fun (error : K) (i : Nat) => error + (if (i : Int) = (NE : Int) - 1 then
          ((cutRule scale (Weight i) (ir i)).map (fun ip =>
            ip.weight * scale * (|uh i ip| - exsol i ip) ^ 2)).sum
        else ((ir i).map (fun ip =>
          ip.weight * Weight i * (uh i ip - exsol i ip) ^ 2)).sum) := by
    funext error i
    exact elementError_sum scale NE uh exsol ir Weight error i
  rw [hfun, foldl_add_eq_list_sum, zero_add]

omit [LinearOrderedField K] in
theorem sparse_eq (A B : SparseMatrix K) (h1 : A.Height = B.Height) (h2 : A.Width = B.Width)
    (h3 : ∀ r c, A.elem r c = B.elem r c) : A = B := by
  cases A with
  | mk ha wa ea =>
    cases B with
    | mk hb wb eb =>
      simp only at h1 h2 h3
      have h4 : ea = eb := funext fun r => funext fun c => h3 r c
      subst h1 h2 h4
      rfl

omit [LinearOrderedField K] in
theorem overwrites_skip : Overwrites (fun A : SparseMatrix K => A) (fun _ _ => none) :=
  fun _ => ⟨rfl, rfl, fun _ _ => rfl⟩

omit [LinearOrderedField K] in
theorem overwrites_setEntry (gi gj : Nat) (a : K) :
    Overwrites (fun A : SparseMatrix K => A.SetEntry gi gj a)
      (fun r c => if r = gi ∧ c = gj then some a else none) := by
  intro A
  refine ⟨rfl, rfl, ?_⟩
  intro r c
  rw [SetEntry_elem]
  by_cases h : r = gi ∧ c = gj
  · simp only [if_pos h, Option.getD_some]
  · simp only [if_neg h, Option.getD_none]

omit [LinearOrderedField K] in
theorem overwrites_comp (F G : SparseMatrix K → SparseMatrix K) (W1 W2 : Nat → Nat → Option K)
    (hF : Overwrites F W1) (hG : Overwrites G W2) :
    Overwrites (fun A => G (F A))
      (fun r c => match W2 r c with
        | some a => some a
        | none => W1 r c) := by
  intro A
  obtain ⟨f1, f2, f3⟩ := hF A
  obtain ⟨g1, g2, g3⟩ := hG (F A)
  refine ⟨g1.trans f1, g2.trans f2, ?_⟩
  intro r c
  rw [g3, f3]
  show (W2 r c).getD ((W1 r c).getD (A.elem r c)) =
    (match W2 r c with
      | some a => some a
      | none => W1 r c).getD (A.elem r c)
  cases h : W2 r c with
  | none => rfl
  | some a => rfl

omit [LinearOrderedField K] in
/-- A loop of updates that each overwrite entries in rows of `R` overwrites
entries in rows of `R`. -/
theorem overwrites_foldl {α : Type} (f : SparseMatrix K → α → SparseMatrix K) (R : Nat → Prop)
    (l : List α)
    (hf : ∀ a, a ∈ l → ∃ W, Overwrites (fun A => f A a) W ∧ ∀ r c, W r c ≠ none → R r) :
    ∃ W, Overwrites (fun A => l.foldl f A) W ∧ ∀ r c, W r c ≠ none → R r := by
  induction l with
  | nil => exact ⟨fun _ _ => none, overwrites_skip, fun r c h => absurd rfl h⟩
  | cons a l ih =>
    obtain ⟨W1, h1, s1⟩ := hf a (by simp)
    obtain ⟨W2, h2, s2⟩ := ih (fun b hb => hf b (List.mem_cons_of_mem _ hb))
    refine ⟨_, overwrites_comp _ _ W1 W2 h1 h2, ?_⟩
    intro r c h
    cases hw : W2 r c with
    | none =>
      simp only [hw] at h
      exact s1 r c h
    | some a =>
      apply s2 r c
      rw [hw]
      exact Option.some_ne_none a

omit [LinearOrderedField K] in
/-- Two updates that overwrite entries in disjoint sets of rows commute. -/
theorem overwrites_comm (F G : SparseMatrix K → SparseMatrix K) (W1 W2 : Nat → Nat → Option K)
    (hF : Overwrites F W1) (hG : Overwrites G W2)
    (hdisj : ∀ r c, W1 r c ≠ none → ∀ c2, W2 r c2 ≠ none → False) (A : SparseMatrix K) :
    F (G A) = G (F A) := by
  obtain ⟨f1, f2, f3⟩ := hF A
  obtain ⟨g1, g2, g3⟩ := hG A
  obtain ⟨p1, p2, p3⟩ := hF (G A)
  obtain ⟨q1, q2, q3⟩ := hG (F A)
  apply sparse_eq
  · rw [p1, g1, q1, f1]
  · rw [p2, g2, q2, f2]
  · intro r c
    rw [p3, g3, q3, f3]
    cases h1 : W1 r c with
    | none => rfl
    | some a =>
      cases h2 : W2 r c with
      | none => rfl
      | some b =>
        exact absurd (hdisj r c (by rw [h1]; exact Option.some_ne_none a) c
          (by rw [h2]; exact Option.some_ne_none b)) id


/-- The column loop of `SetSubMatrix` for one local row overwrites entries of
the global row `gi` only. -/
theorem overwrites_setRow (gi : Nat) (cols : List Nat) (subm : DenseMatrix K) (sz i : Nat) :
    ∃ W, Overwrites (fun A : SparseMatrix K => A.SetSubMatrixRow gi cols subm sz i) W ∧
      ∀ r c, W r c ≠ none → r = gi := by
  unfold SparseMatrix.SetSubMatrixRow
  apply overwrites_foldl
  intro j _
  by_cases hskip : sz ≠ 0 ∧ subm.elem i j = 0
  · refine ⟨fun _ _ => none, ?_, fun r c h => absurd rfl h⟩
    intro A
    simp only [if_pos hskip]
    exact ⟨trivial, trivial, fun _ _ => rfl⟩
  · refine ⟨fun r c => if r = gi ∧ c = cols.getD j 0 then some (subm.elem i j) else none, ?_, ?_⟩
    · intro A
      simp only [if_neg hskip]
      exact overwrites_setEntry gi (cols.getD j 0) (subm.elem i j) A
    · intro r c h
      by_cases hrc : r = gi ∧ c = cols.getD j 0
      · exact hrc.1
      · simp only [if_neg hrc] at h
        exact absurd rfl h

/-- The sub-matrix insertion `SetSubMatrix` overwrites entries of the rows
listed in `rows` only. -/
theorem overwrites_setSub (rows cols : List Nat) (subm : DenseMatrix K) (sz : Nat) :
    ∃ W, Overwrites (fun A : SparseMatrix K => A.SetSubMatrix rows cols subm sz) W ∧
      ∀ r c, W r c ≠ none → r ∈ rows := by
  unfold SparseMatrix.SetSubMatrix
  apply overwrites_foldl
  intro i hi
  obtain ⟨W, h1, h2⟩ := overwrites_setRow (rows.getD i 0) cols subm sz i
  refine ⟨W, h1, ?_⟩
  intro r c h
  rw [h2 r c h, List.getD_eq_getElem _ _ (List.mem_range.mp hi)]
  exact List.getElem_mem _

/-- The component loop of `AssembleProlongationMatrix`, for any list of
components and any starting column indices, overwrites entries of rows taken
from the dof blocks of those components only. -/
theorem overwrites_components (dofs : List Nat) (nd : Nat) (local_mat : DenseMatrix K)
    (R : Nat → Prop) (l : List Nat)
    (hR : ∀ v, v ∈ l → ∀ r, r ∈ GetSubArray dofs (v * nd) nd → R r) (cols : List Nat) :
    ∃ W, Overwrites (fun A : SparseMatrix K =>
        (l.foldl (fun (st : SparseMatrix K × List Nat) v =>
          (st.1.SetSubMatrix (GetSubArray dofs (v * nd) nd) st.2 local_mat 1,
            st.2.map (fun c => c + 1))) (A, cols)).1) W ∧
      ∀ r c, W r c ≠ none → R r := by
  induction l generalizing cols with
  | nil => exact ⟨fun _ _ => none, overwrites_skip, fun r c h => absurd rfl h⟩
  | cons v l ih =>
    obtain ⟨W1, h1, s1⟩ := overwrites_setSub (GetSubArray dofs (v * nd) nd) cols local_mat 1
    obtain ⟨W2, h2, s2⟩ := ih (fun w hw => hR w (List.mem_cons_of_mem _ hw))
      (cols.map (fun c => c + 1))
    refine ⟨_, overwrites_comp _ _ W1 W2 h1 h2, ?_⟩
    intro r c h
    cases hw : W2 r c with
    | none =>
      simp only [hw] at h
      exact hR v (by simp) r (s1 r c h)
    | some a =>
      apply s2 r c
      rw [hw]
      exact Option.some_ne_none a

/-- With `vdim * num_dofs` dense dofs on the target element,
`AssembleProlongationMatrix` overwrites entries of rows that are dense dofs of
the target element `id[0]` only. -/
theorem overwrites_assemble (gd : GalerkinDifference K) (id : List Nat)
    (local_mat : DenseMatrix K)
    (hlen : (gd.GetElementVDofs (id.getD 0 0)).length = gd.vdim * gd.Nodes.length) :
    ∃ W, Overwrites (fun cP => gd.AssembleProlongationMatrix cP id local_mat) W ∧
      ∀ r c, W r c ≠ none → r ∈ gd.GetElementVDofs (id.getD 0 0) := by
  unfold GalerkinDifference.AssembleProlongationMatrix
  apply overwrites_components
  intro v hv r hr
  obtain ⟨j, hj, hjr⟩ := (mem_GetSubArray _ _ _ _).mp hr
  have hv2 := List.mem_range.mp hv
  have hlt : v * gd.Nodes.length + j < (gd.GetElementVDofs (id.getD 0 0)).length := by
    rw [hlen]
    calc v * gd.Nodes.length + j < v * gd.Nodes.length + gd.Nodes.length := by omega
      _ = (v + 1) * gd.Nodes.length := by ring
      _ ≤ gd.vdim * gd.Nodes.length := Nat.mul_le_mul_right _ (by omega)
  rw [hjr, List.getD_eq_getElem _ _ hlt]
  exact List.getElem_mem _


/-- One round of the element loop of `BuildGDProlongation` either fails whatever
the operator holds, or overwrites entries in rows that are dense dofs of the
seed only. -/
theorem step_overwrites (gd : GalerkinDifference K) (fuel i : Nat)
    (hlen : (gd.GetElementVDofs i).length = gd.vdim * gd.Nodes.length) :
    (∀ cP, gd.prolongationStep fuel cP i = none) ∨
    ∃ F W, Overwrites F W ∧ (∀ r c, W r c ≠ none → r ∈ gd.GetElementVDofs i) ∧
      ∀ cP, gd.prolongationStep fuel cP i = some (F cP) := by
  unfold GalerkinDifference.prolongationStep
  cases hn : GetNeighbourSet gd.ElementToElementTable i (nelmt gd.degree) fuel with
  | none =>
    left
    intro cP
    rfl
  | some elmt_id =>
    cases hb : buildLSInterpolation 1 gd.degree (gd.BuildNeighbourMat elmt_id).1
        (gd.BuildNeighbourMat elmt_id).2 with
    | none =>
      left
      intro cP
      simp only [hb]
    | some local_mat =>
      right
      obtain ⟨⟨rest, hrest⟩, -⟩ := head_of_nbr _ _ _ _ _ hn
      subst hrest
      obtain ⟨W, h1, h2⟩ := overwrites_assemble gd (i :: rest) local_mat hlen
      exact ⟨_, W, h1, h2, fun cP => by simp only [hb]⟩

/-- With the discontinuous layout the element loop of `BuildGDProlongation`
gives the same result for every order of the elements. -/
theorem loop_perm (gd : GalerkinDifference K) (hlay : gd.DiscontinuousLayout) (fuel : Nat)
    (l1 l2 : List Nat) (hp : l1.Perm l2) (hl : ∀ x, x ∈ l1 → x < gd.nEle)
    (cP : SparseMatrix K) :
    gd.prolongationLoop fuel l1 cP = gd.prolongationLoop fuel l2 cP := by
  induction hp generalizing cP with
  | nil => rfl
  | cons x _ ih =>
    simp only [GalerkinDifference.prolongationLoop]
    cases hs : gd.prolongationStep fuel cP x with
    | none => rfl
    | some cP1 => exact ih (fun y hy => hl y (List.mem_cons_of_mem _ hy)) cP1
  | swap x y l =>
    by_cases hxy : x = y
    · subst hxy
      rfl
    · have hx : x < gd.nEle := hl x (by simp)
      have hy : y < gd.nEle := hl y (by simp)
      rcases step_overwrites gd fuel x (hlay.1 x hx).1 with sx | ⟨F, W1, f1, f2, f3⟩
      · rcases step_overwrites gd fuel y (hlay.1 y hy).1 with sy | ⟨G, W2, g1, g2, g3⟩
        · simp only [GalerkinDifference.prolongationLoop, sx, sy]
        · simp only [GalerkinDifference.prolongationLoop, sx, g3]
      · rcases step_overwrites gd fuel y (hlay.1 y hy).1 with sy | ⟨G, W2, g1, g2, g3⟩
        · simp only [GalerkinDifference.prolongationLoop, sy, f3]
        · simp only [GalerkinDifference.prolongationLoop, f3, g3]
          rw [overwrites_comm F G W1 W2 f1 g1 (fun r c h1 c2 h2 =>
            hlay.2 x hx y hy hxy r (f2 r c h1) (g2 r c2 h2)) cP]
  | trans h1 _ ih1 ih2 =>
    rw [ih1 hl cP]
    exact ih2 (fun x hx => hl x (h1.mem_iff.mpr hx)) cP

/-- The chain space has the discontinuous layout. -/
theorem chainGD_layout (N degree : Nat) (nodes : List K) :
    (chainGD N degree nodes).DiscontinuousLayout := by
  refine ⟨fun i _ => ⟨?_, ?_⟩, ?_⟩
  · show ((List.range nodes.length).map (fun j => i * nodes.length + j)).length =
      1 * nodes.length
    simp
  · exact map_range_nodup _ _ (fun a b _ _ h => by omega)
  · intro i _ j _ hij r hr hr2
    obtain ⟨a, ha, rfl⟩ := List.mem_map.mp hr
    obtain ⟨b, hb, hab⟩ := List.mem_map.mp hr2
    exact hij (row_block_inj nodes.length i j a b (List.mem_range.mp ha)
      (List.mem_range.mp hb) hab.symm)

/-- Frame of `AssembleProlongationMatrix`: the size of the operator and every
row that is not a dense dof of the target element `id[0]` are unchanged. -/
theorem assemble_frame (gd : GalerkinDifference K) (cP : SparseMatrix K) (id : List Nat)
    (local_mat : DenseMatrix K)
    (hlen : (gd.GetElementVDofs (id.getD 0 0)).length = gd.vdim * gd.Nodes.length) :
    (gd.AssembleProlongationMatrix cP id local_mat).Height = cP.Height ∧
    (gd.AssembleProlongationMatrix cP id local_mat).Width = cP.Width ∧
    ∀ r, r ∉ gd.GetElementVDofs (id.getD 0 0) → ∀ c,
      (gd.AssembleProlongationMatrix cP id local_mat).elem r c = cP.elem r c := by
  obtain ⟨W, h1, h2⟩ := overwrites_assemble gd id local_mat hlen
  obtain ⟨a1, a2, a3⟩ := h1 cP
  refine ⟨a1, a2, ?_⟩
  intro r hr c
  rw [a3 r c]
  cases hw : W r c with
  | none => rfl
  | some a => exact absurd (h2 r c (by rw [hw]; exact Option.some_ne_none a)) hr

/-- Row ownership of the scatter and order independence of the element loop
under the discontinuous layout. -/
theorem scatter_row_ownership (gd : GalerkinDifference K) (hlay : gd.DiscontinuousLayout) :
    (∀ (cP : SparseMatrix K) (id : List Nat) (local_mat : DenseMatrix K),
      id.getD 0 0 < gd.nEle →
      (gd.AssembleProlongationMatrix cP id local_mat).Height = cP.Height ∧
      (gd.AssembleProlongationMatrix cP id local_mat).Width = cP.Width ∧
      ∀ r, r ∉ gd.GetElementVDofs (id.getD 0 0) → ∀ c,
        (gd.AssembleProlongationMatrix cP id local_mat).elem r c = cP.elem r c) ∧
    (∀ (cP cP2 : SparseMatrix K) (id id2 : List Nat) (local_mat local_mat2 : DenseMatrix K),
      id.getD 0 0 < gd.nEle → id2.getD 0 0 < gd.nEle → id.getD 0 0 ≠ id2.getD 0 0 →
      ∀ r c, (gd.AssembleProlongationMatrix cP id local_mat).elem r c ≠ cP.elem r c →
        ∀ c2, (gd.AssembleProlongationMatrix cP2 id2 local_mat2).elem r c2 = cP2.elem r c2) ∧
    (∀ (fuel : Nat) (l : List Nat), l.Perm (List.range gd.nEle) →
      (∀ cP, gd.prolongationLoop fuel l cP =
        gd.prolongationLoop fuel (List.range gd.nEle) cP) ∧
      gd.prolongationLoop fuel l
        { Height := gd.GetVSize, Width := gd.vdim * gd.nEle, elem := fun _ _ => 0 } =
        gd.BuildGDProlongation fuel) := by
  have hframe : ∀ (cP : SparseMatrix K) (id : List Nat) (local_mat : DenseMatrix K),
      id.getD 0 0 < gd.nEle →
      (gd.AssembleProlongationMatrix cP id local_mat).Height = cP.Height ∧
      (gd.AssembleProlongationMatrix cP id local_mat).Width = cP.Width ∧
      ∀ r, r ∉ gd.GetElementVDofs (id.getD 0 0) → ∀ c,
        (gd.AssembleProlongationMatrix cP id local_mat).elem r c = cP.elem r c :=
    fun cP id local_mat hid => assemble_frame gd cP id local_mat (hlay.1 _ hid).1
  refine ⟨hframe, ?_, ?_⟩
  · intro cP cP2 id id2 local_mat local_mat2 hid hid2 hne r c hch c2
    apply (hframe cP2 id2 local_mat2 hid2).2.2
    intro hr2
    have hr1 : r ∈ gd.GetElementVDofs (id.getD 0 0) := by
      by_contra hr1
      exact hch ((hframe cP id local_mat hid).2.2 r hr1 c)
    exact hlay.2 _ hid _ hid2 hne r hr1 hr2
  · intro fuel l hp
    have hl : ∀ x, x ∈ l → x < gd.nEle := fun x hx => List.mem_range.mp (hp.mem_iff.mp hx)
    exact ⟨fun cP => loop_perm gd hlay fuel l _ hp hl cP, loop_perm gd hlay fuel l _ hp hl _⟩

/-- C12. Disjoint row ownership of the scatter: with the discontinuous dof
layout (every element owns `vdim * num_dofs` distinct dense dofs and no dense dof
belongs to two elements), `AssembleProlongationMatrix` called for a patch whose
seed `id[0]` is an element of the mesh keeps the size of the operator and leaves
every row that is not a dense dof of the seed unchanged; a row in which the call
for one seed changes an entry is left unchanged by every call for a different
seed; and the element loop of `BuildGDProlongation` run over any reordering of
the elements `0 .. nEle-1` gives the same result as the loop in increasing order,
in particular the operator of `BuildGDProlongation` when started from the empty
operator. -/
theorem AssembleProlongationMatrix_row_ownership (gd : GalerkinDifference K)
    (hlay : gd.DiscontinuousLayout) :
    (∀ (cP : SparseMatrix K) (id : List Nat) (local_mat : DenseMatrix K),
      id.getD 0 0 < gd.nEle →
      (gd.AssembleProlongationMatrix cP id local_mat).Height = cP.Height ∧
      (gd.AssembleProlongationMatrix cP id local_mat).Width = cP.Width ∧
      ∀ r, r ∉ gd.GetElementVDofs (id.getD 0 0) → ∀ c,
        (gd.AssembleProlongationMatrix cP id local_mat).elem r c = cP.elem r c) ∧
    (∀ (cP cP2 : SparseMatrix K) (id id2 : List Nat) (local_mat local_mat2 : DenseMatrix K),
      id.getD 0 0 < gd.nEle → id2.getD 0 0 < gd.nEle → id.getD 0 0 ≠ id2.getD 0 0 →
      ∀ r c, (gd.AssembleProlongationMatrix cP id local_mat).elem r c ≠ cP.elem r c →
        ∀ c2, (gd.AssembleProlongationMatrix cP2 id2 local_mat2).elem r c2 = cP2.elem r c2) ∧
    (∀ (fuel : Nat) (l : List Nat), l.Perm (List.range gd.nEle) →
      (∀ cP, gd.prolongationLoop fuel l cP =
        gd.prolongationLoop fuel (List.range gd.nEle) cP) ∧
      gd.prolongationLoop fuel l
        { Height := gd.GetVSize, Width := gd.vdim * gd.nEle, elem := fun _ _ => 0 } =
        gd.BuildGDProlongation fuel) :=
  scatter_row_ownership gd hlay


/-- Witness for C12: the chain of three elements, degree 1, the element nodes
`0` and `1`. -/
theorem AssembleProlongationMatrix_row_ownership_witness :
    (chainGD 3 1 [(0 : ℚ), 1]).DiscontinuousLayout ∧
    ((∀ (cP : SparseMatrix ℚ) (id : List Nat) (local_mat : DenseMatrix ℚ),
      id.getD 0 0 < (chainGD 3 1 [(0 : ℚ), 1]).nEle →
      ((chainGD 3 1 [(0 : ℚ), 1]).AssembleProlongationMatrix cP id local_mat).Height =
        cP.Height ∧
      ((chainGD 3 1 [(0 : ℚ), 1]).AssembleProlongationMatrix cP id local_mat).Width =
        cP.Width ∧
      ∀ r, r ∉ (chainGD 3 1 [(0 : ℚ), 1]).GetElementVDofs (id.getD 0 0) → ∀ c,
        ((chainGD 3 1 [(0 : ℚ), 1]).AssembleProlongationMatrix cP id local_mat).elem r c =
          cP.elem r c) ∧
    (∀ (cP cP2 : SparseMatrix ℚ) (id id2 : List Nat) (local_mat local_mat2 : DenseMatrix ℚ),
      id.getD 0 0 < (chainGD 3 1 [(0 : ℚ), 1]).nEle →
      id2.getD 0 0 < (chainGD 3 1 [(0 : ℚ), 1]).nEle → id.getD 0 0 ≠ id2.getD 0 0 →
      ∀ r c, ((chainGD 3 1 [(0 : ℚ), 1]).AssembleProlongationMatrix cP id local_mat).elem r c ≠
          cP.elem r c →
        ∀ c2, ((chainGD 3 1 [(0 : ℚ), 1]).AssembleProlongationMatrix cP2 id2
          local_mat2).elem r c2 = cP2.elem r c2) ∧
    (∀ (fuel : Nat) (l : List Nat), l.Perm (List.range (chainGD 3 1 [(0 : ℚ), 1]).nEle) →
      (∀ cP, (chainGD 3 1 [(0 : ℚ), 1]).prolongationLoop fuel l cP =
        (chainGD 3 1 [(0 : ℚ), 1]).prolongationLoop fuel
          (List.range (chainGD 3 1 [(0 : ℚ), 1]).nEle) cP) ∧
      (chainGD 3 1 [(0 : ℚ), 1]).prolongationLoop fuel l
        { Height := (chainGD 3 1 [(0 : ℚ), 1]).GetVSize,
          Width := (chainGD 3 1 [(0 : ℚ), 1]).vdim * (chainGD 3 1 [(0 : ℚ), 1]).nEle,
          elem := fun _ _ => 0 } =
        (chainGD 3 1 [(0 : ℚ), 1]).BuildGDProlongation fuel)) :=
  ⟨chainGD_layout 3 1 [(0 : ℚ), 1],
    AssembleProlongationMatrix_row_ownership (chainGD 3 1 [(0 : ℚ), 1])
      (chainGD_layout 3 1 [(0 : ℚ), 1])⟩


/-- The component blocks of `vdim * num_dofs` distinct dense dofs: all indices
are in range, every block is duplicate-free, and a dof of one block is not in
another block. -/
theorem dof_blocks (dofs : List Nat) (vdim nd : Nat) (hdofs : dofs.Nodup)
    (hlen : dofs.length = vdim * nd) :
    (∀ v j, v < vdim → j < nd → v * nd + j < dofs.length) ∧
    (∀ v, v < vdim → (GetSubArray dofs (v * nd) nd).Nodup) ∧
    (∀ v w j, v < vdim → w < vdim → v ≠ w → j < nd →
      dofs.getD (v * nd + j) 0 ∉ GetSubArray dofs (w * nd) nd) := by
  have hblock : ∀ v j, v < vdim → j < nd → v * nd + j < dofs.length := by
    intro v j hv hj
    rw [hlen]
    calc v * nd + j < v * nd + nd := by omega
      _ = (v + 1) * nd := by ring
      _ ≤ vdim * nd := Nat.mul_le_mul_right _ (by omega)
  refine ⟨hblock, ?_, ?_⟩
  · intro v hv
    apply map_range_nodup
    intro a b ha hb h
    have := getD_inj_of_nodup dofs hdofs _ _ (hblock v a hv ha) (hblock v b hv hb) h
    omega
  · intro v w j hv hw hvw hj hmem
    obtain ⟨j2, hj2, h⟩ := (mem_GetSubArray _ _ _ _).mp hmem
    have heq := getD_inj_of_nodup dofs hdofs _ _ (hblock v j hv hj) (hblock w j2 hw hj2) h
    exact hvw (row_block_inj nd v w j j2 hj hj2 heq)

/-- Columns that `AssembleProlongationMatrix` does not write in the rows of the
target element: an entry of row `el_dofs[v * num_dofs + j]` whose column is not
`vdim * id[e] + v` for any patch position `e` keeps its value. -/
theorem assemble_columns_upto (gd : GalerkinDifference K) (cP : SparseMatrix K) (id : List Nat)
    (local_mat : DenseMatrix K) (hid : id.Nodup)
    (hdofs : (gd.GetElementVDofs (id.getD 0 0)).Nodup)
    (hlen : (gd.GetElementVDofs (id.getD 0 0)).length = gd.vdim * gd.Nodes.length)
    (hempty : ∀ r, r ∈ gd.GetElementVDofs (id.getD 0 0) → ∀ c, cP.elem r c = 0)
    (n : Nat) (hn : n ≤ gd.vdim) (v j c : Nat) (hv : v < gd.vdim) (hj : j < gd.Nodes.length)
    (hc : ∀ e, e < id.length → c ≠ gd.vdim * id.getD e 0 + v) :
    ((List.range n).foldl (fun (st : SparseMatrix K × List Nat) v =>
      (st.1.SetSubMatrix (GetSubArray (gd.GetElementVDofs (id.getD 0 0))
        (v * gd.Nodes.length) gd.Nodes.length) st.2 local_mat 1, st.2.map (fun c => c + 1)))
      (cP, (List.range id.length).map (fun e => gd.vdim * id.getD e 0))).1.elem
        ((gd.GetElementVDofs (id.getD 0 0)).getD (v * gd.Nodes.length + j) 0) c =
      cP.elem ((gd.GetElementVDofs (id.getD 0 0)).getD (v * gd.Nodes.length + j) 0) c := by
  induction n with
  | zero => rfl
  | succ n ih =>
    have ih1 := (assemble_upto gd cP id local_mat hid hdofs hlen hempty n (by omega)).1
    have ih2 := ih (by omega)
    rw [List.range_succ, List.foldl_append]
    simp only [List.foldl_cons, List.foldl_nil]
    generalize hst : (List.range n).foldl (fun (st : SparseMatrix K × List Nat) v =>
      (st.1.SetSubMatrix (GetSubArray (gd.GetElementVDofs (id.getD 0 0))
        (v * gd.Nodes.length) gd.Nodes.length) st.2 local_mat 1, st.2.map (fun c => c + 1)))
      (cP, (List.range id.length).map (fun e => gd.vdim * id.getD e 0)) = st at ih1 ih2
    obtain ⟨-, hrows, hdisj⟩ := dof_blocks _ gd.vdim gd.Nodes.length hdofs hlen
    have hvpos : 0 < gd.vdim := by omega
    have hcols_nd : st.2.Nodup := by
      rw [ih1]
      apply map_range_nodup
      intro a b ha hb h
      have h1 : gd.vdim * id.getD a 0 = gd.vdim * id.getD b 0 := by omega
      exact getD_inj_of_nodup id hid a b ha hb (Nat.eq_of_mul_eq_mul_left hvpos h1)
    rw [SetSubMatrix_elem _ _ _ _ _ (hrows n (by omega)) hcols_nd, if_neg]
    · exact ih2
    · rintro ⟨h1, h2, -⟩
      by_cases hvn : v = n
      · subst hvn
        rw [ih1] at h2
        obtain ⟨e, he, hce⟩ := List.mem_map.mp h2
        exact hc e (List.mem_range.mp he) hce.symm
      · exact hdisj v n j hv (by omega) hvn hj h1

/-- For degree 0 the patch search returns the seed alone, for every round
budget. -/
theorem patch_degree_zero (table : Nat → List Nat) (i fuel : Nat) :
    GetNeighbourSet table i (nelmt 0) fuel = some [i] := by
  cases fuel with
  | zero => rfl
  | succ n => rfl

/-- For degree 0 and a patch of one element every entry of column 0 of the
local reconstruction matrix is 1. -/
theorem buildLS_degree_zero (dim : Nat) (x_center x_quad : DenseMatrix K)
    (hw : x_center.Width = 1) :
    ∃ local_mat, buildLSInterpolation dim 0 x_center x_quad = some local_mat ∧
      local_mat.Height = x_quad.Width ∧ local_mat.Width = 1 ∧
      ∀ j, local_mat.elem j 0 = 1 := by
  have hex := fun j => buildLS_exact dim 0 x_center x_quad (fun _ => 0)
    (fun _ => by rw [hw]; exact Nat.one_pos)
    (fun a b _ => Fin.ext (by have := a.isLt; have := b.isLt; omega)) 0 (le_refl 0) j
  obtain ⟨M, hM, -⟩ := hex 0
  refine ⟨M, hM, ?_, ?_, ?_⟩
  · unfold buildLSInterpolation at hM
    simp only at hM
    split at hM
    · exact absurd hM (by simp)
    · injection hM with hM
      rw [← hM]
  · unfold buildLSInterpolation at hM
    simp only at hM
    split at hM
    · exact absurd hM (by simp)
    · injection hM with hM
      rw [← hM]
      exact hw
  · intro j
    obtain ⟨M2, hM2, hsum⟩ := hex j
    rw [hM] at hM2
    injection hM2 with hM2
    subst hM2
    rw [hw] at hsum
    simpa using hsum


/-- One round of the element loop for degree 0: the patch is the seed alone and
the scattered local matrix holds 1 in column 0. -/
theorem step_degree_zero (gd : GalerkinDifference K) (hdeg : gd.degree = 0) (fuel : Nat)
    (cP : SparseMatrix K) (i : Nat) :
    ∃ local_mat, (∀ j, local_mat.elem j 0 = 1) ∧
      gd.prolongationStep fuel cP i = some (gd.AssembleProlongationMatrix cP [i] local_mat) := by
  obtain ⟨M, h1, -, -, h2⟩ := buildLS_degree_zero 1 (gd.BuildNeighbourMat [i]).1
    (gd.BuildNeighbourMat [i]).2 rfl
  refine ⟨M, h2, ?_⟩
  unfold GalerkinDifference.prolongationStep
  rw [hdeg, patch_degree_zero]
  simp only [h1]

/-- Rows of the seed after the scatter of a one-element patch whose local
matrix holds 1 in column 0, written into empty rows: row
`el_dofs[v * num_dofs + j]` holds 1 at column `vdim * i + v` and 0 elsewhere. -/
theorem assemble_injection (gd : GalerkinDifference K) (cP : SparseMatrix K) (i : Nat)
    (local_mat : DenseMatrix K) (hone : ∀ j, local_mat.elem j 0 = 1)
    (hdofs : (gd.GetElementVDofs i).Nodup)
    (hlen : (gd.GetElementVDofs i).length = gd.vdim * gd.Nodes.length)
    (hempty : ∀ r, r ∈ gd.GetElementVDofs i → ∀ c, cP.elem r c = 0)
    (v j c : Nat) (hv : v < gd.vdim) (hj : j < gd.Nodes.length) :
    (gd.AssembleProlongationMatrix cP [i] local_mat).elem
      ((gd.GetElementVDofs i).getD (v * gd.Nodes.length + j) 0) c =
      if c = gd.vdim * i + v then 1 else 0 := by
  have hid : [i].Nodup := List.nodup_singleton i
  by_cases hc : c = gd.vdim * i + v
  · rw [if_pos hc, hc, ← hone j]
    exact assemble_entries gd cP [i] local_mat hid hdofs hlen hempty v j 0 hv hj (by simp)
  · rw [if_neg hc]
    have h := assemble_columns_upto gd cP [i] local_mat hid hdofs hlen hempty gd.vdim
      (le_refl _) v j c hv hj (by
        intro e he
        have he0 : e = 0 := by simpa using he
        subst he0
        exact hc)
    have hmem : (gd.GetElementVDofs i).getD (v * gd.Nodes.length + j) 0 ∈
        gd.GetElementVDofs i := by
      have hlt := (dof_blocks _ gd.vdim gd.Nodes.length hdofs hlen).1 v j hv hj
      rw [List.getD_eq_getElem _ _ hlt]
      exact List.getElem_mem _
    rw [← hempty _ hmem c]
    exact h


/-- The element loop for degree 0 under the discontinuous layout, started on an
operator whose rows for the remaining elements are empty. -/
theorem loop_degree_zero (gd : GalerkinDifference K) (hdeg : gd.degree = 0)
    (hlay : gd.DiscontinuousLayout) (fuel : Nat) (l : List Nat)
    (hl : ∀ i, i ∈ l → i < gd.nEle) (hnd : l.Nodup) (cP : SparseMatrix K)
    (hempty : ∀ i, i ∈ l → ∀ r, r ∈ gd.GetElementVDofs i → ∀ c, cP.elem r c = 0) :
    ∃ cP2, gd.prolongationLoop fuel l cP = some cP2 ∧
      (∀ i, i ∈ l → ∀ v j c, v < gd.vdim → j < gd.Nodes.length →
        cP2.elem ((gd.GetElementVDofs i).getD (v * gd.Nodes.length + j) 0) c =
          if c = gd.vdim * i + v then 1 else 0) ∧
      (∀ r, (∀ i, i ∈ l → r ∉ gd.GetElementVDofs i) → ∀ c, cP2.elem r c = cP.elem r c) ∧
      cP2.Height = cP.Height ∧ cP2.Width = cP.Width := by
  induction l generalizing cP with
  | nil =>
    refine ⟨cP, rfl, ?_, fun _ _ _ => rfl, rfl, rfl⟩
    intro i hi
    simp at hi
  | cons i l ih =>
    have hi : i < gd.nEle := hl i (by simp)
    obtain ⟨hlen, hdofs⟩ := hlay.1 i hi
    obtain ⟨M, hone, hstep⟩ := step_degree_zero gd hdeg fuel cP i
    obtain ⟨f1, f2, f3⟩ := assemble_frame gd cP [i] M hlen
    rw [List.nodup_cons] at hnd
    have hne : ∀ i2, i2 ∈ l → i2 ≠ i := by
      intro i2 hi2 h
      rw [h] at hi2
      exact hnd.1 hi2
    have hempty2 : ∀ i2, i2 ∈ l → ∀ r, r ∈ gd.GetElementVDofs i2 → ∀ c,
        (gd.AssembleProlongationMatrix cP [i] M).elem r c = 0 := by
      intro i2 hi2 r hr c
      rw [f3 r (hlay.2 i2 (hl i2 (List.mem_cons_of_mem _ hi2)) i hi (hne i2 hi2) r hr) c]
      exact hempty i2 (List.mem_cons_of_mem _ hi2) r hr c
    obtain ⟨cP2, g1, g2, g3, g4, g5⟩ :=
      ih (fun x hx => hl x (List.mem_cons_of_mem _ hx)) hnd.2 _ hempty2
    refine ⟨cP2, ?_, ?_, ?_, g4.trans f1, g5.trans f2⟩
    · simp only [GalerkinDifference.prolongationLoop, hstep]
      exact g1
    · intro i2 hi2 v j c hv hj
      rcases List.mem_cons.mp hi2 with heq | hmem
      · subst heq
        have hlt := (dof_blocks _ gd.vdim gd.Nodes.length hdofs hlen).1 v j hv hj
        have hrow : (gd.GetElementVDofs i2).getD (v * gd.Nodes.length + j) 0 ∈
            gd.GetElementVDofs i2 := by
          rw [List.getD_eq_getElem _ _ hlt]
          exact List.getElem_mem _
        rw [g3 _ (fun i3 hi3 => hlay.2 i2 hi i3 (hl i3 (List.mem_cons_of_mem _ hi3))
          (fun h => hne i3 hi3 h.symm) _ hrow) c]
        exact assemble_injection gd cP i2 M hone hdofs hlen (hempty i2 (by simp)) v j c hv hj
      · exact g2 i2 hmem v j c hv hj
    · intro r hr c
      rw [g3 r (fun i2 hi2 => hr i2 (List.mem_cons_of_mem _ hi2)) c]
      exact f3 r (hr i (by simp)) c

/-- Degree-0 prolongation under the discontinuous layout: patch size, patches,
local matrices and the operator, which copies the centre value of an element to
every dense dof of that element. -/
theorem degree_zero_injection (gd : GalerkinDifference K) (hdeg : gd.degree = 0)
    (hlay : gd.DiscontinuousLayout) (fuel : Nat) :
    nelmt gd.degree = 1 ∧
    (∀ i, GetNeighbourSet gd.ElementToElementTable i (nelmt gd.degree) fuel = some [i]) ∧
    (∀ i, ∃ local_mat, buildLSInterpolation 1 gd.degree (gd.BuildNeighbourMat [i]).1
        (gd.BuildNeighbourMat [i]).2 = some local_mat ∧
      local_mat.Height = gd.Nodes.length ∧ local_mat.Width = 1 ∧
      ∀ j, j < local_mat.Height → local_mat.elem j 0 = 1) ∧
    ∃ cP, gd.BuildGDProlongation fuel = some cP ∧
      cP.Height = gd.GetVSize ∧ cP.Width = gd.vdim * gd.nEle ∧
      ∀ (c : Nat → K) (i v j : Nat), i < gd.nEle → v < gd.vdim → j < gd.Nodes.length →
        cP.Mult c ((gd.GetElementVDofs i).getD (v * gd.Nodes.length + j) 0) =
          c (gd.vdim * i + v) := by
  refine ⟨by rw [hdeg]; rfl, ?_, ?_, ?_⟩
  · intro i
    rw [hdeg]
    exact patch_degree_zero _ i fuel
  · intro i
    obtain ⟨M, h1, h2, h3, h4⟩ := buildLS_degree_zero 1 (gd.BuildNeighbourMat [i]).1
      (gd.BuildNeighbourMat [i]).2 rfl
    refine ⟨M, by rw [hdeg]; exact h1, ?_, h3, fun j _ => h4 j⟩
    rw [h2, (neighbourMat_layout gd [i]).2.2.2.2.1]
    simp
  · obtain ⟨cP, h1, h2, -, h3, h4⟩ := loop_degree_zero gd hdeg hlay fuel (List.range gd.nEle)
      (fun i hi => List.mem_range.mp hi) (List.nodup_range _)
      { Height := gd.GetVSize, Width := gd.vdim * gd.nEle, elem := fun _ _ => 0 }
      (fun _ _ _ _ _ => rfl)
    refine ⟨cP, h1, h3, h4, ?_⟩
    intro c i v j hi hv hj
    unfold SparseMatrix.Mult
    rw [h4]
    have hcol : gd.vdim * i + v < gd.vdim * gd.nEle := by
      calc gd.vdim * i + v < gd.vdim * i + gd.vdim := by omega
        _ = gd.vdim * (i + 1) := by ring
        _ ≤ gd.vdim * gd.nEle := Nat.mul_le_mul_left _ (by omega)
    simp only [h2 i (List.mem_range.mpr hi) v j _ hv hj, ite_mul, one_mul, zero_mul]
    rw [Finset.sum_ite_eq']
    simp only [Finset.mem_range, hcol, if_true]


/-- C18. Degree-0 prolongation is piecewise-constant injection: for degree 0,
with the discontinuous dof layout, the required patch size is 1, every patch is
the seed alone, the local reconstruction matrix of every element has `num_dofs`
rows, one column and every entry of that column equal to 1, and
`BuildGDProlongation` returns an operator with `GetVSize` rows and `vdim * nEle`
columns that maps a centre vector `c` to the dense vector whose value at dof
`el_dofs[v * num_dofs + j]` of element `i` (component `v`, local node `j`) is the
centre value `c[vdim * i + v]` of element `i`. -/
theorem BuildGDProlongation_degree_zero (gd : GalerkinDifference K) (hdeg : gd.degree = 0)
    (hlay : gd.DiscontinuousLayout) (fuel : Nat) :
    nelmt gd.degree = 1 ∧
    (∀ i, GetNeighbourSet gd.ElementToElementTable i (nelmt gd.degree) fuel = some [i]) ∧
    (∀ i, ∃ local_mat, buildLSInterpolation 1 gd.degree (gd.BuildNeighbourMat [i]).1
        (gd.BuildNeighbourMat [i]).2 = some local_mat ∧
      local_mat.Height = gd.Nodes.length ∧ local_mat.Width = 1 ∧
      ∀ j, j < local_mat.Height → local_mat.elem j 0 = 1) ∧
    ∃ cP, gd.BuildGDProlongation fuel = some cP ∧
      cP.Height = gd.GetVSize ∧ cP.Width = gd.vdim * gd.nEle ∧
      ∀ (c : Nat → K) (i v j : Nat), i < gd.nEle → v < gd.vdim → j < gd.Nodes.length →
        cP.Mult c ((gd.GetElementVDofs i).getD (v * gd.Nodes.length + j) 0) =
          c (gd.vdim * i + v) :=
  degree_zero_injection gd hdeg hlay fuel

/-- Witness for C18: the chain of three elements, degree 0, the element nodes
`0` and `1`, a budget of three rounds for the patch search. -/
theorem BuildGDProlongation_degree_zero_witness :
    (chainGD 3 0 [(0 : ℚ), 1]).degree = 0 ∧ (chainGD 3 0 [(0 : ℚ), 1]).DiscontinuousLayout ∧
    (nelmt (chainGD 3 0 [(0 : ℚ), 1]).degree = 1 ∧
    (∀ i, GetNeighbourSet (chainGD 3 0 [(0 : ℚ), 1]).ElementToElementTable i
      (nelmt (chainGD 3 0 [(0 : ℚ), 1]).degree) 3 = some [i]) ∧
    (∀ i, ∃ local_mat, buildLSInterpolation 1 (chainGD 3 0 [(0 : ℚ), 1]).degree
        ((chainGD 3 0 [(0 : ℚ), 1]).BuildNeighbourMat [i]).1
        ((chainGD 3 0 [(0 : ℚ), 1]).BuildNeighbourMat [i]).2 = some local_mat ∧
      local_mat.Height = (chainGD 3 0 [(0 : ℚ), 1]).Nodes.length ∧ local_mat.Width = 1 ∧
      ∀ j, j < local_mat.Height → local_mat.elem j 0 = 1) ∧
    ∃ cP, (chainGD 3 0 [(0 : ℚ), 1]).BuildGDProlongation 3 = some cP ∧
      cP.Height = (chainGD 3 0 [(0 : ℚ), 1]).GetVSize ∧
      cP.Width = (chainGD 3 0 [(0 : ℚ), 1]).vdim * (chainGD 3 0 [(0 : ℚ), 1]).nEle ∧
      ∀ (c : Nat → ℚ) (i v j : Nat), i < (chainGD 3 0 [(0 : ℚ), 1]).nEle →
        v < (chainGD 3 0 [(0 : ℚ), 1]).vdim → j < (chainGD 3 0 [(0 : ℚ), 1]).Nodes.length →
        cP.Mult c (((chainGD 3 0 [(0 : ℚ), 1]).GetElementVDofs i).getD
          (v * (chainGD 3 0 [(0 : ℚ), 1]).Nodes.length + j) 0) =
          c ((chainGD 3 0 [(0 : ℚ), 1]).vdim * i + v)) :=
  ⟨rfl, chainGD_layout 3 0 [(0 : ℚ), 1],
    BuildGDProlongation_degree_zero (chainGD 3 0 [(0 : ℚ), 1]) rfl
      (chainGD_layout 3 0 [(0 : ℚ), 1]) 3⟩


/-- The round of `ProjectCoefficient` for an element with map type 1 whose
number is not below `vdim` indexes `vals` out of range. -/
theorem projectStep_out_of_range (vdim : Nat) (MapType : Nat → Int) (Weight : Nat → K)
    (Transform : Nat → K → K) (coeff : K → Nat → K) (data : List K) (i : Nat)
    (hmap : MapType i = 1) (hi : vdim ≤ i) :
    CentGridFunction.projectStep vdim MapType Weight Transform coeff data i = none := by
  unfold CentGridFunction.projectStep
  simp only [hmap, if_true, List.length_map, List.length_range]
  rw [if_neg (by omega)]

/-- The element loop of `ProjectCoefficient` fails as soon as one of its
elements has map type 1 and a number that is not below `vdim`. -/
theorem projectLoop_out_of_range (vdim : Nat) (MapType : Nat → Int) (Weight : Nat → K)
    (Transform : Nat → K → K) (coeff : K → Nat → K) (l : List Nat) (data : List K)
    (h : ∃ i, i ∈ l ∧ MapType i = 1 ∧ vdim ≤ i) :
    CentGridFunction.projectLoop vdim MapType Weight Transform coeff l data = none := by
  induction l generalizing data with
  | nil =>
    obtain ⟨i, hi, -⟩ := h
    simp at hi
  | cons a l ih =>
    simp only [CentGridFunction.projectLoop]
    cases hs : CentGridFunction.projectStep vdim MapType Weight Transform coeff data a with
    | none => rfl
    | some d =>
      obtain ⟨i, hi, hmap, hge⟩ := h
      rcases List.mem_cons.mp hi with heq | hmem
      · subst heq
        rw [projectStep_out_of_range vdim MapType Weight Transform coeff data i hmap hge] at hs
        exact absurd hs (by simp)
      · exact ih d ⟨i, hmem, hmap, hge⟩

omit [LinearOrderedField K] in
/-- Index ranges of one round of `ProjectCoefficient`: the container writes of
an element `i < NE` are below `vdim * NE`, and the accesses to `vals` are below
`vdim` exactly when the map type is not 1 or the element number is below
`vdim`. -/
theorem projection_index_ranges (vdim NE : Nat) (MapType : Nat → Int) (i : Nat) (hi : i < NE) :
    (∀ k, k ∈ CentGridFunction.dataWrites vdim i → k < vdim * NE) ∧
    ((∀ k, k ∈ CentGridFunction.valsAccess vdim MapType i → k < vdim) ↔
      (MapType i ≠ 1 ∨ i < vdim)) := by
  constructor
  · intro k hk
    obtain ⟨j, hj, rfl⟩ := List.mem_map.mp hk
    have hj2 := List.mem_range.mp hj
    calc i * vdim + j < i * vdim + vdim := by omega
      _ = vdim * (i + 1) := by ring
      _ ≤ vdim * NE := Nat.mul_le_mul_left _ (by omega)
  · unfold CentGridFunction.valsAccess
    constructor
    · intro h
      by_cases hmap : MapType i = 1
      · right
        apply h
        simp [hmap]
      · exact Or.inl hmap
    · intro h k hk
      simp only [List.mem_append, List.mem_range] at hk
      rcases hk with (hk | hk) | hk
      · exact hk
      · by_cases hmap : MapType i = 1
        · rw [if_pos hmap] at hk
          rcases h with h | h
          · exact absurd hmap h
          · have : k = i := by simpa using hk
            omega
        · rw [if_neg hmap] at hk
          simp at hk
      · exact hk

/-- C21, evaluated on a space with two elements, vector dimension 1 and an
integral-mapped basis (map type 1): in the round of element 1 the line
`vals(i) *= eltransf->Weight()` of `ProjectCoefficient` touches `vals` at index 1
although `vals` has length 1, so the projection runs out of range; the
container writes of both elements stay below `vdim * NE = 2`. -/
theorem ProjectCoefficient_vals_index_out_of_range :
    (1 ∈ CentGridFunction.valsAccess 1 (fun _ => 1) 1 ∧ ¬ (1 < 1)) ∧
    CentGridFunction.ProjectCoefficient 1 2 (fun _ => 1) (fun _ => (1 / 2 : ℚ))
      (fun i x => ((i : ℚ) + x) / 2) (fun x _ => x)
      (CentGridFunction.create 1 2 (fun _ => (7 : ℚ))) = none ∧
    (∀ i, i < 2 → ∀ k, k ∈ CentGridFunction.dataWrites 1 i → k < 1 * 2) :=
  ⟨⟨by simp [CentGridFunction.valsAccess], by omega⟩,
    projectLoop_out_of_range 1 (fun _ => 1) _ _ _ (List.range 2) _
      ⟨1, by simp, rfl, le_refl 1⟩,
    fun i hi => (projection_index_ranges 1 2 (fun _ => 1) i hi).1⟩


end GD
